import Mathlib

/-!
# Stellarium 0.8.2, `src/stel_utility.cpp`: angle and date text conversions

A shallow embedding of `get_dec_angle`, `StelUtility::printAngleDMS`,
`StelUtility::printAngleHMS` and `string_to_jday`, followed by theorems about them.

Conventions of the embedding.

* A C string is a `List Char`; `c_str` cuts a `String` at its first NUL.  A character
  stands for one byte of a single-byte encoding (`'\xBA'` is the old degree delimiter).
* A `double` is an exact rational number: every arithmetic operation is carried out
  without rounding, and a decimal literal of the source (`30.6001`, `365.25`, the
  `<math.h>` macro `M_PI`) denotes its decimal value. The one place where the rounding
  decides a statement, the distance between the Julian Days of consecutive days, has a
  second embedding in IEEE 754 binary64 arithmetic (`roundDouble`, `julianDayDouble`,
  `string_to_jday_double`): round to nearest, ties to even, each operation rounded once.
* An `int` is an `Int` reduced to 32 bits in two's complement (`wrap32`) after each
  arithmetic operation; `/` and `%` on `int` truncate towards zero.
* A `short` is an `Int` reduced to 16 bits in two's complement (`wrap16`). The scratch
  buffer of `get_dec_angle` is an exact copy of the text when `short count` holds
  `strlen(s) + 1`, that is for a text of at most 32766 bytes, and `malloc` is taken to
  succeed then; for a longer text see `get_dec_angle`.
* The C and C++ library routines used by the source (`strpbrk`, `strtok`, `atoi`,
  `strtod`, `fmod`, `floor`, `printf` conversions, `istream` extraction) are modelled
  from their standard behaviour in the "C" locale.
-/

namespace StelUtility

/-! ## Characters and C library routines -/

/-- The macro `iswhite(c)`: `((c)== ' ' || (c)=='\t')`. -/
def iswhite (c : Char) : Bool := c == ' ' || c == '\t'

/-- The C library `isspace` in the "C" locale. -/
def isspace (c : Char) : Bool :=
  c == ' ' || c == '\t' || c == '\n' || c == '\x0b' || c == '\x0c' || c == '\r'

/-- The C library `isdigit`. -/
def isdigit (c : Char) : Bool := decide ('0' ≤ c) && decide (c ≤ '9')

/-- Value of a decimal digit character. -/
def digitVal (c : Char) : Nat := c.toNat - 48

/-- The C library `isxdigit`. -/
def isxdigit (c : Char) : Bool :=
  isdigit c || (decide ('a' ≤ c) && decide (c ≤ 'f')) || (decide ('A' ≤ c) && decide (c ≤ 'F'))

/-- Value of a hexadecimal digit character. -/
def xdigitVal (c : Char) : Nat :=
  if isdigit c then c.toNat - 48
  else if decide ('a' ≤ c) && decide (c ≤ 'f') then c.toNat - 87
  else c.toNat - 55

/-- Value of a run of decimal digits, most significant first. -/
def natOfDigits (ds : List Char) : Nat := ds.foldl (fun a c => a * 10 + digitVal c) 0

/-- Value of a run of hexadecimal digits, most significant first. -/
def natOfXDigits (ds : List Char) : Nat := ds.foldl (fun a c => a * 16 + xdigitVal c) 0

/-- The bytes seen through `str.c_str()`: everything before the first NUL. -/
def c_str (str : String) : List Char := str.data.takeWhile (fun c => c != '\x00')

/-- Reduction of an integer to a 32-bit two's complement `int`. -/
def wrap32 (x : Int) : Int := (x + 2147483648) % 4294967296 - 2147483648

/-- The value of an integer stored in a `short`: reduced to 16 bits in two's complement. -/
def wrap16 (x : Int) : Int := (x + 32768) % 65536 - 32768

/-- Saturation to a 64-bit `long`, as `strtol` does on overflow. -/
def clampLong (x : Int) : Int :=
  if x < -9223372036854775808 then -9223372036854775808
  else if 9223372036854775807 < x then 9223372036854775807 else x

/-- The C library `atoi`, that is `(int) strtol(s, NULL, 10)`: skip white space, take an
optional sign and the longest run of decimal digits. -/
def atoi (s : List Char) : Int :=
  match s.dropWhile isspace with
  | '-' :: r => wrap32 (clampLong (-(natOfDigits (r.takeWhile isdigit) : Int)))
  | '+' :: r => wrap32 (clampLong (natOfDigits (r.takeWhile isdigit) : Int))
  | r => wrap32 (clampLong (natOfDigits (r.takeWhile isdigit) : Int))

/-- Scale a rational by a power of `b` with a signed exponent. -/
def scalePow (m : ℚ) (b : Nat) (neg : Bool) (e : Nat) : ℚ :=
  if neg then m / (b : ℚ) ^ e else m * (b : ℚ) ^ e

/-- Optional exponent part of a `strtod` subject: a marker character, an optional sign and
at least one decimal digit; without a digit no exponent is consumed. Returns the sign and
the magnitude of the exponent. -/
def strtodExp (isMark : Char → Bool) (s : List Char) : Bool × Nat :=
  match s with
  | [] => (false, 0)
  | m :: r =>
    if isMark m then
      match r with
      | '-' :: r1 => (true, natOfDigits (r1.takeWhile isdigit))
      | '+' :: r1 => (false, natOfDigits (r1.takeWhile isdigit))
      | _ => (false, natOfDigits (r.takeWhile isdigit))
    else (false, 0)

/-- Decimal subject of `strtod`: digits, an optional point with digits, an optional
exponent; no digit at all gives no conversion and the value `0`. -/
def strtodDec (s : List Char) : ℚ :=
  let ip := s.takeWhile isdigit
  let r := s.dropWhile isdigit
  let fp := match r with
    | '.' :: r1 => r1.takeWhile isdigit
    | _ => []
  let r2 := match r with
    | '.' :: r1 => r1.dropWhile isdigit
    | _ => r
  if ip = [] ∧ fp = [] then 0
  else
    let ex := strtodExp (fun c => c == 'e' || c == 'E') r2
    scalePow ((natOfDigits (ip ++ fp) : ℚ) / (10 : ℚ) ^ fp.length) 10 ex.1 ex.2

/-- Hexadecimal subject of `strtod`, after the `0x` prefix: `none` when no hexadecimal
digit follows the prefix (then only the `0` of the prefix is converted). -/
def strtodHex (s : List Char) : Option ℚ :=
  let ip := s.takeWhile isxdigit
  let r := s.dropWhile isxdigit
  let fp := match r with
    | '.' :: r1 => r1.takeWhile isxdigit
    | _ => []
  let r2 := match r with
    | '.' :: r1 => r1.dropWhile isxdigit
    | _ => r
  if ip = [] ∧ fp = [] then none
  else
    let ex := strtodExp (fun c => c == 'p' || c == 'P') r2
    some (scalePow ((natOfXDigits (ip ++ fp) : ℚ) / (16 : ℚ) ^ fp.length) 2 ex.1 ex.2)

/-- Unsigned subject of `strtod`. The subjects `inf`, `infinity` and `nan` are not
modelled: they contain `n` or `N`, which the caller removes as a delimiter before
`strtod` is reached. -/
def strtodAbs (s : List Char) : ℚ :=
  match s with
  | '0' :: x :: r =>
    if x == 'x' || x == 'X' then
      match strtodHex r with
      | some v => v
      | none => 0
    else strtodDec s
  | _ => strtodDec s

/-- The C library `strtod(s, NULL)`: skip white space, take an optional sign and the longest
valid floating-point subject; the value is `0` when there is no conversion. -/
def strtod (s : List Char) : ℚ :=
  match s.dropWhile isspace with
  | '-' :: r => -strtodAbs r
  | '+' :: r => strtodAbs r
  | r => strtodAbs r

/-- Whether the character `c` occurs in the C string `set`. -/
def charIn (c : Char) (set : List Char) : Bool := set.contains c

/-- The C library `strpbrk(s, accept)`: offset of the first character of `s` that occurs in
`accept`, `none` for a NULL result. -/
def strpbrk (s : List Char) (accept : List Char) : Option Nat :=
  match s with
  | [] => none
  | c :: cs => if charIn c accept then some 0 else (strpbrk cs accept).map (fun i => i + 1)

/-- The C library `strtok` with its saved position made explicit: on the text left to scan,
skip leading delimiters; the token is the longest run without a delimiter, and the
delimiter that ends it is overwritten and skipped. Returns the token (`none` for NULL) and
the text left for the next call. -/
def strtok (s : List Char) (delim : List Char) : Option (List Char) × List Char :=
  match s.dropWhile (fun c => charIn c delim) with
  | [] => (none, [])
  | c :: cs =>
    (some ((c :: cs).takeWhile (fun x => !charIn x delim)),
     ((c :: cs).dropWhile (fun x => !charIn x delim)).drop 1)

/-- The function `trim`: strips trailing blanks and tabs. -/
def trim (x : List Char) : List Char := (x.reverse.dropWhile iswhite).reverse

/-- The function `skipwhite`: advances over leading blanks and tabs. -/
def skipwhite (s : List Char) : List Char := s.dropWhile iswhite

/-! ## `get_dec_angle` -/

/-- The local `enum _type` of `get_dec_angle`. -/
inductive AngleType
  | HOURS
  | DEGREES
  | LAT
  | LONG
  deriving DecidableEq, Repr

/-- What `get_dec_angle` returns: `failure` for each `return (-0.0)`, and
`success negative pos` for the final `return (pos)`, reached with the flag `negative` and
the composed magnitude `pos` of line 252 (the value returned is `-pos` when the flag is
set). -/
inductive AngleResult
  | failure
  | success (negative : Bool) (pos : ℚ)
  deriving DecidableEq

/-- The number returned to the caller; a failure returns the zero `-0.0`. -/
def AngleResult.value : AngleResult → ℚ
  | .failure => 0
  | .success negative pos => if negative then -pos else pos

/-- Whether the final `return (pos)` was reached. -/
def AngleResult.isSuccess : AngleResult → Bool
  | .failure => false
  | .success _ _ => true

/-- The array `delim1` of `get_dec_angle`. -/
def delim1 : List Char := " :.,;DdHhMm'\n\t\xBA".data

/-- The array `delim2` of `get_dec_angle`. -/
def delim2 : List Char := " NSEWnsew\"\n\t".data

/-- Lines 195-199: the hemisphere letters and the leading sign. Returns the flag
`negative` and the text after the sign. -/
def angleSign (ptr : List Char) : Bool × List Char :=
  let negative := (strpbrk ptr "SsWw".data).isSome
  match ptr with
  | '+' :: r => (negative, r)
  | '-' :: r => (true, r)
  | _ => (negative, ptr)

/-- Lines 201-207: the unit kind inferred from the text after the sign. -/
def angleType (ptr : List Char) : AngleType :=
  match strpbrk ptr "Hh".data with
  | some hh =>
    if hh < 3 then AngleType.HOURS
    else if (strpbrk ptr "SsNn".data).isSome then AngleType.LAT else AngleType.DEGREES
  | none => if (strpbrk ptr "SsNn".data).isSome then AngleType.LAT else AngleType.DEGREES

/-- Line 234-235: the first comma of the seconds token becomes a point. -/
def commaToPoint (s : List Char) : List Char :=
  match s with
  | [] => []
  | c :: cs => if c == ',' then '.' :: cs else c :: commaToPoint cs

/-- Lines 244-248: a fourth token starting with `S`, `W`, `s` or `w` sets `negative`. -/
def trailingSign (negative : Bool) (tok : Option (List Char)) : Bool :=
  match tok with
  | none => negative
  | some t =>
    match skipwhite t with
    | [] => negative
    | c :: _ => if c == 'S' || c == 'W' || c == 's' || c == 'w' then true else negative

/-- Line 252: `pos = ((dghh*60+minutes)*60 + seconds) / 3600.0`, the products and the sum
inside the parentheses in `int`. -/
def composePos (dghh minutes : Int) (seconds : ℚ) : ℚ :=
  ((wrap32 (wrap32 (wrap32 (dghh * 60) + minutes) * 60) : ℚ) + seconds) / 3600

/-- Lines 253-264: the range check by unit kind and the final return. -/
def rangeCheck (type : AngleType) (negative : Bool) (pos : ℚ) : AngleResult :=
  if type = AngleType.HOURS ∧ pos > 24 then AngleResult.failure
  else if type = AngleType.LAT ∧ pos > 90 then AngleResult.failure
  else if pos > 180 then AngleResult.failure
  else AngleResult.success negative pos

/-- Lines 244-264 of `get_dec_angle`: the fourth `strtok` call, the composition and the
range check. -/
def angleTail (negative : Bool) (type : AngleType) (dghh minutes : Int) (seconds : ℚ)
    (rest : List Char) : AngleResult :=
  rangeCheck type (trailingSign negative (strtok rest " \n\t".data).1)
    (composePos dghh minutes seconds)

/-- Lines 209-264 of `get_dec_angle`: the `strtok` calls, the field checks, the
composition and the range check, from the flag `negative`, the unit kind and the text
after the sign. -/
def angleFields (negative : Bool) (type : AngleType) (ptr : List Char) : AngleResult :=
  match strtok ptr delim1 with
  | (none, _) => AngleResult.failure
  | (some t1, r1) =>
    match strtok r1 delim1 with
    | (none, _) => AngleResult.failure
    | (some t2, r2) =>
      if atoi t2 > 59 then AngleResult.failure
      else
        match strtok r2 delim2 with
        | (some t3, r3) =>
          if strtod (commaToPoint t3) ≥ 60 then AngleResult.failure
          else angleTail negative type (atoi t1) (atoi t2) (strtod (commaToPoint t3)) r3
        | (none, r3) => angleTail negative type (atoi t1) (atoi t2) 0 r3

/-- The function `get_dec_angle` (lines 169-266).

Line 186 stores `strlen(s) + 1` in `short count`, and line 187 hands `count` to `malloc`.
For a text of more than 32766 bytes `count` does not hold `strlen(s) + 1`. When it is
negative (a text of 32767 to 65534 bytes, and of 98303 to 131070 bytes, and so on),
`count` converted to `size_t` asks for more than the address space, `malloc` returns
`NULL` and line 188 returns `-0.0`. When it wraps to a value from 0 to 32767 (a text of
65535 to 98302 bytes, and so on), the copy of line 190 is shorter than the text and
lacks its terminator; reading it is undefined behaviour, for which the embedding takes
the `-0.0` of line 188 as well. -/
def get_dec_angle (str : String) : AngleResult :=
  let s := c_str str
  if s = [] then AngleResult.failure
  else if wrap16 ((s.length : Int) + 1) ≠ (s.length : Int) + 1 then AngleResult.failure
  else
    let ptr := skipwhite (trim s)
    let sg := angleSign ptr
    let ptr2 := skipwhite sg.2
    angleFields sg.1 (angleType ptr2) ptr2

/-! ## `printAngleDMS` and `printAngleHMS` -/

/-- The macro `M_PI` of `<math.h>`. -/
def M_PI : ℚ := 3.14159265358979323846

/-- Truncation of a `double` towards zero. -/
def trunc (q : ℚ) : Int := if 0 ≤ q then ⌊q⌋ else ⌈q⌉

/-- The cast `(int)x` of a `double`: truncation towards zero; a value outside the range of
`int` gives `INT_MIN`, the result of the x86 conversion instruction. -/
def doubleToInt (x : ℚ) : Int :=
  if -2147483648 ≤ trunc x ∧ trunc x ≤ 2147483647 then trunc x else -2147483648

/-- The C library `fmod(x, y)`: `x - n*y` with `n` the quotient `x/y` truncated towards
zero. -/
def fmod (x y : ℚ) : ℚ := x - (trunc (x / y) : ℚ) * y

/-- The character of a decimal digit. -/
def digitChar (d : Nat) : Char := Char.ofNat (48 + d)

/-- Decimal digits of `n`, most significant first, in front of `acc`; `fuel` bounds the
number of digits. -/
def natToDec : Nat → Nat → List Char → List Char
  | 0, _, acc => acc
  | fuel + 1, n, acc =>
    if n < 10 then digitChar n :: acc
    else natToDec fuel (n / 10) (digitChar (n % 10) :: acc)

/-- Decimal digits of a natural number, as `printf` writes them. -/
def fmtNat (n : Nat) : List Char := natToDec (n + 1) n []

/-- Zero padding on the left up to `k` characters. -/
def padZeros (k : Nat) (ds : List Char) : List Char := List.replicate (k - ds.length) '0' ++ ds

/-- The `printf` conversion `%.2d`: at least two digits, after the sign of a negative
value. -/
def fmt_prec2 (d : Int) : List Char :=
  if d < 0 then '-' :: padZeros 2 (fmtNat d.natAbs) else padZeros 2 (fmtNat d.natAbs)

/-- The `printf` conversion `%02d`: zero padding to a width of two characters, the sign
included. -/
def fmt_width2 (d : Int) : List Char :=
  if d < 0 then '-' :: padZeros 1 (fmtNat d.natAbs) else padZeros 2 (fmtNat d.natAbs)

/-- The `swprintf` call of lines 312-317, format `%lc%.2d%lc%.2d'%.2d"`. -/
def swprintfDMS (sign : Char) (d : Int) (degsign : Char) (m s : Int) : List Char :=
  sign :: (fmt_prec2 d ++ degsign :: (fmt_prec2 m ++ '\'' :: (fmt_prec2 s ++ ['"'])))

/-- The `swprintf` call of lines 300-305, format `%lc%.2d%lc%.2d'%.2d.%02d"`. -/
def swprintfDMSDec (sign : Char) (d : Int) (degsign : Char) (m s centi : Int) : List Char :=
  sign :: (fmt_prec2 d ++ degsign :: (fmt_prec2 m ++ '\'' :: (fmt_prec2 s
    ++ '.' :: (fmt_width2 centi ++ ['"']))))

/-- The `swprintf` call of lines 356-360, format `%.2dh%.2dm%.2ds`. -/
def swprintfHMS (h m s : Int) : List Char :=
  fmt_prec2 h ++ 'h' :: (fmt_prec2 m ++ 'm' :: (fmt_prec2 s ++ ['s']))

/-- The `swprintf` call of lines 343-347, format `%.2dh%.2dm%.2d.%02ds`. -/
def swprintfHMSDec (h m s centi : Int) : List Char :=
  fmt_prec2 h ++ 'h' :: (fmt_prec2 m ++ 'm' :: (fmt_prec2 s
    ++ '.' :: (fmt_width2 centi ++ ['s'])))

/-- Line 285 of `printAngleDMS`: `angle *= 180./M_PI`. -/
def dmsDegrees (angle : ℚ) : ℚ := angle * (180 / M_PI)

/-- Lines 280 and 287-290 of `printAngleDMS`: the sign glyph. -/
def dmsSign (angle : ℚ) : Char := if dmsDegrees angle < 0 then '-' else '+'

/-- Lines 287-290 of `printAngleDMS`: the magnitude in degrees. -/
def dmsMagnitude (angle : ℚ) : ℚ :=
  if dmsDegrees angle < 0 then dmsDegrees angle * (-1) else dmsDegrees angle

/-- Lines 293 and 307 of `printAngleDMS`: the `int d` that is decomposed, hundredths of
arcsecond with decimals and arcseconds without. -/
def dmsTicks (angle : ℚ) (decimals : Bool) : Int :=
  if decimals then doubleToInt (0.5 + dmsMagnitude angle * (60 * 60 * 100))
  else doubleToInt (0.5 + dmsMagnitude angle * (60 * 60))

/-- The function `StelUtility::printAngleDMS` (lines 276-320); `angle` in radians. -/
def printAngleDMS (angle : ℚ) (decimals useD : Bool) : String :=
  let degsign : Char := if useD then 'd' else '\u00B0'
  if decimals then
    let d0 := dmsTicks angle true
    let centi := Int.tmod d0 100
    let d1 := Int.tdiv d0 100
    let s := Int.tmod d1 60
    let d2 := Int.tdiv d1 60
    let m := Int.tmod d2 60
    let d3 := Int.tdiv d2 60
    String.mk (swprintfDMSDec (dmsSign angle) d3 degsign m s centi)
  else
    let d0 := dmsTicks angle false
    let s := Int.tmod d0 60
    let d1 := Int.tdiv d0 60
    let m := Int.tmod d1 60
    let d2 := Int.tdiv d1 60
    String.mk (swprintfDMS (dmsSign angle) d2 degsign m s)

/-- Lines 330-332 of `printAngleHMS`: the angle reduced to `[0, 2*M_PI)` and scaled to
hours. -/
def hmsHours (angle : ℚ) : ℚ :=
  let a := fmod angle (2.0 * M_PI)
  let b := if a < 0.0 then a + 2.0 * M_PI else a
  b * (12 / M_PI)

/-- Lines 334-336 and 349-351 of `printAngleHMS`: the `int h` that is decomposed,
hundredths of second with decimals and seconds without, after the 24-hour wraparound. -/
def hmsTicks (angle : ℚ) (decimals : Bool) : Int :=
  if decimals then
    let x := 0.5 + hmsHours angle * (60 * 60 * 100)
    doubleToInt (if x ≥ 24 * 60 * 60 * 100 then x - 24 * 60 * 60 * 100 else x)
  else
    let x := 0.5 + hmsHours angle * (60 * 60)
    doubleToInt (if x ≥ 24 * 60 * 60 then x - 24 * 60 * 60 else x)

/-- The function `StelUtility::printAngleHMS` (lines 326-363); `angle` in radians. -/
def printAngleHMS (angle : ℚ) (decimals : Bool) : String :=
  if decimals then
    let h0 := hmsTicks angle true
    let centi := Int.tmod h0 100
    let h1 := Int.tdiv h0 100
    let s := Int.tmod h1 60
    let h2 := Int.tdiv h1 60
    let m := Int.tmod h2 60
    let h3 := Int.tdiv h2 60
    String.mk (swprintfHMSDec h3 m s centi)
  else
    let h0 := hmsTicks angle false
    let s := Int.tmod h0 60
    let h1 := Int.tdiv h0 60
    let m := Int.tmod h1 60
    let h2 := Int.tdiv h1 60
    String.mk (swprintfHMS h2 m s)

/-! ## `string_to_jday` -/

/-- The state of the `std::istringstream`: the characters not yet read and the fail bit. -/
structure IStream where
  buf : List Char
  fail : Bool
  deriving DecidableEq

/-- The extraction `dstr >> n` of an `int` whose previous value is `old`: nothing happens
on a failed stream; leading white space is skipped; an optional sign and the longest run
of decimal digits are read; the stream fails at the end of the text (value kept), without
a digit (value `0`) and on a value outside the range of `int` (value saturated). -/
def extractInt (st : IStream) (old : Int) : IStream × Int :=
  if st.fail then (st, old)
  else
    match st.buf.dropWhile isspace with
    | [] => (IStream.mk [] true, old)
    | c :: cs =>
      let body := if c == '-' || c == '+' then cs else c :: cs
      let ds := body.takeWhile isdigit
      let rest := body.dropWhile isdigit
      if ds = [] then (IStream.mk rest true, 0)
      else
        let v : Int := if c == '-' then -(natOfDigits ds : Int) else (natOfDigits ds : Int)
        if v < -2147483648 then (IStream.mk rest true, -2147483648)
        else if 2147483647 < v then (IStream.mk rest true, 2147483647)
        else (IStream.mk rest false, v)

/-- The extraction `dstr >> tmp` of a `char`: leading white space is skipped and one
character is read; the stream fails at the end of the text. -/
def extractChar (st : IStream) : IStream :=
  if st.fail then st
  else
    match st.buf.dropWhile isspace with
    | [] => IStream.mk [] true
    | _ :: cs => IStream.mk cs false

/-- The six `int` variables of `string_to_jday`. -/
structure DateFields where
  year : Int
  month : Int
  day : Int
  hour : Int
  minute : Int
  second : Int
  deriving DecidableEq

/-- Lines 373-378: the six fields start at `0` and are read by
`dstr >> year >> tmp >> month >> tmp >> day >> tmp >> hour >> tmp >> minute >> tmp >> second`. -/
def readDate (date : String) : DateFields :=
  let y := extractInt (IStream.mk date.data false) 0
  let mo := extractInt (extractChar y.1) 0
  let d := extractInt (extractChar mo.1) 0
  let h := extractInt (extractChar d.1) 0
  let mi := extractInt (extractChar h.1) 0
  let s := extractInt (extractChar mi.1) 0
  DateFields.mk y.2 mo.2 d.2 h.2 mi.2 s.2

/-- Lines 383-388: the bounds check; `true` when a field is out of bounds. -/
def outOfBounds (f : DateFields) : Bool :=
  decide (f.year > 100000) || decide (f.year < -100000) ||
  decide (f.month < 1) || decide (f.month > 12) ||
  decide (f.day < 1) || decide (f.day > 31) ||
  decide (f.hour < 0) || decide (f.hour > 23) ||
  decide (f.minute < 0) || decide (f.minute > 59) ||
  decide (f.second < 0) || decide (f.second > 59)

/-- Lines 392-396: January and February count as months 13 and 14 of the previous year. -/
def shiftYear (year month : Int) : Int := if month ≤ 2 then wrap32 (year - 1) else year

/-- Lines 392-396, the month after the shift. -/
def shiftMonth (month : Int) : Int := if month ≤ 2 then wrap32 (month + 12) else month

/-- Lines 400-404: the correction `B`, from the shifted year and month. -/
def gregorianB (year month day : Int) : Int :=
  if year > 1582 ∨ (year = 1582 ∧ (month > 10 ∨ (month = 10 ∧ day ≥ 15))) then
    wrap32 (Int.tdiv year 400 - Int.tdiv year 100)
  else -2

/-- Lines 406-408: the Julian Day from the shifted year and month, in exact arithmetic
(`julianDayDouble` is the same expression in binary64 arithmetic). -/
def julianDay (year month day hour minute second : Int) : ℚ :=
  (⌊(365.25 : ℚ) * year⌋ : ℚ) + (⌊(30.6001 : ℚ) * (wrap32 (month + 1) : ℚ)⌋ : ℚ)
    + (gregorianB year month day : ℚ) + 1720996.5
    + (day : ℚ) + (hour : ℚ) / 24.0 + (minute : ℚ) / 1440.0 + (second : ℚ) / 86400.0

/-- The function `string_to_jday` (lines 369-412): the returned `int` and the value of the
reference parameter `jd` after the call, from the text and the value of `jd` before the
call; the Julian Day in exact arithmetic. -/
def string_to_jday (date : String) (jd : ℚ) : Int × ℚ :=
  let f := readDate date
  if outOfBounds f then (0, jd)
  else
    (1, julianDay (shiftYear f.year f.month) (shiftMonth f.month) f.day f.hour f.minute
      f.second)

/-! ## Vocabulary of the statements -/

/-- A nonempty run of decimal digits: an unsigned decimal numeral. -/
def isNumeral (ds : List Char) : Bool := !ds.isEmpty && ds.all isdigit

/-- The text handed to the first `strtok` call of `get_dec_angle`: the C string trimmed,
its leading blanks, its sign and the blanks after the sign removed. -/
def angleText (str : String) : List Char :=
  skipwhite (angleSign (skipwhite (trim (c_str str)))).2

/-- The minutes field of a text as `get_dec_angle` reads it: `atoi` of the second token,
`none` when there is no second token. -/
def minutesField (str : String) : Option Int :=
  match strtok (angleText str) delim1 with
  | (none, _) => none
  | (some _, r1) =>
    match strtok r1 delim1 with
    | (none, _) => none
    | (some t2, _) => some (atoi t2)

/-- The seconds field of a text as `get_dec_angle` reads it: `strtod` of the third token,
`none` when there is no third token. -/
def secondsField (str : String) : Option ℚ :=
  match strtok (angleText str) delim1 with
  | (none, _) => none
  | (some _, r1) =>
    match strtok r1 delim1 with
    | (none, _) => none
    | (some _, r2) =>
      match strtok r2 delim2 with
      | (none, _) => none
      | (some t3, _) => some (strtod (commaToPoint t3))

/-- The text contains one of the letters `S`, `s`, `W`, `w`. -/
def hasSouthWest (str : String) : Bool :=
  (c_str str).any (fun c => c == 'S' || c == 's' || c == 'W' || c == 'w')

/-- The text starts, after leading blanks and tabs, with `-`. -/
def startsWithMinus (str : String) : Bool :=
  match (c_str str).dropWhile iswhite with
  | '-' :: _ => true
  | _ => false

/-- The date text `Y-M-DTh:m:s`, with a `-` in front of the year when `neg` is set. -/
def dateText (neg : Bool) (Y M D h mi s : List Char) : List Char :=
  (if neg then ['-'] else []) ++ (Y ++ '-' :: (M ++ '-' :: (D ++ 'T' :: (h ++ ':' ::
    (mi ++ ':' :: s)))))

/-- The characters after the sign in the output of `printAngleDMS` with the glyph `d`:
digits, the point, `d`, the apostrophe and the double quote. -/
def isDMSChar (c : Char) : Bool :=
  isdigit c || c == '.' || c == 'd' || c == '\'' || c == '"'

/-- The characters of the output of `printAngleHMS`: digits, the point, `h`, `m`, `s`. -/
def isHMSChar (c : Char) : Bool :=
  isdigit c || c == '.' || c == 'h' || c == 'm' || c == 's'

/-- The whole-number field of a text as `get_dec_angle` reads it: `atoi` of the first
token, `none` when there is no first token. -/
def wholeField (str : String) : Option Int :=
  match strtok (angleText str) delim1 with
  | (none, _) => none
  | (some t1, _) => some (atoi t1)

/-- The sign bit of the `double` given back to the caller. A failure returns `-0.0`. On
success the composed `pos` is never `-0.0` (an `int` converted to `double` added to the
seconds is `+0.0` whenever it is zero), so `-pos` carries the sign bit exactly when
`0 ≤ pos` and `pos` carries it exactly when `pos < 0`. -/
def AngleResult.signBit : AngleResult → Bool
  | .failure => true
  | .success negative pos => if negative then decide (0 ≤ pos) else decide (pos < 0)

/-- The date text with the separators `c1` ... `c5` between the six fields, and a `-` in
front of the year when `neg` is set. -/
def dateTextSep (neg : Bool) (Y : List Char) (c1 : Char) (M : List Char) (c2 : Char)
    (D : List Char) (c3 : Char) (h : List Char) (c4 : Char) (mi : List Char) (c5 : Char)
    (s : List Char) : List Char :=
  (if neg then ['-'] else []) ++ (Y ++ c1 :: (M ++ c2 :: (D ++ c3 :: (h ++ c4 ::
    (mi ++ c5 :: s)))))

/-- The calendar routines that `get_GMT_shift_from_system` and
`get_time_zone_name_from_system` call and that are not part of this file
(`get_tm_from_julian`, `get_time_t_from_julian`, `timegm`, `localtime`, `my_strftime`),
taken as a parameter: the text that `my_strftime` writes for the conversion `%z` when the
Julian Day is UTC (`offsetUTC`) or local time (`offsetLocal`), and for `%Z` (`zoneName`). -/
structure CalendarService where
  offsetUTC : ℚ → List Char
  offsetLocal : ℚ → List Char
  zoneName : ℚ → List Char

/-- Lines 573-576 of `get_GMT_shift_from_system` on the buffer `heure` filled by
`my_strftime`: `heure[5] = '\0'`, `min = 1.f/60.f * atoi(&heure[3])`, `heure[3] = '\0'`,
`return min + atoi(heure)`. -/
def decodeOffset (heure : List Char) : ℚ :=
  1 / 60 * (atoi ((heure.take 5).drop 3) : ℚ) + (atoi ((heure.take 5).take 3) : ℚ)

/-- The function `StelUtility::get_GMT_shift_from_system` (lines 531-584), the branch
compiled when `MINGW32` is not defined. -/
def get_GMT_shift_from_system (svc : CalendarService) (JD : ℚ) (_local : Bool) : ℚ :=
  if !_local then decodeOffset (svc.offsetUTC JD) else decodeOffset (svc.offsetLocal JD)

/-- The function `StelUtility::get_time_zone_name_from_system` (lines 507-523). -/
def get_time_zone_name_from_system (svc : CalendarService) (JD : ℚ) : List Char :=
  svc.zoneName (if JD < 2440588 then 2440588 else JD)

/-- A calendar service whose offset text is always `z`. -/
def constService (z : List Char) : CalendarService :=
  CalendarService.mk (fun _ => z) (fun _ => z) (fun _ => z)

/-- A calendar service whose texts are `before` for a Julian Day below 2440588 and `after`
from there on. -/
def epochService (before after : List Char) : CalendarService :=
  CalendarService.mk (fun jd => if jd < 2440588 then before else after)
    (fun jd => if jd < 2440588 then before else after)
    (fun jd => if jd < 2440588 then before else after)

/-- The number of days of month `M` in year `Y` named by the statement on month
boundaries: February has 29 days when `Y` is divisible by 4 up to 1582 (Julian rule), and
when `Y` is divisible by 4 but not by 100 unless by 400 after 1582 (Gregorian rule). -/
def monthLength (Y M : Int) : Int :=
  if M = 2 then
    (if Y ≤ 1582 then (if Y % 4 = 0 then 29 else 28)
      else (if Y % 4 = 0 ∧ (Y % 100 ≠ 0 ∨ Y % 400 = 0) then 29 else 28))
  else if M = 4 ∨ M = 6 ∨ M = 9 ∨ M = 11 then 30
  else 31

/-- The text `Y-MM-DDThh:mm:ss` of six integer fields, the year with a leading `-` when it
is negative and the other fields with at least two digits. -/
def isoText (Y M D h mi s : Int) : String :=
  String.mk (dateText (decide (Y < 0)) (fmtNat Y.natAbs) (fmt_prec2 M) (fmt_prec2 D)
    (fmt_prec2 h) (fmt_prec2 mi) (fmt_prec2 s))

/-- Rounding of a rational number to the nearest integer, a tie going to the even one. -/
def roundHalfEven (q : ℚ) : Int :=
  if q - (⌊q⌋ : ℚ) < 1 / 2 then ⌊q⌋
  else if 1 / 2 < q - (⌊q⌋ : ℚ) then ⌊q⌋ + 1
  else if ⌊q⌋ % 2 = 0 then ⌊q⌋ else ⌊q⌋ + 1

/-- The number of halvings that bring `n` below 2, at most `fuel` of them. -/
def log2Aux : Nat → Nat → Nat
  | 0, _ => 0
  | fuel + 1, n => if n < 2 then 0 else log2Aux fuel (n / 2) + 1

/-- The integer part of the binary logarithm of a positive natural number. -/
def natLog2 (n : Nat) : Nat := log2Aux n n

/-- The binary exponent of a nonzero rational number `q`: the integer `e` with
`2^e ≤ |q| < 2^(e+1)`, found from the binary logarithms of numerator and denominator. -/
def binExp (q : ℚ) : Int :=
  if (2 : ℚ) ^ ((natLog2 q.num.natAbs : Int) - (natLog2 q.den : Int)) ≤ |q| then
    (natLog2 q.num.natAbs : Int) - (natLog2 q.den : Int)
  else (natLog2 q.num.natAbs : Int) - (natLog2 q.den : Int) - 1

/-- The IEEE 754 binary64 number nearest to `q`, a tie going to the even significand:
`q` is scaled by the power of two that brings it into `[2^52, 2^53)`, rounded to an
integer and scaled back. The exponent range is not modelled (every value met in
`string_to_jday` is zero or a normal number). -/
def roundDouble (q : ℚ) : ℚ :=
  if q = 0 then 0
  else (roundHalfEven (q / 2 ^ (binExp q - 52)) : ℚ) * 2 ^ (binExp q - 52)

/-- Lines 406-408 in binary64 arithmetic: every literal, product, quotient and sum of the
expression is rounded by `roundDouble`, in the order in which C evaluates it (the sum
from left to right); an `int` operand is converted without error. -/
def julianDayDouble (year month day hour minute second : Int) : ℚ :=
  roundDouble (roundDouble (roundDouble (roundDouble (roundDouble (roundDouble (roundDouble
    ((⌊roundDouble (roundDouble 365.25 * (year : ℚ))⌋ : ℚ)
      + (⌊roundDouble (roundDouble 30.6001 * (wrap32 (month + 1) : ℚ))⌋ : ℚ))
    + (gregorianB year month day : ℚ))
    + roundDouble 1720996.5)
    + (day : ℚ))
    + roundDouble ((hour : ℚ) / roundDouble 24.0))
    + roundDouble ((minute : ℚ) / roundDouble 1440.0))
    + roundDouble ((second : ℚ) / roundDouble 86400.0))

/-- The function `string_to_jday` (lines 369-412) with the Julian Day computed in binary64
arithmetic (`julianDayDouble`) instead of exact arithmetic. -/
def string_to_jday_double (date : String) (jd : ℚ) : Int × ℚ :=
  let f := readDate date
  if outOfBounds f then (0, jd)
  else
    (1, julianDayDouble (shiftYear f.year f.month) (shiftMonth f.month) f.day f.hour
      f.minute f.second)

/-! ## Characters, digits and tokens -/

theorem contains_eq_false_of_all (accept : List Char) (q : Char → Bool)
    (h : accept.all (fun a => !q a) = true) (c : Char) (hc : q c = true) :
    charIn c accept = false := by
  cases hcon : charIn c accept with
  | false => rfl
  | true =>
    have hmem : c ∈ accept := by simpa [charIn] using hcon
    have := (List.all_eq_true.mp h) c hmem
    simp [hc] at this

theorem strpbrk_eq_none_of_all (accept : List Char) (q : Char → Bool)
    (h : accept.all (fun a => !q a) = true) (s : List Char) (hs : ∀ c ∈ s, q c = true) :
    strpbrk s accept = none := by
  induction s with
  | nil => rfl
  | cons c cs ih =>
    have hc := contains_eq_false_of_all accept q h c (hs c (List.mem_cons_self _ _))
    have := ih (fun x hx => hs x (List.mem_cons_of_mem _ hx))
    simp [strpbrk, hc, this]

theorem isNumeral_ne_nil {ds : List Char} (h : isNumeral ds = true) : ds ≠ [] := by
  intro h0
  subst h0
  simp [isNumeral] at h

theorem isNumeral_all {ds : List Char} (h : isNumeral ds = true) :
    ∀ c ∈ ds, isdigit c = true := by
  intro c hc
  simp only [isNumeral, Bool.and_eq_true, List.all_eq_true] at h
  exact h.2 c hc

theorem strtok_token (delim tok rest : List Char) (d : Char)
    (hne : tok ≠ []) (htok : ∀ c ∈ tok, charIn c delim = false)
    (hd : charIn d delim = true) :
    strtok (tok ++ d :: rest) delim = (some tok, rest) := by
  obtain ⟨c, cs, rfl⟩ := List.exists_cons_of_ne_nil hne
  have hc : charIn c delim = false := htok c (List.mem_cons_self _ _)
  have h1 : ((c :: cs) ++ d :: rest).dropWhile (fun x => charIn x delim)
      = c :: (cs ++ d :: rest) := by
    simp [List.dropWhile_cons, hc]
  have hall : ∀ a ∈ c :: cs, (fun x => !charIn x delim) a = true := by
    intro a ha
    simp [htok a ha]
  have h2 : (c :: (cs ++ d :: rest)).takeWhile (fun x => !charIn x delim) = c :: cs := by
    have := @List.takeWhile_append_of_pos _ (fun x => !charIn x delim)
      (c :: cs) (d :: rest) hall
    simpa [hd] using this
  have h3 : (c :: (cs ++ d :: rest)).dropWhile (fun x => !charIn x delim) = d :: rest := by
    have := @List.dropWhile_append_of_pos _ (fun x => !charIn x delim)
      (c :: cs) (d :: rest) hall
    simpa [hd] using this
  unfold strtok
  rw [h1]
  simp only [h2, h3, List.drop_succ_cons, List.drop_zero]

theorem strtok_last (delim tok : List Char)
    (hne : tok ≠ []) (htok : ∀ c ∈ tok, charIn c delim = false) :
    strtok tok delim = (some tok, []) := by
  obtain ⟨c, cs, rfl⟩ := List.exists_cons_of_ne_nil hne
  have hc : charIn c delim = false := htok c (List.mem_cons_self _ _)
  have h1 : (c :: cs).dropWhile (fun x => charIn x delim) = c :: cs := by
    simp [List.dropWhile_cons, hc]
  have hall : ∀ a ∈ c :: cs, (fun x => !charIn x delim) a = true := by
    intro a ha
    simp [htok a ha]
  have h2 : (c :: cs).takeWhile (fun x => !charIn x delim) = c :: cs :=
    List.takeWhile_eq_self_iff.mpr hall
  have h3 : (c :: cs).dropWhile (fun x => !charIn x delim) = [] :=
    List.dropWhile_eq_nil_iff.mpr hall
  unfold strtok
  rw [h1]
  simp only [h2, h3, List.drop_nil]

theorem strtok_nil (delim : List Char) : strtok [] delim = (none, []) := rfl

theorem ne_of_isdigit {c x : Char} (hc : isdigit c = true) (hx : isdigit x = false) :
    c ≠ x := by
  intro h
  subst h
  simp [hc] at hx

theorem beq_false_of_isdigit {c x : Char} (hc : isdigit c = true) (hx : isdigit x = false) :
    (c == x) = false :=
  beq_eq_false_iff_ne.mpr (ne_of_isdigit hc hx)

theorem isspace_of_isdigit {c : Char} (hc : isdigit c = true) : isspace c = false := by
  simp [isspace, beq_false_of_isdigit hc (x := ' ') (by decide),
    beq_false_of_isdigit hc (x := '\t') (by decide),
    beq_false_of_isdigit hc (x := '\n') (by decide),
    beq_false_of_isdigit hc (x := '\x0b') (by decide),
    beq_false_of_isdigit hc (x := '\x0c') (by decide),
    beq_false_of_isdigit hc (x := '\r') (by decide)]

theorem iswhite_of_isdigit {c : Char} (hc : isdigit c = true) : iswhite c = false := by
  simp [iswhite, beq_false_of_isdigit hc (x := ' ') (by decide),
    beq_false_of_isdigit hc (x := '\t') (by decide)]

theorem trim_append_of_forall (A S : List Char) (hS : S ≠ [])
    (h : ∀ c ∈ S, iswhite c = false) : trim (A ++ S) = A ++ S := by
  unfold trim
  rw [List.reverse_append]
  obtain ⟨c, r, hr⟩ := List.exists_cons_of_ne_nil (l := S.reverse) (by simpa using hS)
  have hmem : c ∈ S := by
    have : c ∈ S.reverse := by
      rw [hr]
      exact List.mem_cons_self _ _
    simpa using this
  have hc : iswhite c = false := h c hmem
  rw [hr, List.cons_append, List.dropWhile_cons_of_neg (by simp [hc])]
  rw [← List.cons_append, ← hr, ← List.reverse_append, List.reverse_reverse]

theorem c_str_mk (l : List Char) (h : ∀ c ∈ l, (c != '\x00') = true) :
    c_str (String.mk l) = l := by
  unfold c_str
  exact List.takeWhile_eq_self_iff.mpr h

theorem wrap16_fits (n : Nat) : wrap16 ((n : Int) + 1) = (n : Int) + 1 ↔ n < 32767 := by
  unfold wrap16
  omega

theorem get_dec_angle_of_clean (l : List Char) (hne : l ≠ [])
    (hnul : ∀ c ∈ l, (c != '\x00') = true) (htrim : trim l = l) (hskip : skipwhite l = l)
    (hlen : l.length < 32767) :
    get_dec_angle (String.mk l)
      = angleFields (angleSign l).1 (angleType (skipwhite (angleSign l).2))
          (skipwhite (angleSign l).2) := by
  unfold get_dec_angle
  simp only [c_str_mk l hnul, htrim, hskip, if_neg hne,
    if_neg (not_not.mpr ((wrap16_fits l.length).mpr hlen))]

theorem get_dec_angle_too_long (str : String) (hlen : 32767 ≤ (c_str str).length) :
    get_dec_angle str = AngleResult.failure := by
  unfold get_dec_angle
  have h : wrap16 (((c_str str).length : Int) + 1) ≠ ((c_str str).length : Int) + 1 := by
    intro h
    have := (wrap16_fits _).mp h
    omega
  by_cases h0 : c_str str = []
  · simp only [h0, if_true]
  · simp only [if_neg h0, if_pos h]

theorem natOfDigits_foldl (ds : List Char) (a : Nat) :
    ds.foldl (fun a c => a * 10 + digitVal c) a = a * 10 ^ ds.length + natOfDigits ds := by
  induction ds generalizing a with
  | nil => simp [natOfDigits]
  | cons c cs ih =>
    simp only [List.foldl_cons, natOfDigits, List.length_cons]
    rw [ih, ih (0 * 10 + digitVal c)]
    ring

theorem natOfDigits_append (xs ys : List Char) :
    natOfDigits (xs ++ ys) = natOfDigits xs * 10 ^ ys.length + natOfDigits ys := by
  unfold natOfDigits
  rw [List.foldl_append, natOfDigits_foldl]
  rfl

theorem natOfDigits_replicate_zero (j : Nat) : natOfDigits (List.replicate j '0') = 0 := by
  induction j with
  | zero => rfl
  | succ k ih =>
    rw [List.replicate_succ', natOfDigits_append, ih]
    rfl

theorem zeros_length (k n : Nat) (l r : List Char) (h : (l ++ r).length = n) :
    ((List.replicate k '0' ++ l) ++ r).length = k + n := by
  rw [List.append_assoc, List.length_append, List.length_replicate, h]

theorem zeros_numeral (k : Nat) (ds : List Char) (h : isNumeral ds = true) :
    isNumeral (List.replicate k '0' ++ ds) = true
    ∧ natOfDigits (List.replicate k '0' ++ ds) = natOfDigits ds := by
  constructor
  · have hne := isNumeral_ne_nil h
    have hall := isNumeral_all h
    unfold isNumeral
    simp only [Bool.and_eq_true, Bool.not_eq_true', List.isEmpty_eq_false, List.all_eq_true]
    refine ⟨by simp [hne], ?_⟩
    intro c hc
    rcases List.mem_append.mp hc with h1 | h1
    · have := List.eq_of_mem_replicate h1
      subst this
      decide
    · exact hall c h1
  · rw [natOfDigits_append, natOfDigits_replicate_zero]
    simp

theorem atoi_cons_digit (c : Char) (cs : List Char) (hc : isdigit c = true) :
    atoi (c :: cs) = wrap32 (clampLong (natOfDigits ((c :: cs).takeWhile isdigit) : Int)) := by
  unfold atoi
  rw [List.dropWhile_cons_of_neg (by simp [isspace_of_isdigit hc])]
  split
  · rename_i r heq
    injection heq with h1 _
    exact absurd h1 (ne_of_isdigit hc (by decide))
  · rename_i r heq
    injection heq with h1 _
    exact absurd h1 (ne_of_isdigit hc (by decide))
  · rfl

theorem atoi_numeral (ds : List Char) (h : isNumeral ds = true)
    (hb : natOfDigits ds < 2147483648) : atoi ds = (natOfDigits ds : Int) := by
  obtain ⟨c, cs, rfl⟩ := List.exists_cons_of_ne_nil (isNumeral_ne_nil h)
  have hall := isNumeral_all h
  rw [atoi_cons_digit c cs (hall c (List.mem_cons_self _ _)),
    List.takeWhile_eq_self_iff.mpr hall]
  unfold wrap32 clampLong
  have h0 : (0 : Int) ≤ (natOfDigits (c :: cs) : Int) := Int.natCast_nonneg _
  have h1 : (natOfDigits (c :: cs) : Int) < 2147483648 := by exact_mod_cast hb
  rw [if_neg (by omega), if_neg (by omega)]
  omega

theorem commaToPoint_eq_self (s : List Char) (h : ∀ c ∈ s, (c == ',') = false) :
    commaToPoint s = s := by
  induction s with
  | nil => rfl
  | cons c cs ih =>
    have hc := h c (List.mem_cons_self _ _)
    simp only [commaToPoint, hc]
    rw [ih (fun x hx => h x (List.mem_cons_of_mem _ hx))]
    rfl

theorem strtodAbs_eq_strtodDec (s : List Char)
    (hall : ∀ c ∈ s, isdigit c = true ∨ c = '.') : strtodAbs s = strtodDec s := by
  unfold strtodAbs
  split
  · rename_i x r
    have hx : (x == 'x' || x == 'X') = false := by
      rcases hall x (by simp) with h | h
      · simp [beq_false_of_isdigit h (x := 'x') (by decide),
          beq_false_of_isdigit h (x := 'X') (by decide)]
      · subst h
        decide
    rw [hx]
    rfl
  · rfl

theorem strtod_eq_strtodDec (c : Char) (cs : List Char) (hc : isdigit c = true)
    (hall : ∀ x ∈ cs, isdigit x = true ∨ x = '.') :
    strtod (c :: cs) = strtodDec (c :: cs) := by
  have hall2 : ∀ x ∈ c :: cs, isdigit x = true ∨ x = '.' := by
    intro x hx
    rcases List.mem_cons.mp hx with h | h
    · exact Or.inl (h ▸ hc)
    · exact hall x h
  unfold strtod
  rw [List.dropWhile_cons_of_neg (by simp [isspace_of_isdigit hc])]
  split
  · rename_i r heq
    injection heq with h1 _
    exact absurd h1 (ne_of_isdigit hc (by decide))
  · rename_i r heq
    injection heq with h1 _
    exact absurd h1 (ne_of_isdigit hc (by decide))
  · exact strtodAbs_eq_strtodDec _ hall2

theorem strtodDec_digits (ip : List Char) (h : isNumeral ip = true) :
    strtodDec ip = (natOfDigits ip : ℚ) := by
  have hall := isNumeral_all h
  have hne := isNumeral_ne_nil h
  unfold strtodDec
  simp only [List.takeWhile_eq_self_iff.mpr hall, List.dropWhile_eq_nil_iff.mpr hall]
  simp [hne, strtodExp, scalePow]

theorem strtodDec_point (ip fp : List Char) (h : isNumeral ip = true)
    (hfp : ∀ c ∈ fp, isdigit c = true) :
    strtodDec (ip ++ '.' :: fp) = (natOfDigits (ip ++ fp) : ℚ) / (10 : ℚ) ^ fp.length := by
  have hall := isNumeral_all h
  have hne := isNumeral_ne_nil h
  have h1 : (ip ++ '.' :: fp).takeWhile isdigit = ip := by
    rw [List.takeWhile_append_of_pos hall]
    simp [List.takeWhile_cons, show isdigit '.' = false by decide]
  have h2 : (ip ++ '.' :: fp).dropWhile isdigit = '.' :: fp := by
    rw [List.dropWhile_append_of_pos hall]
    simp [List.dropWhile_cons, show isdigit '.' = false by decide]
  unfold strtodDec
  simp only [h1, h2, List.takeWhile_eq_self_iff.mpr hfp, List.dropWhile_eq_nil_iff.mpr hfp]
  simp [hne, strtodExp, scalePow]

theorem strtod_numeral (ip : List Char) (h : isNumeral ip = true) :
    strtod ip = (natOfDigits ip : ℚ) := by
  obtain ⟨c, cs, rfl⟩ := List.exists_cons_of_ne_nil (isNumeral_ne_nil h)
  have hall := isNumeral_all h
  rw [strtod_eq_strtodDec c cs (hall c (List.mem_cons_self _ _))
    (fun x hx => Or.inl (hall x (List.mem_cons_of_mem _ hx)))]
  exact strtodDec_digits _ h

theorem strtod_point (ip fp : List Char) (h : isNumeral ip = true)
    (hfp : ∀ c ∈ fp, isdigit c = true) :
    strtod (ip ++ '.' :: fp) = (natOfDigits (ip ++ fp) : ℚ) / (10 : ℚ) ^ fp.length := by
  obtain ⟨c, cs, rfl⟩ := List.exists_cons_of_ne_nil (isNumeral_ne_nil h)
  have hall := isNumeral_all h
  rw [List.cons_append, strtod_eq_strtodDec c (cs ++ '.' :: fp) (hall c (List.mem_cons_self _ _))]
  · rw [← List.cons_append]
    exact strtodDec_point _ _ h hfp
  · intro x hx
    rcases List.mem_append.mp hx with h1 | h1
    · exact Or.inl (hall x (List.mem_cons_of_mem _ h1))
    · rcases List.mem_cons.mp h1 with h2 | h2
      · exact Or.inr h2
      · exact Or.inl (hfp x h2)

theorem charIn_delim1_of_isdigit {c : Char} (hc : isdigit c = true) :
    charIn c delim1 = false :=
  contains_eq_false_of_all delim1 isdigit (by decide) c hc

theorem charIn_delim2_of_isdigit {c : Char} (hc : isdigit c = true) :
    charIn c delim2 = false :=
  contains_eq_false_of_all delim2 isdigit (by decide) c hc

theorem angleTail_nil (negative : Bool) (type : AngleType) (dghh minutes : Int)
    (seconds : ℚ) :
    angleTail negative type dghh minutes seconds []
      = rangeCheck type negative (composePos dghh minutes seconds) := rfl

theorem strtok_seconds (S tail : List Char) (hS : S ≠ [])
    (hS2 : ∀ c ∈ S, charIn c delim2 = false)
    (htail : tail = [] ∨ ∃ t, tail = [t] ∧ charIn t delim2 = true) :
    strtok (S ++ tail) delim2 = (some S, []) := by
  rcases htail with h | ⟨t, h, ht⟩
  · subst h
    rw [List.append_nil]
    exact strtok_last delim2 S hS hS2
  · subst h
    exact strtok_token delim2 S [] t hS hS2 ht

theorem angleFields_three (negative : Bool) (type : AngleType) (D M S tail : List Char)
    (c1 c2 : Char) (hD : isNumeral D = true) (hM : isNumeral M = true)
    (hS : S ≠ []) (hS2 : ∀ c ∈ S, charIn c delim2 = false)
    (hc1 : charIn c1 delim1 = true) (hc2 : charIn c2 delim1 = true)
    (htail : tail = [] ∨ ∃ t, tail = [t] ∧ charIn t delim2 = true) :
    angleFields negative type (D ++ c1 :: (M ++ c2 :: (S ++ tail)))
      = if atoi M > 59 then AngleResult.failure
        else if strtod (commaToPoint S) ≥ 60 then AngleResult.failure
        else rangeCheck type negative
          (composePos (atoi D) (atoi M) (strtod (commaToPoint S))) := by
  have h1 := strtok_token delim1 D (M ++ c2 :: (S ++ tail)) c1 (isNumeral_ne_nil hD)
    (fun c hc => charIn_delim1_of_isdigit (isNumeral_all hD c hc)) hc1
  have h2 := strtok_token delim1 M (S ++ tail) c2 (isNumeral_ne_nil hM)
    (fun c hc => charIn_delim1_of_isdigit (isNumeral_all hM c hc)) hc2
  have h3 := strtok_seconds S tail hS hS2 htail
  unfold angleFields
  simp only [h1, h2, h3, angleTail_nil]

theorem angleSign_of_digit_head (c : Char) (cs : List Char) (hc : isdigit c = true)
    (h : strpbrk (c :: cs) "SsWw".data = none) : angleSign (c :: cs) = (false, c :: cs) := by
  unfold angleSign
  rw [h]
  split
  · rename_i r heq
    injection heq with h1 _
    exact absurd h1 (ne_of_isdigit hc (by decide))
  · rename_i r heq
    injection heq with h1 _
    exact absurd h1 (ne_of_isdigit hc (by decide))
  · rfl

theorem angleType_degrees (s : List Char) (h1 : strpbrk s "Hh".data = none)
    (h2 : strpbrk s "SsNn".data = none) : angleType s = AngleType.DEGREES := by
  unfold angleType
  rw [h1, h2]
  rfl

theorem skipwhite_cons_of_not_white (c : Char) (cs : List Char) (hc : iswhite c = false) :
    skipwhite (c :: cs) = c :: cs := by
  unfold skipwhite
  exact List.dropWhile_cons_of_neg (by simp [hc])

theorem composePos_small (d m : Nat) (sec : ℚ) (hd : d ≤ 500000) (hm : m ≤ 59) :
    composePos (d : Int) (m : Int) sec = (((d * 3600 + m * 60 : ℕ) : ℚ) + sec) / 3600 := by
  unfold composePos
  have e1 : wrap32 ((d : Int) * 60) = (d : Int) * 60 := by
    unfold wrap32
    omega
  have e2 : wrap32 ((d : Int) * 60 + (m : Int)) = (d : Int) * 60 + (m : Int) := by
    unfold wrap32
    omega
  have e3 : wrap32 (((d : Int) * 60 + (m : Int)) * 60) = ((d : Int) * 60 + (m : Int)) * 60 := by
    unfold wrap32
    omega
  rw [e1, e2, e3]
  push_cast
  ring

theorem rangeCheck_degrees (negative : Bool) (pos : ℚ) (h : pos ≤ 180) :
    rangeCheck AngleType.DEGREES negative pos = AngleResult.success negative pos := by
  unfold rangeCheck
  rw [if_neg (by simp), if_neg (by simp), if_neg (not_lt.mpr h)]

theorem comma_false_of_isdigit {c : Char} (hc : isdigit c = true) : (c == ',') = false :=
  beq_false_of_isdigit hc (by decide)

/-! ## Composition of the three fields -/

/-- C1: for a text `D:M:S` whose fields are unsigned decimal numerals with `M ≤ 59`,
`S < 60` and `(D*3600 + M*60 + S)/3600 ≤ 180`, `get_dec_angle` succeeds, without the
negative flag, with exactly `(D*3600 + M*60 + S)/3600` (degrees or hours as written, not
radians) when the text has at most 32766 bytes; when it has from 32767 to 65534 bytes
(numerals with leading zeros) the `short count` of line 186 is negative and the call
returns the failure `-0.0` instead. `get_dec_angle("12:34:56")` is
`12 + 34/60 + 56/3600`. -/
theorem get_dec_angle_colon_fields (D M S : List Char)
    (hD : isNumeral D = true) (hM : isNumeral M = true) (hS : isNumeral S = true)
    (hm : natOfDigits M ≤ 59) (hs : natOfDigits S < 60)
    (hr : ((natOfDigits D * 3600 + natOfDigits M * 60 + natOfDigits S : ℕ) : ℚ) / 3600
      ≤ 180) :
    ((D ++ ':' :: (M ++ ':' :: S)).length < 32767 →
      get_dec_angle (String.mk (D ++ ':' :: (M ++ ':' :: S)))
          = AngleResult.success false
              (((natOfDigits D * 3600 + natOfDigits M * 60 + natOfDigits S : ℕ) : ℚ) / 3600)
      ∧ (get_dec_angle (String.mk (D ++ ':' :: (M ++ ':' :: S)))).value
          = ((natOfDigits D * 3600 + natOfDigits M * 60 + natOfDigits S : ℕ) : ℚ) / 3600)
    ∧ (32767 ≤ (D ++ ':' :: (M ++ ':' :: S)).length →
      (D ++ ':' :: (M ++ ':' :: S)).length ≤ 65534 →
      get_dec_angle (String.mk (D ++ ':' :: (M ++ ':' :: S))) = AngleResult.failure)
    ∧ (get_dec_angle "12:34:56").value = 12 + 34 / 60 + 56 / 3600 := by
  have hq0 : ∀ c ∈ D ++ ':' :: (M ++ ':' :: S), (isdigit c || c == ':') = true := by
    intro c hc
    simp only [List.mem_append, List.mem_cons] at hc
    rcases hc with h | h | h | h | h
    · simp [isNumeral_all hD c h]
    · simp [h]
    · simp [isNumeral_all hM c h]
    · simp [h]
    · simp [isNumeral_all hS c h]
  have hnul0 : ∀ c ∈ D ++ ':' :: (M ++ ':' :: S), (c != '\x00') = true := by
    intro c hc
    have h0 := contains_eq_false_of_all ['\x00'] (fun c => isdigit c || c == ':')
      (by decide) c (hq0 c hc)
    simpa [charIn] using h0
  have key : (D ++ ':' :: (M ++ ':' :: S)).length < 32767 →
      get_dec_angle (String.mk (D ++ ':' :: (M ++ ':' :: S)))
        = AngleResult.success false
            (((natOfDigits D * 3600 + natOfDigits M * 60 + natOfDigits S : ℕ) : ℚ) / 3600) := by
    intro hlen
    have hDa := isNumeral_all hD
    have hMa := isNumeral_all hM
    have hSa := isNumeral_all hS
    have hq : ∀ c ∈ D ++ ':' :: (M ++ ':' :: S), (isdigit c || c == ':') = true := by
      intro c hc
      simp only [List.mem_append, List.mem_cons] at hc
      rcases hc with h | h | h | h | h
      · simp [hDa c h]
      · simp [h]
      · simp [hMa c h]
      · simp [h]
      · simp [hSa c h]
    obtain ⟨d, D', hDeq⟩ := List.exists_cons_of_ne_nil (isNumeral_ne_nil hD)
    have hd : isdigit d = true := hDa d (by rw [hDeq]; exact List.mem_cons_self _ _)
    have hne : D ++ ':' :: (M ++ ':' :: S) ≠ [] := by simp
    have hnul : ∀ c ∈ D ++ ':' :: (M ++ ':' :: S), (c != '\x00') = true := by
      intro c hc
      have h0 := contains_eq_false_of_all ['\x00'] (fun c => isdigit c || c == ':')
        (by decide) c (hq c hc)
      simpa [charIn] using h0
    have htrim : trim (D ++ ':' :: (M ++ ':' :: S)) = D ++ ':' :: (M ++ ':' :: S) := by
      have e : D ++ ':' :: (M ++ ':' :: S) = (D ++ ':' :: (M ++ [':'])) ++ S := by simp
      rw [e]
      exact trim_append_of_forall _ S (isNumeral_ne_nil hS)
        (fun c hc => iswhite_of_isdigit (hSa c hc))
    have hhead : D ++ ':' :: (M ++ ':' :: S) = d :: (D' ++ ':' :: (M ++ ':' :: S)) := by
      rw [hDeq]
      rfl
    have hskip : skipwhite (D ++ ':' :: (M ++ ':' :: S)) = D ++ ':' :: (M ++ ':' :: S) := by
      rw [hhead]
      exact skipwhite_cons_of_not_white _ _ (iswhite_of_isdigit hd)
    have hsw := strpbrk_eq_none_of_all "SsWw".data (fun c => isdigit c || c == ':')
      (by decide) _ hq
    have hHh := strpbrk_eq_none_of_all "Hh".data (fun c => isdigit c || c == ':')
      (by decide) _ hq
    have hsn := strpbrk_eq_none_of_all "SsNn".data (fun c => isdigit c || c == ':')
      (by decide) _ hq
    have hsign : angleSign (D ++ ':' :: (M ++ ':' :: S))
        = (false, D ++ ':' :: (M ++ ':' :: S)) := by
      rw [hhead] at hsw ⊢
      exact angleSign_of_digit_head _ _ hd hsw
    rw [get_dec_angle_of_clean _ hne hnul htrim hskip hlen, hsign]
    simp only [hskip, angleType_degrees _ hHh hsn]
    have h3 := angleFields_three false AngleType.DEGREES D M S [] ':' ':' hD hM
      (isNumeral_ne_nil hS) (fun c hc => charIn_delim2_of_isdigit (hSa c hc))
      (by decide) (by decide) (Or.inl rfl)
    rw [List.append_nil] at h3
    rw [h3]
    have hsum : natOfDigits D * 3600 + natOfDigits M * 60 + natOfDigits S ≤ 648000 := by
      have h1 : ((natOfDigits D * 3600 + natOfDigits M * 60 + natOfDigits S : ℕ) : ℚ)
          ≤ 648000 := by
        have := (div_le_iff₀ (by norm_num : (0 : ℚ) < 3600)).mp hr
        linarith
      exact_mod_cast h1
    have hDb : natOfDigits D ≤ 180 := by omega
    rw [atoi_numeral M hM (by omega), atoi_numeral D hD (by omega),
      commaToPoint_eq_self S (fun c hc => comma_false_of_isdigit (hSa c hc)),
      strtod_numeral S hS]
    rw [if_neg (by omega), if_neg (by
      have : (natOfDigits S : ℚ) < 60 := by exact_mod_cast hs
      linarith)]
    rw [composePos_small _ _ _ (by omega) hm]
    have e : (((natOfDigits D * 3600 + natOfDigits M * 60 : ℕ) : ℚ) + (natOfDigits S : ℚ))
        = ((natOfDigits D * 3600 + natOfDigits M * 60 + natOfDigits S : ℕ) : ℚ) := by
      push_cast
      ring
    rw [e]
    exact rangeCheck_degrees _ _ hr
  refine ⟨fun hlen => ⟨key hlen, ?_⟩, ?_, ?_⟩
  · rw [key hlen]
    rfl
  · intro hlong _
    apply get_dec_angle_too_long
    rw [c_str_mk _ hnul0]
    exact hlong
  · decide!

/-- The text `12:34:56` meets the hypotheses of C1 and succeeds; with 32759 zeros in front
it still denotes the fields 12, 34 and 56, has 32767 bytes and fails. -/
theorem get_dec_angle_colon_fields_witness :
    get_dec_angle (String.mk ("12".data ++ ':' :: ("34".data ++ ':' :: "56".data)))
        = AngleResult.success false
            (((natOfDigits "12".data * 3600 + natOfDigits "34".data * 60
              + natOfDigits "56".data : ℕ) : ℚ) / 3600)
    ∧ natOfDigits (List.replicate 32759 '0' ++ "12".data) = 12
    ∧ get_dec_angle (String.mk ((List.replicate 32759 '0' ++ "12".data)
          ++ ':' :: ("34".data ++ ':' :: "56".data)))
        = AngleResult.failure := by
  obtain ⟨n0, v0⟩ := zeros_numeral 32759 "12".data (by decide)
  have v12 : natOfDigits (List.replicate 32759 '0' ++ "12".data) = 12 := by
    rw [v0]
    decide
  refine ⟨((get_dec_angle_colon_fields "12".data "34".data "56".data
    (by decide) (by decide) (by decide) (by decide) (by decide) (by decide!)).1
      (by decide)).1, v12, ?_⟩
  have hl := zeros_length 32759 8 "12".data (':' :: ("34".data ++ ':' :: "56".data))
    (by decide)
  exact (get_dec_angle_colon_fields (List.replicate 32759 '0' ++ "12".data) "34".data
    "56".data n0 (by decide) (by decide) (by decide) (by decide)
    (by rw [v12]; decide!)).2.1
    (by omega) (by omega)

/-! ## Range of the returned value -/

/-- C2: the text `--200:0:0` is read as the whole-number field `-200` after the sign `-`;
the composed magnitude `-200` passes every range test, which only looks for values above
the bound, and the call succeeds with the value `200`, above the bound `180` of its unit
kind (and above every other bound). -/
theorem get_dec_angle_negative_field_escapes_range :
    get_dec_angle "--200:0:0" = AngleResult.success true (-200)
    ∧ (get_dec_angle "--200:0:0").value = 200
    ∧ angleType (angleText "--200:0:0") = AngleType.DEGREES
    ∧ ¬ (|(get_dec_angle "--200:0:0").value| ≤ 180) := by
  refine ⟨by decide!, by decide!, by decide, by decide!⟩

/-! ## Bounds of the minutes and seconds fields -/

theorem get_dec_angle_eq_angleFields (str : String) (h : c_str str ≠ [])
    (hlen : (c_str str).length < 32767) :
    get_dec_angle str
      = angleFields (angleSign (skipwhite (trim (c_str str)))).1
          (angleType (angleText str)) (angleText str) := by
  unfold get_dec_angle angleText
  simp only [if_neg h, if_neg (not_not.mpr ((wrap16_fits _).mpr hlen))]

theorem get_dec_angle_cases (str : String) :
    get_dec_angle str = AngleResult.failure
    ∨ (c_str str ≠ [] ∧ (c_str str).length < 32767
        ∧ get_dec_angle str
          = angleFields (angleSign (skipwhite (trim (c_str str)))).1
              (angleType (angleText str)) (angleText str)) := by
  by_cases h0 : c_str str = []
  · left
    simp [get_dec_angle, h0]
  · by_cases hlen : (c_str str).length < 32767
    · exact Or.inr ⟨h0, hlen, get_dec_angle_eq_angleFields str h0 hlen⟩
    · exact Or.inl (get_dec_angle_too_long str (by omega))

/-- C3: the text `10:4294967296:00` has the unsigned minutes numeral 4294967296, greater
than 59, and `get_dec_angle` succeeds on it with the value 10: `atoi` hands the test
`minutes > 59` the `int` 0. What the test does reject is every text whose minutes, as the
`int` that `atoi` returns, are greater than 59, and every text whose seconds, as `strtod`
returns them, are at least 60; `10:60:00` and `10:10:60` both fail. -/
theorem get_dec_angle_minutes_seconds_bound (str : String) :
    (isNumeral "10".data = true ∧ isNumeral "4294967296".data = true
      ∧ isNumeral "00".data = true ∧ 59 < natOfDigits "4294967296".data
      ∧ minutesField (String.mk ("10".data ++ ':' :: ("4294967296".data ++ ':' :: "00".data)))
          = some 0
      ∧ get_dec_angle
          (String.mk ("10".data ++ ':' :: ("4294967296".data ++ ':' :: "00".data)))
          = AngleResult.success false 10)
    ∧ (∀ m : Int, minutesField str = some m → 59 < m →
        get_dec_angle str = AngleResult.failure)
    ∧ (∀ sec : ℚ, secondsField str = some sec → 60 ≤ sec →
        get_dec_angle str = AngleResult.failure)
    ∧ minutesField "10:60:00" = some 60
    ∧ get_dec_angle "10:60:00" = AngleResult.failure
    ∧ secondsField "10:10:60" = some 60
    ∧ get_dec_angle "10:10:60" = AngleResult.failure := by
  refine ⟨⟨by decide, by decide, by decide, by decide, by decide!, by decide!⟩, ?_, ?_,
    by decide, by decide!, by decide!, by decide!⟩
  · intro m hm h59
    rcases get_dec_angle_cases str with hf | ⟨h0, hlen, he⟩
    · exact hf
    · rw [he]
      unfold minutesField at hm
      unfold angleFields
      obtain ⟨o1, r1, h1⟩ : ∃ o r, strtok (angleText str) delim1 = (o, r) := ⟨_, _, rfl⟩
      rw [h1] at hm ⊢
      cases o1 with
      | none => rfl
      | some t1 =>
        dsimp only at hm ⊢
        obtain ⟨o2, r2, h2⟩ : ∃ o r, strtok r1 delim1 = (o, r) := ⟨_, _, rfl⟩
        rw [h2] at hm ⊢
        cases o2 with
        | none => rfl
        | some t2 =>
          dsimp only at hm ⊢
          simp only [Option.some.injEq] at hm
          rw [hm, if_pos h59]
  · intro sec hs h60
    rcases get_dec_angle_cases str with hf | ⟨h0, hlen, he⟩
    · exact hf
    · rw [he]
      unfold secondsField at hs
      unfold angleFields
      obtain ⟨o1, r1, h1⟩ : ∃ o r, strtok (angleText str) delim1 = (o, r) := ⟨_, _, rfl⟩
      rw [h1] at hs ⊢
      cases o1 with
      | none => rfl
      | some t1 =>
        dsimp only at hs ⊢
        obtain ⟨o2, r2, h2⟩ : ∃ o r, strtok r1 delim1 = (o, r) := ⟨_, _, rfl⟩
        rw [h2] at hs ⊢
        cases o2 with
        | none => rfl
        | some t2 =>
          dsimp only at hs ⊢
          obtain ⟨o3, r3, h3⟩ : ∃ o r, strtok r2 delim2 = (o, r) := ⟨_, _, rfl⟩
          rw [h3] at hs ⊢
          cases o3 with
          | none => simp at hs
          | some t3 =>
            dsimp only at hs ⊢
            simp only [Option.some.injEq] at hs
            rw [hs, if_pos h60]
            split <;> rfl

/-- The minutes field of `10:60:00` is 60, so the text fails. -/
theorem get_dec_angle_minutes_seconds_bound_witness :
    get_dec_angle "10:60:00" = AngleResult.failure :=
  (get_dec_angle_minutes_seconds_bound "10:60:00").2.1 60 (by decide) (by decide)

/-! ## The sign rule -/

theorem mem_dropWhile_of_not (p : Char → Bool) (l : List Char) (c : Char) (hc : c ∈ l)
    (hp : p c = false) : c ∈ l.dropWhile p := by
  induction l with
  | nil => cases hc
  | cons a as ih =>
    by_cases ha : p a = true
    · rw [List.dropWhile_cons_of_pos ha]
      rcases List.mem_cons.mp hc with h | h
      · subst h
        simp [hp] at ha
      · exact ih h
    · rw [List.dropWhile_cons_of_neg ha]
      exact hc

theorem head_dropWhile_false (p : Char → Bool) (l : List Char) (c : Char) (r : List Char)
    (h : l.dropWhile p = c :: r) : p c = false := by
  induction l with
  | nil => cases h
  | cons a as ih =>
    by_cases ha : p a = true
    · rw [List.dropWhile_cons_of_pos ha] at h
      exact ih h
    · rw [List.dropWhile_cons_of_neg ha] at h
      injection h with h1 _
      subst h1
      simpa using ha

theorem trim_subset (s : List Char) : ∀ c ∈ trim s, c ∈ s := by
  intro c hc
  unfold trim at hc
  have h1 : c ∈ s.reverse.dropWhile iswhite := by simpa using hc
  have h2 := List.dropWhile_subset iswhite h1
  simpa using h2

theorem mem_trim_of_not_white (s : List Char) (c : Char) (hc : c ∈ s)
    (hw : iswhite c = false) : c ∈ trim s := by
  unfold trim
  have h1 : c ∈ s.reverse := by simpa using hc
  have h2 := mem_dropWhile_of_not iswhite s.reverse c h1 hw
  simpa using h2

theorem trim_cons_of_not_white (c : Char) (r : List Char) (hc : iswhite c = false) :
    trim (c :: r) = c :: trim r := by
  unfold trim
  rw [List.reverse_cons, List.dropWhile_append]
  by_cases h : (List.dropWhile iswhite r.reverse).isEmpty = true
  · rw [if_pos h]
    have h0 : List.dropWhile iswhite r.reverse = [] := by simpa using h
    rw [h0, List.dropWhile_cons_of_neg (by simp [hc])]
    rfl
  · rw [if_neg h]
    simp

theorem trim_cons_of_white (a : Char) (r : List Char) (h : trim r ≠ []) :
    trim (a :: r) = a :: trim r := by
  unfold trim at h ⊢
  rw [List.reverse_cons, List.dropWhile_append]
  have h0 : ¬ (List.dropWhile iswhite r.reverse).isEmpty = true := by
    intro hh
    apply h
    have : List.dropWhile iswhite r.reverse = [] := by simpa using hh
    rw [this]
    rfl
  rw [if_neg h0]
  simp

theorem skipwhite_trim (s : List Char) : skipwhite (trim s) = trim (skipwhite s) := by
  induction s with
  | nil => rfl
  | cons a as ih =>
    by_cases ha : iswhite a = true
    · have e1 : skipwhite (a :: as) = skipwhite as := by
        unfold skipwhite
        exact List.dropWhile_cons_of_pos ha
      rw [e1, ← ih]
      by_cases ht : trim as = []
      · have : trim (a :: as) = [] := by
          unfold trim at ht ⊢
          rw [List.reverse_cons, List.dropWhile_append]
          have h0 : List.dropWhile iswhite as.reverse = [] := by simpa using ht
          rw [h0]
          simp [ha]
        rw [this, ht]
      · rw [trim_cons_of_white a as ht]
        unfold skipwhite
        exact List.dropWhile_cons_of_pos ha
    · have ha2 : iswhite a = false := by simpa using ha
      rw [skipwhite_cons_of_not_white a as ha2, trim_cons_of_not_white a as ha2]
      exact skipwhite_cons_of_not_white _ _ ha2

theorem strpbrk_isSome (accept s : List Char) :
    (strpbrk s accept).isSome = s.any (fun c => charIn c accept) := by
  induction s with
  | nil => rfl
  | cons c cs ih =>
    unfold strpbrk
    by_cases hc : charIn c accept = true
    · simp [hc]
    · have hc2 : charIn c accept = false := by simpa using hc
      simp only [hc2, List.any_cons, Bool.false_or, ← ih]
      cases strpbrk cs accept <;> rfl

theorem strtok_rest_subset (s delim : List Char) : ∀ c ∈ (strtok s delim).2, c ∈ s := by
  intro c hc
  unfold strtok at hc
  split at hc
  · cases hc
  · rename_i a as heq
    have h1 := List.mem_of_mem_drop hc
    have h2 := List.dropWhile_subset _ h1
    rw [← heq] at h2
    exact List.dropWhile_subset _ h2

theorem strtok_token_subset (s delim tok : List Char) (h : (strtok s delim).1 = some tok) :
    ∀ c ∈ tok, c ∈ s := by
  intro c hc
  unfold strtok at h
  split at h
  · cases h
  · rename_i a as heq
    simp only [Option.some.injEq] at h
    rw [← h] at hc
    have h2 := List.takeWhile_subset _ hc
    rw [← heq] at h2
    exact List.dropWhile_subset _ h2

theorem rangeCheck_success {type : AngleType} {n neg : Bool} {p pos : ℚ}
    (h : rangeCheck type n p = AngleResult.success neg pos) : neg = n ∧ pos = p := by
  unfold rangeCheck at h
  split at h
  · cases h
  · split at h
    · cases h
    · split at h
      · cases h
      · injection h with h1 h2
        exact ⟨h1.symm, h2.symm⟩

theorem trailingSign_eq (n : Bool) (tok : Option (List Char)) :
    trailingSign n tok = n
      ∨ (trailingSign n tok = true ∧ ∃ t c, tok = some t ∧ c ∈ t ∧
          charIn c "SsWw".data = true) := by
  unfold trailingSign
  split
  · exact Or.inl rfl
  · rename_i t
    split
    · exact Or.inl rfl
    · rename_i c r heq
      by_cases hc : (c == 'S' || c == 'W' || c == 's' || c == 'w') = true
      · right
        rw [if_pos hc]
        refine ⟨rfl, t, c, rfl, ?_, ?_⟩
        · have : c ∈ skipwhite t := by
            rw [heq]
            exact List.mem_cons_self _ _
          exact List.dropWhile_subset _ this
        · simp only [Bool.or_eq_true, beq_iff_eq] at hc
          rcases hc with ((h | h) | h) | h <;> subst h <;> decide
      · left
        rw [if_neg hc]

theorem angleTail_success {n neg : Bool} {type : AngleType} {d m : Int} {sec pos : ℚ}
    {rest : List Char} (h : angleTail n type d m sec rest = AngleResult.success neg pos) :
    neg = n ∨ (neg = true ∧ ∃ c ∈ rest, charIn c "SsWw".data = true) := by
  unfold angleTail at h
  obtain ⟨h1, _⟩ := rangeCheck_success h
  rcases trailingSign_eq n (strtok rest " \n\t".data).1 with h2 | ⟨h2, t, c, ht, hc, hcs⟩
  · left
    rw [h1, h2]
  · right
    refine ⟨by rw [h1, h2], c, strtok_token_subset _ _ _ ht c hc, hcs⟩

theorem angleFields_success {n neg : Bool} {type : AngleType} {ptr : List Char} {pos : ℚ}
    (h : angleFields n type ptr = AngleResult.success neg pos) :
    neg = n ∨ (neg = true ∧ ∃ c ∈ ptr, charIn c "SsWw".data = true) := by
  unfold angleFields at h
  obtain ⟨o1, r1, h1⟩ : ∃ o r, strtok ptr delim1 = (o, r) := ⟨_, _, rfl⟩
  have s1 : ∀ c ∈ r1, c ∈ ptr := by
    have := strtok_rest_subset ptr delim1
    rw [h1] at this
    exact this
  rw [h1] at h
  cases o1 with
  | none => cases h
  | some t1 =>
    dsimp only at h
    obtain ⟨o2, r2, h2⟩ : ∃ o r, strtok r1 delim1 = (o, r) := ⟨_, _, rfl⟩
    have s2 : ∀ c ∈ r2, c ∈ r1 := by
      have := strtok_rest_subset r1 delim1
      rw [h2] at this
      exact this
    rw [h2] at h
    cases o2 with
    | none => cases h
    | some t2 =>
      dsimp only at h
      split at h
      · cases h
      · obtain ⟨o3, r3, h3⟩ : ∃ o r, strtok r2 delim2 = (o, r) := ⟨_, _, rfl⟩
        have s3 : ∀ c ∈ r3, c ∈ r2 := by
          have := strtok_rest_subset r2 delim2
          rw [h3] at this
          exact this
        rw [h3] at h
        have key : ∀ sec, angleTail n type (atoi t1) (atoi t2) sec r3
            = AngleResult.success neg pos →
            neg = n ∨ (neg = true ∧ ∃ c ∈ ptr, charIn c "SsWw".data = true) := by
          intro sec hh
          rcases angleTail_success hh with h4 | ⟨h4, c, hc, hcs⟩
          · exact Or.inl h4
          · exact Or.inr ⟨h4, c, s1 c (s2 c (s3 c hc)), hcs⟩
        cases o3 with
        | none => exact key _ h
        | some t3 =>
          dsimp only at h
          split at h
          · cases h
          · exact key _ h

theorem angleSign_fst (ptr : List Char) :
    (angleSign ptr).1
      = ((strpbrk ptr "SsWw".data).isSome || decide (ptr.head? = some '-')) := by
  unfold angleSign
  split
  · simp
  · simp
  · rename_i h1 h2
    cases ptr with
    | nil => simp
    | cons c r =>
      have hc : c ≠ '-' := by
        intro h
        subst h
        exact h2 r rfl
      simp [hc]

theorem angleSign_snd_subset (ptr : List Char) : ∀ c ∈ (angleSign ptr).2, c ∈ ptr := by
  intro c hc
  unfold angleSign at hc
  split at hc
  · exact List.mem_cons_of_mem _ hc
  · exact List.mem_cons_of_mem _ hc
  · exact hc

theorem startsWithMinus_eq (str : String) :
    startsWithMinus str = decide ((skipwhite (trim (c_str str))).head? = some '-') := by
  unfold startsWithMinus
  rw [skipwhite_trim]
  unfold skipwhite
  cases h : List.dropWhile iswhite (c_str str) with
  | nil => rfl
  | cons c r =>
    have hw := head_dropWhile_false iswhite _ c r h
    rw [trim_cons_of_not_white c r hw]
    by_cases hc : c = '-'
    · subst hc
      simp
    · simp only [List.head?_cons, Option.some.injEq, hc, decide_False]
      split
      · rename_i heq
        injection heq with h1 _
        exact absurd h1 hc
      · rfl

theorem hasSouthWest_eq (str : String) :
    hasSouthWest str = (strpbrk (skipwhite (trim (c_str str))) "SsWw".data).isSome := by
  rw [strpbrk_isSome]
  unfold hasSouthWest
  rw [Bool.eq_iff_iff, List.any_eq_true, List.any_eq_true]
  constructor
  · rintro ⟨c, hc, hsw⟩
    have hch : charIn c "SsWw".data = true := by
      simp only [Bool.or_eq_true, beq_iff_eq] at hsw
      rcases hsw with ((h | h) | h) | h <;> subst h <;> decide
    have hw : iswhite c = false := by
      simp only [Bool.or_eq_true, beq_iff_eq] at hsw
      rcases hsw with ((h | h) | h) | h <;> subst h <;> decide
    refine ⟨c, ?_, hch⟩
    unfold skipwhite
    exact mem_dropWhile_of_not iswhite _ c (mem_trim_of_not_white _ c hc hw) hw
  · rintro ⟨c, hc, hch⟩
    refine ⟨c, trim_subset _ c (List.dropWhile_subset _ hc), ?_⟩
    have : c ∈ "SsWw".data := by simpa [charIn] using hch
    simp only [List.mem_cons, List.mem_singleton] at this
    rcases this with h | h | h | h
    · subst h; decide
    · subst h; decide
    · subst h; decide
    · rcases h with h | h
      · subst h; decide
      · cases h

theorem get_dec_angle_negative_flag (str : String) (neg : Bool) (pos : ℚ)
    (h : get_dec_angle str = AngleResult.success neg pos) :
    neg = (hasSouthWest str || startsWithMinus str) := by
  rcases get_dec_angle_cases str with hf | ⟨h0, hlen, he⟩
  · rw [hf] at h
    cases h
  rw [he] at h
  rw [hasSouthWest_eq, startsWithMinus_eq, ← angleSign_fst]
  rcases angleFields_success h with h1 | ⟨h1, c, hc, hcs⟩
  · exact h1
  · rw [h1, angleSign_fst]
    have hmem : c ∈ skipwhite (trim (c_str str)) := by
      unfold angleText at hc
      exact angleSign_snd_subset _ c (List.dropWhile_subset _ hc)
    have : (strpbrk (skipwhite (trim (c_str str))) "SsWw".data).isSome = true := by
      rw [strpbrk_isSome, List.any_eq_true]
      exact ⟨c, hmem, hcs⟩
    rw [this]
    rfl

/-- C4: the text `2147483647:0:0` has three unsigned numerals, no letter `S`, `s`, `W`,
`w` and no leading `-`; the `int` product `dghh*60` of line 252 wraps, the composed
magnitude is `-1`, it passes the range tests and the call succeeds with the negative
value `-1`. Whenever `get_dec_angle` succeeds with a positive composed magnitude, the
returned value is negative exactly when the text contains one of `S`, `s`, `W`, `w` or
starts, after leading blanks, with `-`, and it is positive otherwise; a leading `+` does
not cancel a hemisphere letter: `45:00:00S`, `-45:00:00` and `+45:00:00S` all give
`-45`. -/
theorem get_dec_angle_sign_rule (str : String) (neg : Bool) (pos : ℚ)
    (h : get_dec_angle str = AngleResult.success neg pos) (hpos : 0 < pos) :
    (isNumeral "2147483647".data = true ∧ isNumeral "0".data = true
      ∧ get_dec_angle (String.mk ("2147483647".data ++ ':' :: ("0".data ++ ':' :: "0".data)))
          = AngleResult.success false (-1)
      ∧ (get_dec_angle
          (String.mk ("2147483647".data ++ ':' :: ("0".data ++ ':' :: "0".data)))).value = -1
      ∧ hasSouthWest (String.mk ("2147483647".data ++ ':' :: ("0".data ++ ':' :: "0".data)))
          = false
      ∧ startsWithMinus
          (String.mk ("2147483647".data ++ ':' :: ("0".data ++ ':' :: "0".data))) = false)
    ∧ ((get_dec_angle str).value < 0 ↔ (hasSouthWest str || startsWithMinus str) = true)
    ∧ ((hasSouthWest str || startsWithMinus str) = false → 0 < (get_dec_angle str).value)
    ∧ (get_dec_angle "45:00:00S").value = -45
    ∧ (get_dec_angle "-45:00:00").value = -45
    ∧ (get_dec_angle "+45:00:00S").value = -45
    ∧ (get_dec_angle "45:00:00").value = 45 := by
  have hflag := get_dec_angle_negative_flag str neg pos h
  refine ⟨⟨by decide, by decide, by decide!, by decide!, by decide, by decide⟩, ?_, ?_,
    by decide!, by decide!, by decide!, by decide!⟩
  · rw [h, ← hflag]
    cases neg with
    | true =>
      simp only [AngleResult.value, if_true]
      constructor
      · intro _
        trivial
      · intro _
        linarith
    | false =>
      simp only [AngleResult.value]
      constructor
      · intro hlt
        simp at hlt
        linarith
      · intro hf
        cases hf
  · intro hm
    rw [h]
    rw [← hflag] at hm
    subst hm
    simpa [AngleResult.value] using hpos

/-- The text `45:00:00S` succeeds with the positive magnitude `45` and is negated. -/
theorem get_dec_angle_sign_rule_witness :
    (get_dec_angle "45:00:00S").value < 0
      ↔ (hasSouthWest "45:00:00S" || startsWithMinus "45:00:00S") = true :=
  (get_dec_angle_sign_rule "45:00:00S" true 45 (by decide!) (by norm_num)).2.1

/-! ## Decimal rendering -/

theorem digitChar_isdigit (d : Nat) (h : d < 10) : isdigit (digitChar d) = true := by
  interval_cases d <;> decide

theorem digitChar_val (d : Nat) (h : d < 10) : digitVal (digitChar d) = d := by
  interval_cases d <;> decide

theorem isNumeral_singleton (c : Char) (h : isdigit c = true) : isNumeral [c] = true := by
  simp [isNumeral, h]

theorem isNumeral_append (xs ys : List Char) (hx : ∀ c ∈ xs, isdigit c = true)
    (hy : isNumeral ys = true) : isNumeral (xs ++ ys) = true := by
  have hne := isNumeral_ne_nil hy
  have hall := isNumeral_all hy
  simp only [isNumeral, Bool.and_eq_true, Bool.not_eq_true', List.isEmpty_eq_false,
    List.all_eq_true]
  refine ⟨by simp [hne], ?_⟩
  intro c hc
  rcases List.mem_append.mp hc with h | h
  · exact hx c h
  · exact hall c h

theorem natToDec_spec (k : Nat) : ∀ n, n < 10 ^ (k + 1) →
    ∃ ds, (∀ acc, natToDec (k + 1) n acc = ds ++ acc) ∧ isNumeral ds = true
      ∧ natOfDigits ds = n := by
  induction k with
  | zero =>
    intro n hn
    have hn10 : n < 10 := by simpa using hn
    refine ⟨[digitChar n], ?_, isNumeral_singleton _ (digitChar_isdigit n hn10), ?_⟩
    · intro acc
      simp [natToDec, hn10]
    · simp [natOfDigits, digitChar_val n hn10]
  | succ k ih =>
    intro n hn
    by_cases hn10 : n < 10
    · refine ⟨[digitChar n], ?_, isNumeral_singleton _ (digitChar_isdigit n hn10), ?_⟩
      · intro acc
        simp [natToDec, hn10]
      · simp [natOfDigits, digitChar_val n hn10]
    · have hq : n / 10 < 10 ^ (k + 1) := by
        rw [Nat.div_lt_iff_lt_mul (by norm_num)]
        calc n < 10 ^ (k + 1 + 1) := hn
          _ = 10 ^ (k + 1) * 10 := by ring
      obtain ⟨ds, h1, h2, h3⟩ := ih (n / 10) hq
      have hr : n % 10 < 10 := Nat.mod_lt _ (by norm_num)
      refine ⟨ds ++ [digitChar (n % 10)], ?_, ?_, ?_⟩
      · intro acc
        rw [natToDec, if_neg hn10, h1]
        simp
      · exact isNumeral_append ds _ (isNumeral_all h2)
          (isNumeral_singleton _ (digitChar_isdigit _ hr))
      · rw [natOfDigits_append, h3]
        simp only [List.length_singleton, pow_one, natOfDigits, List.foldl_cons,
          List.foldl_nil, zero_mul, zero_add, digitChar_val _ hr]
        omega

theorem fmtNat_spec (n : Nat) : isNumeral (fmtNat n) = true ∧ natOfDigits (fmtNat n) = n := by
  have hn : n < 10 ^ (n + 1) :=
    lt_of_lt_of_le (Nat.lt_pow_self (by norm_num) n) (Nat.pow_le_pow_right (by norm_num)
      (Nat.le_succ n))
  obtain ⟨ds, h1, h2, h3⟩ := natToDec_spec n n hn
  have : fmtNat n = ds := by
    unfold fmtNat
    rw [h1]
    simp
  rw [this]
  exact ⟨h2, h3⟩

theorem natOfDigits_zeros (j : Nat) : natOfDigits (List.replicate j '0') = 0 := by
  induction j with
  | zero => rfl
  | succ j ih =>
    have e : List.replicate (j + 1) '0' = ['0'] ++ List.replicate j '0' := by
      simp [List.replicate_succ]
    rw [e, natOfDigits_append, ih]
    simp [natOfDigits, digitVal]

theorem padZeros_spec (k : Nat) (ds : List Char) (h : isNumeral ds = true) :
    isNumeral (padZeros k ds) = true ∧ natOfDigits (padZeros k ds) = natOfDigits ds := by
  unfold padZeros
  refine ⟨isNumeral_append _ ds ?_ h, ?_⟩
  · intro c hc
    have := List.eq_of_mem_replicate hc
    subst this
    decide
  · rw [natOfDigits_append, natOfDigits_zeros]
    simp

theorem fmt_prec2_spec (d : Int) (h : 0 ≤ d) :
    isNumeral (fmt_prec2 d) = true ∧ (natOfDigits (fmt_prec2 d) : Int) = d := by
  unfold fmt_prec2
  rw [if_neg (not_lt.mpr h)]
  obtain ⟨h1, h2⟩ := fmtNat_spec d.natAbs
  obtain ⟨h3, h4⟩ := padZeros_spec 2 _ h1
  refine ⟨h3, ?_⟩
  rw [h4, h2]
  omega

theorem fmt_width2_spec (d : Int) (h : 0 ≤ d) :
    isNumeral (fmt_width2 d) = true ∧ (natOfDigits (fmt_width2 d) : Int) = d := by
  unfold fmt_width2
  rw [if_neg (not_lt.mpr h)]
  obtain ⟨h1, h2⟩ := fmtNat_spec d.natAbs
  obtain ⟨h3, h4⟩ := padZeros_spec 2 _ h1
  refine ⟨h3, ?_⟩
  rw [h4, h2]
  omega

theorem fmt_two_length : ∀ n : Fin 100, (padZeros 2 (fmtNat n.val)).length = 2 := by
  decide

theorem fmt_prec2_length (d : Int) (h0 : 0 ≤ d) (h1 : d < 100) :
    (fmt_prec2 d).length = 2 := by
  unfold fmt_prec2
  rw [if_neg (not_lt.mpr h0)]
  have hlt : d.natAbs < 100 := by omega
  exact fmt_two_length ⟨d.natAbs, hlt⟩

theorem fmt_width2_length (d : Int) (h0 : 0 ≤ d) (h1 : d < 100) :
    (fmt_width2 d).length = 2 := by
  unfold fmt_width2
  rw [if_neg (not_lt.mpr h0)]
  have hlt : d.natAbs < 100 := by omega
  exact fmt_two_length ⟨d.natAbs, hlt⟩

theorem natToDec_length_le (fuel : Nat) :
    ∀ (n : Nat) (acc : List Char), (natToDec fuel n acc).length ≤ fuel + acc.length := by
  induction fuel with
  | zero =>
    intro n acc
    simp [natToDec]
  | succ k ih =>
    intro n acc
    unfold natToDec
    split
    · simp only [List.length_cons]
      omega
    · have := ih (n / 10) (digitChar (n % 10) :: acc)
      simp only [List.length_cons] at this
      omega

theorem fmt_prec2_length_le (d : Int) (h0 : 0 ≤ d) : (fmt_prec2 d).length ≤ d.natAbs + 3 := by
  unfold fmt_prec2 padZeros fmtNat
  rw [if_neg (not_lt.mpr h0)]
  have := natToDec_length_le (d.natAbs + 1) d.natAbs []
  simp only [List.length_append, List.length_replicate, List.length_nil] at this ⊢
  omega

/-! ## The integer decomposed by the formatters -/

theorem M_PI_pos : 0 < M_PI := by
  unfold M_PI
  norm_num

theorem trunc_of_nonneg (q : ℚ) (h : 0 ≤ q) : trunc q = ⌊q⌋ := by
  unfold trunc
  rw [if_pos h]

theorem doubleToInt_of_nonneg (x : ℚ) (h0 : 0 ≤ x) (h1 : ⌊x⌋ ≤ 2147483647) :
    doubleToInt x = ⌊x⌋ := by
  unfold doubleToInt
  rw [trunc_of_nonneg x h0]
  have : (0 : ℤ) ≤ ⌊x⌋ := Int.floor_nonneg.mpr h0
  rw [if_pos ⟨by omega, h1⟩]

theorem dmsDegrees_neg_iff (angle : ℚ) : dmsDegrees angle < 0 ↔ angle < 0 := by
  unfold dmsDegrees
  have h : (0 : ℚ) < 180 / M_PI := div_pos (by norm_num) M_PI_pos
  constructor
  · intro h1
    by_contra h2
    have : 0 ≤ angle * (180 / M_PI) := mul_nonneg (not_lt.mp h2) h.le
    linarith
  · intro h1
    exact mul_neg_of_neg_of_pos h1 h

theorem dmsMagnitude_eq_abs (angle : ℚ) : dmsMagnitude angle = |dmsDegrees angle| := by
  unfold dmsMagnitude
  by_cases h : dmsDegrees angle < 0
  · rw [if_pos h, abs_of_neg h]
    ring
  · rw [if_neg h, abs_of_nonneg (not_lt.mp h)]

theorem dmsSign_eq (angle : ℚ) : dmsSign angle = if angle < 0 then '-' else '+' := by
  unfold dmsSign
  by_cases h : angle < 0
  · rw [if_pos h, if_pos ((dmsDegrees_neg_iff angle).mpr h)]
  · rw [if_neg h, if_neg (fun h1 => h ((dmsDegrees_neg_iff angle).mp h1))]

theorem dmsTicks_false (angle : ℚ) (hfit : ⌊|dmsDegrees angle| * 3600 + 1 / 2⌋ ≤ 2147483647) :
    dmsTicks angle false = ⌊|dmsDegrees angle| * 3600 + 1 / 2⌋ := by
  unfold dmsTicks
  rw [dmsMagnitude_eq_abs]
  have e : (0.5 : ℚ) + |dmsDegrees angle| * (60 * 60) = |dmsDegrees angle| * 3600 + 1 / 2 := by
    norm_num
    ring
  simp only [Bool.false_eq_true, if_false]
  rw [e]
  exact doubleToInt_of_nonneg _ (by positivity) hfit

theorem dmsTicks_true (angle : ℚ)
    (hfit : ⌊|dmsDegrees angle| * 360000 + 1 / 2⌋ ≤ 2147483647) :
    dmsTicks angle true = ⌊|dmsDegrees angle| * 360000 + 1 / 2⌋ := by
  unfold dmsTicks
  rw [dmsMagnitude_eq_abs]
  have e : (0.5 : ℚ) + |dmsDegrees angle| * (60 * 60 * 100)
      = |dmsDegrees angle| * 360000 + 1 / 2 := by
    norm_num
    ring
  simp only [if_true]
  rw [e]
  exact doubleToInt_of_nonneg _ (by positivity) hfit

theorem tdiv_tmod_nonneg (n k : Int) (hn : 0 ≤ n) (hk : 0 < k) :
    Int.tdiv n k = n / k ∧ Int.tmod n k = n % k :=
  ⟨Int.tdiv_eq_ediv hn hk.le, Int.tmod_eq_emod hn hk.le⟩

theorem printAngleDMS_false_eq (angle : ℚ) (useD : Bool) (n : Int) (hn : 0 ≤ n)
    (ht : dmsTicks angle false = n) :
    printAngleDMS angle false useD
      = String.mk (swprintfDMS (if angle < 0 then '-' else '+') (n / 60 / 60)
          (if useD then 'd' else '°') (n / 60 % 60) (n % 60)) := by
  unfold printAngleDMS
  simp only [Bool.false_eq_true, if_false, ht, dmsSign_eq]
  have h60 : (0 : Int) ≤ n / 60 := Int.ediv_nonneg hn (by norm_num)
  rw [(tdiv_tmod_nonneg n 60 hn (by norm_num)).1, (tdiv_tmod_nonneg n 60 hn (by norm_num)).2,
    (tdiv_tmod_nonneg (n / 60) 60 h60 (by norm_num)).1,
    (tdiv_tmod_nonneg (n / 60) 60 h60 (by norm_num)).2]

theorem printAngleDMS_true_eq (angle : ℚ) (useD : Bool) (n : Int) (hn : 0 ≤ n)
    (ht : dmsTicks angle true = n) :
    printAngleDMS angle true useD
      = String.mk (swprintfDMSDec (if angle < 0 then '-' else '+') (n / 100 / 60 / 60)
          (if useD then 'd' else '°') (n / 100 / 60 % 60) (n / 100 % 60) (n % 100)) := by
  unfold printAngleDMS
  simp only [if_true, ht, dmsSign_eq]
  have h100 : (0 : Int) ≤ n / 100 := Int.ediv_nonneg hn (by norm_num)
  have h60 : (0 : Int) ≤ n / 100 / 60 := Int.ediv_nonneg h100 (by norm_num)
  rw [(tdiv_tmod_nonneg n 100 hn (by norm_num)).1, (tdiv_tmod_nonneg n 100 hn (by norm_num)).2,
    (tdiv_tmod_nonneg (n / 100) 60 h100 (by norm_num)).1,
    (tdiv_tmod_nonneg (n / 100) 60 h100 (by norm_num)).2,
    (tdiv_tmod_nonneg (n / 100 / 60) 60 h60 (by norm_num)).1,
    (tdiv_tmod_nonneg (n / 100 / 60) 60 h60 (by norm_num)).2]

/-! ## Carry in `printAngleDMS` -/

/-- C9: when the rounded magnitude `n = floor(|angle in degrees| * 3600 + 0.5)` fits an
`int`, `printAngleDMS` without decimals prints the sign and fields `deg`, `min`, `sec`
with `deg*3600 + min*60 + sec = n` and `min`, `sec` in `[0,59]`; with decimals and
`n = floor(|angle in degrees| * 360000 + 0.5)` it prints fields with
`deg*360000 + min*6000 + sec*100 + centi = n`, `min`, `sec` in `[0,59]` and `centi` in
`[0,99]`. The sign glyph is `-` exactly when the angle is negative, and `0` radians
without decimals prints `+00°00'00"`. -/
theorem printAngleDMS_carry (angle : ℚ) (useD : Bool) :
    (⌊|dmsDegrees angle| * 3600 + 1 / 2⌋ ≤ 2147483647 →
      ∃ d m s : ℤ,
        printAngleDMS angle false useD
          = String.mk (swprintfDMS (if angle < 0 then '-' else '+') d
              (if useD then 'd' else '°') m s)
        ∧ d * 3600 + m * 60 + s = ⌊|dmsDegrees angle| * 3600 + 1 / 2⌋
        ∧ 0 ≤ d ∧ 0 ≤ m ∧ m ≤ 59 ∧ 0 ≤ s ∧ s ≤ 59)
    ∧ (⌊|dmsDegrees angle| * 360000 + 1 / 2⌋ ≤ 2147483647 →
      ∃ d m s c : ℤ,
        printAngleDMS angle true useD
          = String.mk (swprintfDMSDec (if angle < 0 then '-' else '+') d
              (if useD then 'd' else '°') m s c)
        ∧ d * 360000 + m * 6000 + s * 100 + c = ⌊|dmsDegrees angle| * 360000 + 1 / 2⌋
        ∧ 0 ≤ d ∧ 0 ≤ m ∧ m ≤ 59 ∧ 0 ≤ s ∧ s ≤ 59 ∧ 0 ≤ c ∧ c ≤ 99)
    ∧ printAngleDMS 0 false false = "+00°00'00\"" := by
  refine ⟨?_, ?_, by decide!⟩
  · intro hfit
    have hn : (0 : ℤ) ≤ ⌊|dmsDegrees angle| * 3600 + 1 / 2⌋ :=
      Int.floor_nonneg.mpr (by positivity)
    refine ⟨_, _, _, printAngleDMS_false_eq angle useD _ hn (dmsTicks_false angle hfit), ?_⟩
    generalize ⌊|dmsDegrees angle| * 3600 + 1 / 2⌋ = n at hn
    omega
  · intro hfit
    have hn : (0 : ℤ) ≤ ⌊|dmsDegrees angle| * 360000 + 1 / 2⌋ :=
      Int.floor_nonneg.mpr (by positivity)
    refine ⟨_, _, _, _, printAngleDMS_true_eq angle useD _ hn (dmsTicks_true angle hfit), ?_⟩
    generalize ⌊|dmsDegrees angle| * 360000 + 1 / 2⌋ = n at hn
    omega

/-- One radian fits: its fields without decimals add up to the rounded arcseconds. -/
theorem printAngleDMS_carry_witness :
    ∃ d m s : ℤ,
      printAngleDMS 1 false true
        = String.mk (swprintfDMS (if (1 : ℚ) < 0 then '-' else '+') d
            (if true = true then 'd' else '°') m s)
      ∧ d * 3600 + m * 60 + s = ⌊|dmsDegrees 1| * 3600 + 1 / 2⌋
      ∧ 0 ≤ d ∧ 0 ≤ m ∧ m ≤ 59 ∧ 0 ≤ s ∧ s ≤ 59 :=
  (printAngleDMS_carry 1 true).1 (by decide!)

/-! ## `printAngleHMS` prints a time of day -/

theorem trunc_frac (q : ℚ) :
    -1 < q - (trunc q : ℚ) ∧ q - (trunc q : ℚ) < 1
      ∧ (0 ≤ q → 0 ≤ q - (trunc q : ℚ)) ∧ (q < 0 → q - (trunc q : ℚ) ≤ 0) := by
  unfold trunc
  by_cases h : 0 ≤ q
  · rw [if_pos h]
    have h1 := Int.floor_le q
    have h2 := Int.lt_floor_add_one q
    refine ⟨by linarith, by linarith, fun _ => by linarith, fun hq => by linarith⟩
  · rw [if_neg h]
    have h1 := Int.le_ceil q
    have h2 := Int.ceil_lt_add_one q
    refine ⟨by linarith, by linarith, fun hq => absurd hq h, fun _ => by linarith⟩

theorem fmod_eq (x y : ℚ) (hy : 0 < y) : fmod x y = (x / y - (trunc (x / y) : ℚ)) * y := by
  unfold fmod
  have hy0 : y ≠ 0 := ne_of_gt hy
  rw [sub_mul, div_mul_cancel₀ x hy0]

theorem hmsHours_range (angle : ℚ) : 0 ≤ hmsHours angle ∧ hmsHours angle < 24 := by
  have hpi := M_PI_pos
  have hy : (0 : ℚ) < 2.0 * M_PI := by
    norm_num
    exact hpi
  have hk : (0 : ℚ) < 12 / M_PI := div_pos (by norm_num) hpi
  obtain ⟨f1, f2, f3, f4⟩ := trunc_frac (angle / (2.0 * M_PI))
  have hb : ∀ b : ℚ, 0 ≤ b → b < 2.0 * M_PI → 0 ≤ b * (12 / M_PI) ∧ b * (12 / M_PI) < 24 := by
    intro b hb0 hb1
    refine ⟨mul_nonneg hb0 hk.le, ?_⟩
    have e : b * (12 / M_PI) = b * 12 / M_PI := by ring
    rw [e, div_lt_iff₀ hpi]
    norm_num at hb1
    linarith
  unfold hmsHours
  simp only
  rw [fmod_eq _ _ hy]
  by_cases hneg : (angle / (2.0 * M_PI) - (trunc (angle / (2.0 * M_PI)) : ℚ)) * (2.0 * M_PI) < 0.0
  · rw [if_pos hneg]
    apply hb
    · have : -(1 : ℚ) * (2.0 * M_PI)
          < (angle / (2.0 * M_PI) - (trunc (angle / (2.0 * M_PI)) : ℚ)) * (2.0 * M_PI) :=
        mul_lt_mul_of_pos_right f1 hy
      linarith
    · norm_num at hneg ⊢
      linarith
  · rw [if_neg hneg]
    apply hb
    · norm_num at hneg ⊢
      exact hneg
    · have : (angle / (2.0 * M_PI) - (trunc (angle / (2.0 * M_PI)) : ℚ)) * (2.0 * M_PI)
          < 1 * (2.0 * M_PI) := mul_lt_mul_of_pos_right f2 hy
      linarith

theorem hmsTicks_false_eq (angle : ℚ) :
    hmsTicks angle false
      = if 86400 ≤ hmsHours angle * 3600 + 1 / 2 then 0
        else ⌊hmsHours angle * 3600 + 1 / 2⌋ := by
  obtain ⟨h0, h24⟩ := hmsHours_range angle
  unfold hmsTicks
  simp only [Bool.false_eq_true, if_false]
  have e : (0.5 : ℚ) + hmsHours angle * (60 * 60) = hmsHours angle * 3600 + 1 / 2 := by
    norm_num
    ring
  rw [e]
  by_cases hw : (86400 : ℚ) ≤ hmsHours angle * 3600 + 1 / 2
  · rw [if_pos hw, if_pos (by norm_num; linarith)]
    have hx0 : (0 : ℚ) ≤ hmsHours angle * 3600 + 1 / 2 - 24 * 60 * 60 := by
      norm_num
      linarith
    have hfl : ⌊hmsHours angle * 3600 + 1 / 2 - 24 * 60 * 60⌋ = 0 := by
      rw [Int.floor_eq_iff]
      constructor
      · simpa using hx0
      · norm_num
        linarith
    rw [doubleToInt_of_nonneg _ hx0 (by rw [hfl]; norm_num), hfl]
  · rw [if_neg hw, if_neg (by norm_num; linarith)]
    have hx0 : (0 : ℚ) ≤ hmsHours angle * 3600 + 1 / 2 := by positivity
    have hlt : ⌊hmsHours angle * 3600 + 1 / 2⌋ < 86400 := by
      rw [Int.floor_lt]
      push_cast
      linarith
    exact doubleToInt_of_nonneg _ hx0 (by omega)

theorem hmsTicks_true_eq (angle : ℚ) :
    hmsTicks angle true
      = if 8640000 ≤ hmsHours angle * 360000 + 1 / 2 then 0
        else ⌊hmsHours angle * 360000 + 1 / 2⌋ := by
  obtain ⟨h0, h24⟩ := hmsHours_range angle
  unfold hmsTicks
  simp only [if_true]
  have e : (0.5 : ℚ) + hmsHours angle * (60 * 60 * 100)
      = hmsHours angle * 360000 + 1 / 2 := by
    norm_num
    ring
  rw [e]
  by_cases hw : (8640000 : ℚ) ≤ hmsHours angle * 360000 + 1 / 2
  · rw [if_pos hw, if_pos (by norm_num; linarith)]
    have hx0 : (0 : ℚ) ≤ hmsHours angle * 360000 + 1 / 2 - 24 * 60 * 60 * 100 := by
      norm_num
      linarith
    have hfl : ⌊hmsHours angle * 360000 + 1 / 2 - 24 * 60 * 60 * 100⌋ = 0 := by
      rw [Int.floor_eq_iff]
      constructor
      · simpa using hx0
      · norm_num
        linarith
    rw [doubleToInt_of_nonneg _ hx0 (by rw [hfl]; norm_num), hfl]
  · rw [if_neg hw, if_neg (by norm_num; linarith)]
    have hx0 : (0 : ℚ) ≤ hmsHours angle * 360000 + 1 / 2 := by positivity
    have hlt : ⌊hmsHours angle * 360000 + 1 / 2⌋ < 8640000 := by
      rw [Int.floor_lt]
      push_cast
      linarith
    exact doubleToInt_of_nonneg _ hx0 (by omega)

theorem hmsTicks_false_range (angle : ℚ) :
    0 ≤ hmsTicks angle false ∧ hmsTicks angle false ≤ 86399 := by
  obtain ⟨h0, h24⟩ := hmsHours_range angle
  rw [hmsTicks_false_eq]
  split
  · exact ⟨le_refl _, by norm_num⟩
  · rename_i hw
    have hx0 : (0 : ℚ) ≤ hmsHours angle * 3600 + 1 / 2 := by positivity
    have hlt : ⌊hmsHours angle * 3600 + 1 / 2⌋ < 86400 := by
      rw [Int.floor_lt]
      push_cast
      linarith
    exact ⟨Int.floor_nonneg.mpr hx0, by omega⟩

theorem hmsTicks_true_range (angle : ℚ) :
    0 ≤ hmsTicks angle true ∧ hmsTicks angle true ≤ 8639999 := by
  obtain ⟨h0, h24⟩ := hmsHours_range angle
  rw [hmsTicks_true_eq]
  split
  · exact ⟨le_refl _, by norm_num⟩
  · rename_i hw
    have hx0 : (0 : ℚ) ≤ hmsHours angle * 360000 + 1 / 2 := by positivity
    have hlt : ⌊hmsHours angle * 360000 + 1 / 2⌋ < 8640000 := by
      rw [Int.floor_lt]
      push_cast
      linarith
    exact ⟨Int.floor_nonneg.mpr hx0, by omega⟩

theorem printAngleHMS_false_eq (angle : ℚ) (n : Int) (hn : 0 ≤ n)
    (ht : hmsTicks angle false = n) :
    printAngleHMS angle false
      = String.mk (swprintfHMS (n / 60 / 60) (n / 60 % 60) (n % 60)) := by
  unfold printAngleHMS
  simp only [Bool.false_eq_true, if_false, ht]
  have h60 : (0 : Int) ≤ n / 60 := Int.ediv_nonneg hn (by norm_num)
  rw [(tdiv_tmod_nonneg n 60 hn (by norm_num)).1, (tdiv_tmod_nonneg n 60 hn (by norm_num)).2,
    (tdiv_tmod_nonneg (n / 60) 60 h60 (by norm_num)).1,
    (tdiv_tmod_nonneg (n / 60) 60 h60 (by norm_num)).2]

theorem printAngleHMS_true_eq (angle : ℚ) (n : Int) (hn : 0 ≤ n)
    (ht : hmsTicks angle true = n) :
    printAngleHMS angle true
      = String.mk (swprintfHMSDec (n / 100 / 60 / 60) (n / 100 / 60 % 60) (n / 100 % 60)
          (n % 100)) := by
  unfold printAngleHMS
  simp only [if_true, ht]
  have h100 : (0 : Int) ≤ n / 100 := Int.ediv_nonneg hn (by norm_num)
  have h60 : (0 : Int) ≤ n / 100 / 60 := Int.ediv_nonneg h100 (by norm_num)
  rw [(tdiv_tmod_nonneg n 100 hn (by norm_num)).1, (tdiv_tmod_nonneg n 100 hn (by norm_num)).2,
    (tdiv_tmod_nonneg (n / 100) 60 h100 (by norm_num)).1,
    (tdiv_tmod_nonneg (n / 100) 60 h100 (by norm_num)).2,
    (tdiv_tmod_nonneg (n / 100 / 60) 60 h60 (by norm_num)).1,
    (tdiv_tmod_nonneg (n / 100 / 60) 60 h60 (by norm_num)).2]

/-- C10: for every angle, negative ones included, `printAngleHMS` prints an hour field in
`[0,23]`, minute and second fields in `[0,59]` and, with decimals, a centisecond field in
`[0,99]`; an angle whose hours round up to 24 is printed as `00h00m00s` (`00h00m00.00s`
with decimals); and `M_PI` radians without decimals prints `12h00m00s`. -/
theorem printAngleHMS_time_of_day (angle : ℚ) :
    (∃ h m s : ℤ, printAngleHMS angle false = String.mk (swprintfHMS h m s)
        ∧ 0 ≤ h ∧ h ≤ 23 ∧ 0 ≤ m ∧ m ≤ 59 ∧ 0 ≤ s ∧ s ≤ 59)
    ∧ (∃ h m s c : ℤ, printAngleHMS angle true = String.mk (swprintfHMSDec h m s c)
        ∧ 0 ≤ h ∧ h ≤ 23 ∧ 0 ≤ m ∧ m ≤ 59 ∧ 0 ≤ s ∧ s ≤ 59 ∧ 0 ≤ c ∧ c ≤ 99)
    ∧ (24 * 3600 ≤ hmsHours angle * 3600 + 1 / 2 → printAngleHMS angle false = "00h00m00s")
    ∧ (24 * 360000 ≤ hmsHours angle * 360000 + 1 / 2 →
        printAngleHMS angle true = "00h00m00.00s")
    ∧ printAngleHMS M_PI false = "12h00m00s" := by
  refine ⟨?_, ?_, ?_, ?_, by decide!⟩
  · obtain ⟨h0, h1⟩ := hmsTicks_false_range angle
    refine ⟨_, _, _, printAngleHMS_false_eq angle _ h0 rfl, ?_⟩
    generalize hmsTicks angle false = n at h0 h1
    omega
  · obtain ⟨h0, h1⟩ := hmsTicks_true_range angle
    refine ⟨_, _, _, _, printAngleHMS_true_eq angle _ h0 rfl, ?_⟩
    generalize hmsTicks angle true = n at h0 h1
    omega
  · intro hw
    have ht : hmsTicks angle false = 0 := by
      rw [hmsTicks_false_eq, if_pos (by norm_num at hw ⊢; linarith)]
    rw [printAngleHMS_false_eq angle 0 (le_refl _) ht]
    decide
  · intro hw
    have ht : hmsTicks angle true = 0 := by
      rw [hmsTicks_true_eq, if_pos (by norm_num at hw ⊢; linarith)]
    rw [printAngleHMS_true_eq angle 0 (le_refl _) ht]
    decide

/-- An angle just below a full turn rounds up to 24 hours and is printed as midnight. -/
theorem printAngleHMS_time_of_day_witness :
    printAngleHMS (-1 / 100000000) false = "00h00m00s" :=
  (printAngleHMS_time_of_day (-1 / 100000000)).2.2.1 (by decide!)

/-! ## Reading the six date fields -/

theorem takeWhile_digits_append (ds rest : List Char) (hds : ∀ c ∈ ds, isdigit c = true)
    (hrest : ∀ c r, rest = c :: r → isdigit c = false) :
    (ds ++ rest).takeWhile isdigit = ds ∧ (ds ++ rest).dropWhile isdigit = rest := by
  rw [List.takeWhile_append_of_pos hds, List.dropWhile_append_of_pos hds]
  cases rest with
  | nil => simp
  | cons c r =>
    have hc := hrest c r rfl
    simp [List.takeWhile_cons, List.dropWhile_cons, hc]

theorem extractInt_numeral (ds rest : List Char) (old : Int) (h : isNumeral ds = true)
    (hrest : ∀ c r, rest = c :: r → isdigit c = false)
    (hb : natOfDigits ds ≤ 2147483647) :
    extractInt (IStream.mk (ds ++ rest) false) old
      = (IStream.mk rest false, (natOfDigits ds : Int)) := by
  obtain ⟨c, cs, rfl⟩ := List.exists_cons_of_ne_nil (isNumeral_ne_nil h)
  have hall := isNumeral_all h
  have hc : isdigit c = true := hall c (List.mem_cons_self _ _)
  obtain ⟨t1, t2⟩ := takeWhile_digits_append (c :: cs) rest hall hrest
  rw [List.cons_append] at t1 t2
  have hp : (c == '+') = false := beq_false_of_isdigit hc (by decide)
  have hm2 : (c == '-') = false := beq_false_of_isdigit hc (by decide)
  unfold extractInt
  simp only [Bool.false_eq_true, if_false, List.cons_append]
  rw [List.dropWhile_cons_of_neg (by simp [isspace_of_isdigit hc])]
  simp only [hm2, hp, Bool.or_self, Bool.false_eq_true, if_false, t1, t2]
  have h0 : (0 : Int) ≤ (natOfDigits (c :: cs) : Int) := Int.natCast_nonneg _
  have h1 : (natOfDigits (c :: cs) : Int) ≤ 2147483647 := by exact_mod_cast hb
  rw [if_neg (by simp), if_neg (by omega), if_neg (by omega)]

theorem extractInt_minus (ds rest : List Char) (old : Int) (h : isNumeral ds = true)
    (hrest : ∀ c r, rest = c :: r → isdigit c = false)
    (hb : natOfDigits ds ≤ 2147483647) :
    extractInt (IStream.mk ('-' :: (ds ++ rest)) false) old
      = (IStream.mk rest false, -(natOfDigits ds : Int)) := by
  have hall := isNumeral_all h
  have hne := isNumeral_ne_nil h
  obtain ⟨t1, t2⟩ := takeWhile_digits_append ds rest hall hrest
  unfold extractInt
  simp only [Bool.false_eq_true, if_false]
  rw [List.dropWhile_cons_of_neg (by decide)]
  simp only [beq_self_eq_true, Bool.true_or, if_true, t1, t2]
  have h0 : (0 : Int) ≤ (natOfDigits ds : Int) := Int.natCast_nonneg _
  have h1 : (natOfDigits ds : Int) ≤ 2147483647 := by exact_mod_cast hb
  rw [if_neg hne, if_neg (by omega), if_neg (by omega)]

theorem extractChar_cons (c : Char) (rest : List Char) (hc : isspace c = false) :
    extractChar (IStream.mk (c :: rest) false) = IStream.mk rest false := by
  unfold extractChar
  simp only [Bool.false_eq_true, if_false]
  rw [List.dropWhile_cons_of_neg (by simp [hc])]

theorem readDate_dateText (neg : Bool) (Y M D h mi s : List Char)
    (hY : isNumeral Y = true) (hM : isNumeral M = true) (hD : isNumeral D = true)
    (hh : isNumeral h = true) (hmi : isNumeral mi = true) (hs : isNumeral s = true)
    (bY : natOfDigits Y ≤ 2147483647) (bM : natOfDigits M ≤ 2147483647)
    (bD : natOfDigits D ≤ 2147483647) (bh : natOfDigits h ≤ 2147483647)
    (bmi : natOfDigits mi ≤ 2147483647) (bs : natOfDigits s ≤ 2147483647) :
    readDate (String.mk (dateText neg Y M D h mi s))
      = DateFields.mk (if neg then -(natOfDigits Y : Int) else (natOfDigits Y : Int))
          (natOfDigits M) (natOfDigits D) (natOfDigits h) (natOfDigits mi)
          (natOfDigits s) := by
  have sep : ∀ (x : Char) (t : List Char), isdigit x = false →
      ∀ c r, x :: t = c :: r → isdigit c = false := by
    intro x t hx c r heq
    injection heq with h1 _
    rw [← h1]
    exact hx
  have e1 : extractInt (IStream.mk (dateText neg Y M D h mi s) false) 0
      = (IStream.mk ('-' :: (M ++ '-' :: (D ++ 'T' :: (h ++ ':' :: (mi ++ ':' :: s))))) false,
          if neg then -(natOfDigits Y : Int) else (natOfDigits Y : Int)) := by
    unfold dateText
    cases neg with
    | true =>
      simp only [if_true, List.singleton_append]
      exact extractInt_minus Y _ 0 hY (sep '-' _ (by decide)) bY
    | false =>
      simp only [Bool.false_eq_true, if_false, List.nil_append]
      exact extractInt_numeral Y _ 0 hY (sep '-' _ (by decide)) bY
  have c1 := extractChar_cons '-' (M ++ '-' :: (D ++ 'T' :: (h ++ ':' :: (mi ++ ':' :: s))))
    (by decide)
  have e2 := extractInt_numeral M ('-' :: (D ++ 'T' :: (h ++ ':' :: (mi ++ ':' :: s)))) 0 hM
    (sep '-' _ (by decide)) bM
  have c2 := extractChar_cons '-' (D ++ 'T' :: (h ++ ':' :: (mi ++ ':' :: s))) (by decide)
  have e3 := extractInt_numeral D ('T' :: (h ++ ':' :: (mi ++ ':' :: s))) 0 hD
    (sep 'T' _ (by decide)) bD
  have c3 := extractChar_cons 'T' (h ++ ':' :: (mi ++ ':' :: s)) (by decide)
  have e4 := extractInt_numeral h (':' :: (mi ++ ':' :: s)) 0 hh (sep ':' _ (by decide)) bh
  have c4 := extractChar_cons ':' (mi ++ ':' :: s) (by decide)
  have e5 := extractInt_numeral mi (':' :: s) 0 hmi (sep ':' _ (by decide)) bmi
  have c5 := extractChar_cons ':' s (by decide)
  have e6 := extractInt_numeral s [] 0 hs (by intro c r hcr; cases hcr) bs
  rw [List.append_nil] at e6
  unfold readDate
  simp only [String.data, e1, c1, e2, c2, e3, c3, e4, c4, e5, c5, e6]

/-! ## The Julian Day formula and the bounds check -/

theorem string_to_jday_of_fields (date : String) (jd : ℚ) (f : DateFields)
    (hf : readDate date = f) (hb : outOfBounds f = false) :
    string_to_jday date jd
      = (1, julianDay (shiftYear f.year f.month) (shiftMonth f.month) f.day f.hour f.minute
          f.second) := by
  unfold string_to_jday
  simp only [hf, hb, Bool.false_eq_true, if_false]

theorem string_to_jday_of_out (date : String) (jd : ℚ)
    (hb : outOfBounds (readDate date) = true) : string_to_jday date jd = (0, jd) := by
  unfold string_to_jday
  simp only [hb, if_true]

theorem wrap32_small (x : Int) (h0 : -2147483648 ≤ x) (h1 : x ≤ 2147483647) :
    wrap32 x = x := by
  unfold wrap32
  omega

theorem outOfBounds_iff (f : DateFields) :
    outOfBounds f = true ↔
      (f.year > 100000 ∨ f.year < -100000 ∨ f.month < 1 ∨ f.month > 12 ∨ f.day < 1
        ∨ f.day > 31 ∨ f.hour < 0 ∨ f.hour > 23 ∨ f.minute < 0 ∨ f.minute > 59
        ∨ f.second < 0 ∨ f.second > 59) := by
  unfold outOfBounds
  simp only [Bool.or_eq_true, decide_eq_true_eq]
  tauto

/-- C7: for every text `Y-M-DTh:m:s` (optionally `-Y`) whose six fields are unsigned
numerals passing the validation, `string_to_jday` returns 1 and sets
`jd = floor(365.25*y') + floor(30.6001*(m'+1)) + B + 1720996.5 + D + h/24 + m/1440 + s/86400`
with `(y', m') = (Y-1, M+12)` if `M ≤ 2` and `(Y, M)` otherwise and `B` the calendar
correction; `string_to_jday("2000-01-01T12:00:00")` succeeds with `jd = 2451545.0`. -/
theorem string_to_jday_formula (neg : Bool) (Y M D h mi s : List Char) (jd0 : ℚ)
    (hY : isNumeral Y = true) (hM : isNumeral M = true) (hD : isNumeral D = true)
    (hh : isNumeral h = true) (hmi : isNumeral mi = true) (hs : isNumeral s = true)
    (bY : natOfDigits Y ≤ 100000) (bM1 : 1 ≤ natOfDigits M) (bM2 : natOfDigits M ≤ 12)
    (bD1 : 1 ≤ natOfDigits D) (bD2 : natOfDigits D ≤ 31) (bh : natOfDigits h ≤ 23)
    (bmi : natOfDigits mi ≤ 59) (bs : natOfDigits s ≤ 59) :
    string_to_jday (String.mk (dateText neg Y M D h mi s)) jd0
      = (1,
          (⌊(365.25 : ℚ) * ((if natOfDigits M ≤ 2
              then (if neg then -(natOfDigits Y : ℤ) else (natOfDigits Y : ℤ)) - 1
              else (if neg then -(natOfDigits Y : ℤ) else (natOfDigits Y : ℤ)) : ℤ) : ℚ)⌋ : ℚ)
          + (⌊(30.6001 : ℚ) * (((if natOfDigits M ≤ 2 then (natOfDigits M : ℤ) + 12
              else (natOfDigits M : ℤ) : ℤ) : ℚ) + 1)⌋ : ℚ)
          + (gregorianB
              (if natOfDigits M ≤ 2
                then (if neg then -(natOfDigits Y : ℤ) else (natOfDigits Y : ℤ)) - 1
                else (if neg then -(natOfDigits Y : ℤ) else (natOfDigits Y : ℤ)))
              (if natOfDigits M ≤ 2 then (natOfDigits M : ℤ) + 12 else (natOfDigits M : ℤ))
              (natOfDigits D) : ℚ)
          + 1720996.5 + (natOfDigits D : ℚ) + (natOfDigits h : ℚ) / 24
          + (natOfDigits mi : ℚ) / 1440 + (natOfDigits s : ℚ) / 86400)
    ∧ string_to_jday "2000-01-01T12:00:00" jd0 = (1, 2451545.0) := by
  constructor
  · have hf := readDate_dateText neg Y M D h mi s hY hM hD hh hmi hs (by omega) (by omega)
      (by omega) (by omega) (by omega) (by omega)
    have hy : -100000 ≤ (if neg then -(natOfDigits Y : ℤ) else (natOfDigits Y : ℤ))
        ∧ (if neg then -(natOfDigits Y : ℤ) else (natOfDigits Y : ℤ)) ≤ 100000 := by
      cases neg <;> simp <;> omega
    generalize (if neg then -(natOfDigits Y : ℤ) else (natOfDigits Y : ℤ)) = y at hf hy ⊢
    have hb : outOfBounds (DateFields.mk y (natOfDigits M) (natOfDigits D) (natOfDigits h)
        (natOfDigits mi) (natOfDigits s)) = false := by
      rw [Bool.eq_false_iff]
      intro hcon
      rw [outOfBounds_iff] at hcon
      simp only at hcon
      omega
    rw [string_to_jday_of_fields _ jd0 _ hf hb]
    simp only
    unfold julianDay shiftYear shiftMonth
    by_cases hm : natOfDigits M ≤ 2
    · have hm' : (natOfDigits M : ℤ) ≤ 2 := by exact_mod_cast hm
      simp only [hm, hm', if_true]
      rw [wrap32_small (y - 1) (by omega) (by omega),
        wrap32_small ((natOfDigits M : ℤ) + 12) (by omega) (by omega),
        wrap32_small ((natOfDigits M : ℤ) + 12 + 1) (by omega) (by omega)]
      push_cast
      norm_num
    · have hm' : ¬ (natOfDigits M : ℤ) ≤ 2 := by
        intro hcon
        exact hm (by exact_mod_cast hcon)
      simp only [hm, hm', if_false]
      rw [wrap32_small ((natOfDigits M : ℤ) + 1) (by omega) (by omega)]
      push_cast
      norm_num
  · have hf : readDate "2000-01-01T12:00:00" = DateFields.mk 2000 1 1 12 0 0 := by decide
    rw [string_to_jday_of_fields _ jd0 _ hf (by decide)]
    have : julianDay (shiftYear 2000 1) (shiftMonth 1) 1 12 0 0 = 2451545.0 := by decide!
    simp only [this]

/-- The fields of `2000-01-01T12:00:00` pass the validation, and the call returns 1. -/
theorem string_to_jday_formula_witness :
    (string_to_jday (String.mk (dateText false "2000".data "01".data "01".data "12".data
      "00".data "00".data)) 0).1 = 1 :=
  congrArg Prod.fst (string_to_jday_formula false "2000".data "01".data "01".data "12".data
    "00".data "00".data 0 (by decide) (by decide) (by decide) (by decide) (by decide)
    (by decide) (by decide) (by decide) (by decide) (by decide) (by decide) (by decide)
    (by decide) (by decide)).1

/-- C8: `string_to_jday` returns 0 exactly when a field it has read is out of bounds
(year outside `[-100000, 100000]`, month outside `[1,12]`, day outside `[1,31]`, hour
outside `[0,23]`, minute or second outside `[0,59]`) and 1 otherwise; when it returns 0
the caller's `jd` is unchanged. Month 13, day 32, hour 24, minute 60 and second 60 are
rejected, and day 31 is accepted for every month. -/
theorem string_to_jday_bounds (date : String) (jd : ℚ) :
    ((string_to_jday date jd).1 = 0 ↔
      ((readDate date).year > 100000 ∨ (readDate date).year < -100000
        ∨ (readDate date).month < 1 ∨ (readDate date).month > 12
        ∨ (readDate date).day < 1 ∨ (readDate date).day > 31
        ∨ (readDate date).hour < 0 ∨ (readDate date).hour > 23
        ∨ (readDate date).minute < 0 ∨ (readDate date).minute > 59
        ∨ (readDate date).second < 0 ∨ (readDate date).second > 59))
    ∧ ((string_to_jday date jd).1 = 0 ∨ (string_to_jday date jd).1 = 1)
    ∧ ((string_to_jday date jd).1 = 0 → (string_to_jday date jd).2 = jd)
    ∧ string_to_jday "2000-13-01T12:00:00" jd = (0, jd)
    ∧ string_to_jday "2000-01-32T12:00:00" jd = (0, jd)
    ∧ string_to_jday "2000-01-01T24:00:00" jd = (0, jd)
    ∧ string_to_jday "2000-01-01T12:60:00" jd = (0, jd)
    ∧ string_to_jday "2000-01-01T12:00:60" jd = (0, jd)
    ∧ (∀ M : List Char, isNumeral M = true → 1 ≤ natOfDigits M → natOfDigits M ≤ 12 →
        (string_to_jday (String.mk (dateText false "2001".data M "31".data "00".data
          "00".data "00".data)) jd).1 = 1) := by
  refine ⟨?_, ?_, ?_, string_to_jday_of_out _ jd (by decide),
    string_to_jday_of_out _ jd (by decide), string_to_jday_of_out _ jd (by decide),
    string_to_jday_of_out _ jd (by decide), string_to_jday_of_out _ jd (by decide), ?_⟩
  · rw [← outOfBounds_iff]
    cases hb : outOfBounds (readDate date) with
    | true => simp [string_to_jday_of_out date jd hb]
    | false => simp [string_to_jday_of_fields date jd _ rfl hb]
  · cases hb : outOfBounds (readDate date) with
    | true => simp [string_to_jday_of_out date jd hb]
    | false => simp [string_to_jday_of_fields date jd _ rfl hb]
  · cases hb : outOfBounds (readDate date) with
    | true => simp [string_to_jday_of_out date jd hb]
    | false => simp [string_to_jday_of_fields date jd _ rfl hb]
  · intro M hM b1 b2
    have hf := readDate_dateText false "2001".data M "31".data "00".data "00".data
      "00".data (by decide) hM (by decide) (by decide) (by decide) (by decide) (by decide)
      (by omega) (by decide) (by decide) (by decide) (by decide)
    have hb : outOfBounds (DateFields.mk
        (if false = true then -(natOfDigits "2001".data : ℤ) else (natOfDigits "2001".data : ℤ))
        (natOfDigits M) (natOfDigits "31".data) (natOfDigits "00".data)
        (natOfDigits "00".data) (natOfDigits "00".data)) = false := by
      rw [Bool.eq_false_iff]
      intro hcon
      rw [outOfBounds_iff] at hcon
      have e1 : natOfDigits "2001".data = 2001 := by decide
      have e2 : natOfDigits "31".data = 31 := by decide
      have e3 : natOfDigits "00".data = 0 := by decide
      simp only [e1, e2, e3, Bool.false_eq_true, if_false] at hcon
      omega
    rw [string_to_jday_of_fields _ jd _ hf hb]

/-- The text `2001-02-31T00:00:00` names month 2 and day 31 and is accepted. -/
theorem string_to_jday_bounds_witness :
    (string_to_jday (String.mk (dateText false "2001".data "02".data "31".data "00".data
      "00".data "00".data)) 0).1 = 1 :=
  (string_to_jday_bounds "" 0).2.2.2.2.2.2.2.2 "02".data (by decide) (by decide) (by decide)

/-! ## Reading back a formatted angle -/

theorem strpbrk_append_hit (accept xs r : List Char) (c : Char)
    (hxs : ∀ x ∈ xs, charIn x accept = false) (hc : charIn c accept = true) :
    strpbrk (xs ++ c :: r) accept = some xs.length := by
  induction xs with
  | nil => simp [strpbrk, hc]
  | cons a as ih =>
    have ha := hxs a (List.mem_cons_self _ _)
    have := ih (fun x hx => hxs x (List.mem_cons_of_mem _ hx))
    simp [strpbrk, ha, this]

theorem strpbrk_cons_miss (accept s : List Char) (a : Char) (ha : charIn a accept = false) :
    (strpbrk (a :: s) accept).isSome = (strpbrk s accept).isSome := by
  simp only [strpbrk, ha, Bool.false_eq_true, if_false]
  cases strpbrk s accept <;> rfl

theorem angleFields_numeric (negative : Bool) (type : AngleType) (D M S tail : List Char)
    (c1 c2 : Char) (sec : ℚ) (hD : isNumeral D = true) (hM : isNumeral M = true)
    (hS : S ≠ []) (hS2 : ∀ c ∈ S, charIn c delim2 = false)
    (hc1 : charIn c1 delim1 = true) (hc2 : charIn c2 delim1 = true)
    (htail : tail = [] ∨ ∃ t, tail = [t] ∧ charIn t delim2 = true)
    (bD : natOfDigits D ≤ 500000) (bM : natOfDigits M ≤ 59)
    (hsec : strtod (commaToPoint S) = sec) (bsec : sec < 60) :
    angleFields negative type (D ++ c1 :: (M ++ c2 :: (S ++ tail)))
      = rangeCheck type negative
          ((((natOfDigits D * 3600 + natOfDigits M * 60 : ℕ) : ℚ) + sec) / 3600) := by
  rw [angleFields_three negative type D M S tail c1 c2 hD hM hS hS2 hc1 hc2 htail,
    atoi_numeral M hM (by omega), atoi_numeral D hD (by omega), hsec,
    if_neg (by omega), if_neg (not_le.mpr bsec), composePos_small _ _ _ bD bM]

theorem get_dec_angle_signed (sg b : Char) (bs : List Char)
    (hsg : sg = '+' ∨ sg = '-') (hb : isdigit b = true)
    (hnul : ∀ c ∈ b :: bs, (c != '\x00') = true) (htrim : trim (b :: bs) = b :: bs)
    (hlen : (sg :: b :: bs).length < 32767) :
    get_dec_angle (String.mk (sg :: b :: bs))
      = angleFields ((strpbrk (b :: bs) "SsWw".data).isSome || sg == '-')
          (angleType (b :: bs)) (b :: bs) := by
  have hsgw : iswhite sg = false := by
    rcases hsg with h | h <;> subst h <;> decide
  have hnul2 : ∀ c ∈ sg :: b :: bs, (c != '\x00') = true := by
    intro c hc
    rcases List.mem_cons.mp hc with h | h
    · subst h
      rcases hsg with h | h <;> subst h <;> decide
    · exact hnul c h
  have htrim2 : trim (sg :: b :: bs) = sg :: b :: bs := by
    rw [trim_cons_of_not_white sg _ hsgw, htrim]
  rw [get_dec_angle_of_clean _ (by simp) hnul2 htrim2
    (skipwhite_cons_of_not_white _ _ hsgw) hlen]
  have hsw : (strpbrk (sg :: b :: bs) "SsWw".data).isSome
      = (strpbrk (b :: bs) "SsWw".data).isSome :=
    strpbrk_cons_miss _ _ sg (by rcases hsg with h | h <;> subst h <;> decide)
  have hsk := skipwhite_cons_of_not_white b bs (iswhite_of_isdigit hb)
  rcases hsg with h | h
  · subst h
    simp only [angleSign, hsw, hsk]
    simp
  · subst h
    simp only [angleSign, hsk]
    simp

theorem get_dec_angle_unsigned (b : Char) (bs : List Char) (hb : isdigit b = true)
    (hnul : ∀ c ∈ b :: bs, (c != '\x00') = true) (htrim : trim (b :: bs) = b :: bs)
    (hlen : (b :: bs).length < 32767) :
    get_dec_angle (String.mk (b :: bs))
      = angleFields (strpbrk (b :: bs) "SsWw".data).isSome (angleType (b :: bs))
          (b :: bs) := by
  have hsk := skipwhite_cons_of_not_white b bs (iswhite_of_isdigit hb)
  rw [get_dec_angle_of_clean _ (by simp) hnul htrim hsk hlen]
  have e : angleSign (b :: bs) = ((strpbrk (b :: bs) "SsWw".data).isSome, b :: bs) := by
    unfold angleSign
    split
    · rename_i r heq
      injection heq with h1 _
      exact absurd h1 (ne_of_isdigit hb (by decide))
    · rename_i r heq
      injection heq with h1 _
      exact absurd h1 (ne_of_isdigit hb (by decide))
    · rfl
  rw [e]
  simp only [hsk]

theorem isDMSChar_of_isdigit {c : Char} (h : isdigit c = true) : isDMSChar c = true := by
  simp [isDMSChar, h]

theorem isHMSChar_of_isdigit {c : Char} (h : isdigit c = true) : isHMSChar c = true := by
  simp [isHMSChar, h]

theorem not_nul_of_class (q : Char → Bool) (hq : q '\x00' = false) (l : List Char)
    (h : ∀ c ∈ l, q c = true) : ∀ c ∈ l, (c != '\x00') = true := by
  intro c hc
  have h0 := contains_eq_false_of_all ['\x00'] q (by simp [hq]) c (h c hc)
  simpa [charIn] using h0

theorem rat_of_numeral {ds : List Char} {d : Int}
    (h : (natOfDigits ds : Int) = d) : (natOfDigits ds : ℚ) = (d : ℚ) := by
  rw [← h]
  push_cast
  rfl

theorem nat_le_of_numeral {ds : List Char} {d : Int} {k : Nat}
    (h : (natOfDigits ds : Int) = d) (hk : d ≤ k) : natOfDigits ds ≤ k := by
  omega

theorem parse_swprintfDMS (sg : Char) (d m s : Int) (hsg : sg = '+' ∨ sg = '-')
    (hd0 : 0 ≤ d) (hm0 : 0 ≤ m) (hm1 : m ≤ 59) (hs0 : 0 ≤ s) (hs1 : s ≤ 59)
    (hr : d * 3600 + m * 60 + s ≤ 648000) :
    get_dec_angle (String.mk (swprintfDMS sg d 'd' m s))
      = AngleResult.success (sg == '-') (((d * 3600 + m * 60 + s : ℤ) : ℚ) / 3600) := by
  obtain ⟨nD, vD⟩ := fmt_prec2_spec d hd0
  obtain ⟨nM, vM⟩ := fmt_prec2_spec m hm0
  obtain ⟨nS, vS⟩ := fmt_prec2_spec s hs0
  have lD : (fmt_prec2 d).length ≤ 183 := by
    have := fmt_prec2_length_le d hd0
    omega
  have lM := fmt_prec2_length m hm0 (by omega)
  have lS := fmt_prec2_length s hs0 (by omega)
  unfold swprintfDMS
  generalize fmt_prec2 d = D at nD vD lD
  generalize fmt_prec2 m = M at nM vM lM
  generalize fmt_prec2 s = S at nS vS lS
  have hDa := isNumeral_all nD
  have hMa := isNumeral_all nM
  have hSa := isNumeral_all nS
  obtain ⟨b, Db, hDeq⟩ := List.exists_cons_of_ne_nil (isNumeral_ne_nil nD)
  have hb : isdigit b = true := hDa b (by rw [hDeq]; exact List.mem_cons_self _ _)
  have hbody : D ++ 'd' :: (M ++ '\'' :: (S ++ ['"']))
      = b :: (Db ++ 'd' :: (M ++ '\'' :: (S ++ ['"']))) := by
    rw [hDeq]
    rfl
  have hq : ∀ c ∈ D ++ 'd' :: (M ++ '\'' :: (S ++ ['"'])), isDMSChar c = true := by
    intro c hc
    simp only [List.mem_append, List.mem_cons, List.mem_singleton] at hc
    rcases hc with h | h | h | h | h | h
    · exact isDMSChar_of_isdigit (hDa c h)
    · subst h; decide
    · exact isDMSChar_of_isdigit (hMa c h)
    · subst h; decide
    · exact isDMSChar_of_isdigit (hSa c h)
    · rcases h with h | h
      · subst h; decide
      · cases h
  have htrim : trim (D ++ 'd' :: (M ++ '\'' :: (S ++ ['"'])))
      = D ++ 'd' :: (M ++ '\'' :: (S ++ ['"'])) := by
    have e : D ++ 'd' :: (M ++ '\'' :: (S ++ ['"']))
        = (D ++ 'd' :: (M ++ '\'' :: S)) ++ ['"'] := by simp
    rw [e]
    exact trim_append_of_forall _ ['"'] (by simp) (by decide)
  have hsw := strpbrk_eq_none_of_all "SsWw".data isDMSChar (by decide) _ hq
  have hHh := strpbrk_eq_none_of_all "Hh".data isDMSChar (by decide) _ hq
  have hsn := strpbrk_eq_none_of_all "SsNn".data isDMSChar (by decide) _ hq
  have hmain := get_dec_angle_signed sg b (Db ++ 'd' :: (M ++ '\'' :: (S ++ ['"']))) hsg hb
    (by rw [← hbody]; exact not_nul_of_class isDMSChar (by decide) _ hq)
    (by rw [← hbody]; exact htrim)
    (by
      rw [← hbody]
      simp only [List.length_cons, List.length_append, List.length_nil]
      omega)
  rw [← hbody] at hmain
  rw [hmain, hsw, angleType_degrees _ hHh hsn]
  rw [angleFields_numeric _ _ D M S ['"'] 'd' '\'' (natOfDigits S : ℚ) nD nM
    (isNumeral_ne_nil nS) (fun c hc => charIn_delim2_of_isdigit (hSa c hc))
    (by decide) (by decide) (Or.inr ⟨'"', rfl, by decide⟩)
    (by omega) (by omega)
    (by rw [commaToPoint_eq_self S (fun c hc => comma_false_of_isdigit (hSa c hc)),
      strtod_numeral S nS])
    (by
      have : natOfDigits S < 60 := by omega
      exact_mod_cast this)]
  have e : (((natOfDigits D * 3600 + natOfDigits M * 60 : ℕ) : ℚ) + (natOfDigits S : ℚ))
      = ((d * 3600 + m * 60 + s : ℤ) : ℚ) := by
    rw [← vD, ← vM, ← vS]
    push_cast
    ring
  rw [e, rangeCheck_degrees]
  · simp
  · rw [div_le_iff₀ (by norm_num)]
    have : ((d * 3600 + m * 60 + s : ℤ) : ℚ) ≤ ((648000 : ℤ) : ℚ) := by exact_mod_cast hr
    norm_num at this ⊢
    linarith

theorem seconds_token (S C : List Char) (s c : Int) (nS : isNumeral S = true)
    (nC : isNumeral C = true) (vS : (natOfDigits S : Int) = s) (vC : (natOfDigits C : Int) = c)
    (lC : C.length = 2) :
    (S ++ '.' :: C ≠ [])
    ∧ (∀ x ∈ S ++ '.' :: C, charIn x delim2 = false)
    ∧ strtod (commaToPoint (S ++ '.' :: C)) = ((s * 100 + c : ℤ) : ℚ) / 100 := by
  have hSa := isNumeral_all nS
  have hCa := isNumeral_all nC
  refine ⟨by simp, ?_, ?_⟩
  · intro x hx
    rcases List.mem_append.mp hx with h | h
    · exact charIn_delim2_of_isdigit (hSa x h)
    · rcases List.mem_cons.mp h with h1 | h1
      · subst h1; decide
      · exact charIn_delim2_of_isdigit (hCa x h1)
  · rw [commaToPoint_eq_self]
    · rw [strtod_point S C nS hCa, natOfDigits_append, lC]
      rw [← vS, ← vC]
      push_cast
      norm_num
    · intro x hx
      rcases List.mem_append.mp hx with h | h
      · exact comma_false_of_isdigit (hSa x h)
      · rcases List.mem_cons.mp h with h1 | h1
        · subst h1; decide
        · exact comma_false_of_isdigit (hCa x h1)

theorem parse_swprintfDMSDec (sg : Char) (d m s c : Int) (hsg : sg = '+' ∨ sg = '-')
    (hd0 : 0 ≤ d) (hm0 : 0 ≤ m) (hm1 : m ≤ 59) (hs0 : 0 ≤ s) (hs1 : s ≤ 59)
    (hc0 : 0 ≤ c) (hc1 : c ≤ 99)
    (hr : d * 360000 + m * 6000 + s * 100 + c ≤ 64800000) :
    get_dec_angle (String.mk (swprintfDMSDec sg d 'd' m s c))
      = AngleResult.success (sg == '-')
          (((d * 360000 + m * 6000 + s * 100 + c : ℤ) : ℚ) / 360000) := by
  obtain ⟨nD, vD⟩ := fmt_prec2_spec d hd0
  obtain ⟨nM, vM⟩ := fmt_prec2_spec m hm0
  obtain ⟨nS, vS⟩ := fmt_prec2_spec s hs0
  obtain ⟨nC, vC⟩ := fmt_width2_spec c hc0
  have lC := fmt_width2_length c hc0 (by omega)
  have lD : (fmt_prec2 d).length ≤ 183 := by
    have := fmt_prec2_length_le d hd0
    omega
  have lM := fmt_prec2_length m hm0 (by omega)
  have lS := fmt_prec2_length s hs0 (by omega)
  unfold swprintfDMSDec
  generalize fmt_prec2 d = D at nD vD lD
  generalize fmt_prec2 m = M at nM vM lM
  generalize fmt_prec2 s = S at nS vS lS
  generalize fmt_width2 c = C at nC vC lC
  have hDa := isNumeral_all nD
  have hMa := isNumeral_all nM
  have hSa := isNumeral_all nS
  have hCa := isNumeral_all nC
  obtain ⟨t1, t2, t3⟩ := seconds_token S C s c nS nC vS vC lC
  obtain ⟨b, Db, hDeq⟩ := List.exists_cons_of_ne_nil (isNumeral_ne_nil nD)
  have hb : isdigit b = true := hDa b (by rw [hDeq]; exact List.mem_cons_self _ _)
  have hre : D ++ 'd' :: (M ++ '\'' :: (S ++ '.' :: (C ++ ['"'])))
      = D ++ 'd' :: (M ++ '\'' :: ((S ++ '.' :: C) ++ ['"'])) := by simp
  rw [hre]
  have hbody : D ++ 'd' :: (M ++ '\'' :: ((S ++ '.' :: C) ++ ['"']))
      = b :: (Db ++ 'd' :: (M ++ '\'' :: ((S ++ '.' :: C) ++ ['"']))) := by
    rw [hDeq]
    rfl
  have hq : ∀ x ∈ D ++ 'd' :: (M ++ '\'' :: ((S ++ '.' :: C) ++ ['"'])),
      isDMSChar x = true := by
    intro x hx
    simp only [List.mem_append, List.mem_cons, List.mem_singleton] at hx
    rcases hx with h | h | h | h | (h | h | h) | h
    · exact isDMSChar_of_isdigit (hDa x h)
    · subst h; decide
    · exact isDMSChar_of_isdigit (hMa x h)
    · subst h; decide
    · exact isDMSChar_of_isdigit (hSa x h)
    · subst h; decide
    · exact isDMSChar_of_isdigit (hCa x h)
    · rcases h with h | h
      · subst h; decide
      · cases h
  have htrim : trim (D ++ 'd' :: (M ++ '\'' :: ((S ++ '.' :: C) ++ ['"'])))
      = D ++ 'd' :: (M ++ '\'' :: ((S ++ '.' :: C) ++ ['"'])) := by
    have e : D ++ 'd' :: (M ++ '\'' :: ((S ++ '.' :: C) ++ ['"']))
        = (D ++ 'd' :: (M ++ '\'' :: (S ++ '.' :: C))) ++ ['"'] := by simp
    rw [e]
    exact trim_append_of_forall _ ['"'] (by simp) (by decide)
  have hsw := strpbrk_eq_none_of_all "SsWw".data isDMSChar (by decide) _ hq
  have hHh := strpbrk_eq_none_of_all "Hh".data isDMSChar (by decide) _ hq
  have hsn := strpbrk_eq_none_of_all "SsNn".data isDMSChar (by decide) _ hq
  have hmain := get_dec_angle_signed sg b
    (Db ++ 'd' :: (M ++ '\'' :: ((S ++ '.' :: C) ++ ['"']))) hsg hb
    (by rw [← hbody]; exact not_nul_of_class isDMSChar (by decide) _ hq)
    (by rw [← hbody]; exact htrim)
    (by
      rw [← hbody]
      simp only [List.length_cons, List.length_append, List.length_nil]
      omega)
  rw [← hbody] at hmain
  rw [hmain, hsw, angleType_degrees _ hHh hsn]
  rw [angleFields_numeric _ _ D M (S ++ '.' :: C) ['"'] 'd' '\''
    (((s * 100 + c : ℤ) : ℚ) / 100) nD nM t1 t2
    (by decide) (by decide) (Or.inr ⟨'"', rfl, by decide⟩)
    (by omega) (by omega) t3
    (by
      rw [div_lt_iff₀ (by norm_num)]
      have : ((s * 100 + c : ℤ) : ℚ) < ((6000 : ℤ) : ℚ) := by
        exact_mod_cast (by omega : s * 100 + c < 6000)
      norm_num at this ⊢
      linarith)]
  have e : ((((natOfDigits D * 3600 + natOfDigits M * 60 : ℕ) : ℚ)
      + ((s * 100 + c : ℤ) : ℚ) / 100) / 3600)
      = ((d * 360000 + m * 6000 + s * 100 + c : ℤ) : ℚ) / 360000 := by
    rw [← vD, ← vM]
    push_cast
    ring
  rw [e, rangeCheck_degrees]
  · simp
  · rw [div_le_iff₀ (by norm_num)]
    have : ((d * 360000 + m * 6000 + s * 100 + c : ℤ) : ℚ) ≤ ((64800000 : ℤ) : ℚ) := by
      exact_mod_cast hr
    norm_num at this ⊢
    linarith

theorem signed_value_close (angle deg : ℚ) (n : Int) (k : ℚ) (hk : 0 < k)
    (hneg : deg < 0 ↔ angle < 0)
    (h1 : (n : ℚ) ≤ |deg| * k + 1 / 2) (h2 : |deg| * k + 1 / 2 < (n : ℚ) + 1) :
    |(AngleResult.success ((if angle < 0 then '-' else '+') == '-') ((n : ℚ) / k)).value
        - deg| ≤ 1 / k := by
  have e : ((n : ℚ) - |deg| * k) / k = (n : ℚ) / k - |deg| := by
    rw [sub_div, mul_div_cancel_right₀ _ (ne_of_gt hk)]
  have hdiv : (n : ℚ) / k - |deg| ≤ 1 / k ∧ -(1 / k) ≤ (n : ℚ) / k - |deg| := by
    rw [← e]
    constructor
    · exact (div_le_div_iff_of_pos_right hk).mpr (by linarith)
    · rw [show -(1 / k) = (-1) / k by ring]
      exact (div_le_div_iff_of_pos_right hk).mpr (by linarith)
  rw [abs_le]
  by_cases ha : angle < 0
  · have hd : deg < 0 := hneg.mpr ha
    have habs : |deg| = -deg := abs_of_neg hd
    simp only [ha, if_true, beq_self_eq_true, AngleResult.value]
    rw [habs] at hdiv
    constructor <;> linarith [hdiv.1, hdiv.2]
  · have hd : 0 ≤ deg := by
      by_contra hcon
      exact ha (hneg.mp (not_le.mp hcon))
    have habs : |deg| = deg := abs_of_nonneg hd
    have hsg : (('+' : Char) == '-') = false := by decide
    simp only [ha, if_false, hsg, AngleResult.value, Bool.false_eq_true]
    rw [habs] at hdiv
    constructor <;> linarith [hdiv.1, hdiv.2]

/-- C5: for every angle of at most 180 degrees in magnitude, `get_dec_angle` applied to the
text of `printAngleDMS` with the glyph `d` succeeds, with the negative flag exactly for a
negative angle, and returns a value at most 1 arcsecond from the angle in degrees without
decimals and at most 0.01 arcsecond with decimals. -/
theorem dms_round_trip (angle : ℚ) (h : |dmsDegrees angle| ≤ 180) :
    (∃ pos : ℚ, get_dec_angle (printAngleDMS angle false true)
          = AngleResult.success (decide (angle < 0)) pos
        ∧ |(get_dec_angle (printAngleDMS angle false true)).value - dmsDegrees angle|
            ≤ 1 / 3600)
    ∧ (∃ pos : ℚ, get_dec_angle (printAngleDMS angle true true)
          = AngleResult.success (decide (angle < 0)) pos
        ∧ |(get_dec_angle (printAngleDMS angle true true)).value - dmsDegrees angle|
            ≤ 1 / 360000) := by
  have hsg : (if angle < 0 then '-' else '+') = '+' ∨ (if angle < 0 then '-' else '+') = '-' := by
    by_cases ha : angle < 0
    · right; simp [ha]
    · left; simp [ha]
  have hflag : ((if angle < 0 then '-' else '+') == '-') = decide (angle < 0) := by
    by_cases ha : angle < 0
    · simp [ha]
    · simp only [ha, if_false, decide_False]
      decide
  constructor
  · have hn0 : (0 : ℤ) ≤ ⌊|dmsDegrees angle| * 3600 + 1 / 2⌋ :=
      Int.floor_nonneg.mpr (by positivity)
    have hn1 : ⌊|dmsDegrees angle| * 3600 + 1 / 2⌋ ≤ 648000 := by
      have : ⌊|dmsDegrees angle| * 3600 + 1 / 2⌋ < 648001 := by
        rw [Int.floor_lt]
        push_cast
        linarith
      omega
    have f1 := Int.floor_le (|dmsDegrees angle| * 3600 + 1 / 2)
    have f2 := Int.lt_floor_add_one (|dmsDegrees angle| * 3600 + 1 / 2)
    have hp := printAngleDMS_false_eq angle true _ hn0 (dmsTicks_false angle (by omega))
    generalize ⌊|dmsDegrees angle| * 3600 + 1 / 2⌋ = n at hn0 hn1 f1 f2 hp
    simp only [if_true] at hp
    have hparse := parse_swprintfDMS (if angle < 0 then '-' else '+') (n / 60 / 60)
      (n / 60 % 60) (n % 60) hsg (by omega) (by omega) (by omega) (by omega) (by omega)
      (by omega)
    have hsum : n / 60 / 60 * 3600 + n / 60 % 60 * 60 + n % 60 = n := by omega
    rw [hsum] at hparse
    rw [hp, hparse]
    refine ⟨_, by rw [hflag], ?_⟩
    exact signed_value_close angle (dmsDegrees angle) n 3600 (by norm_num)
      (dmsDegrees_neg_iff angle) f1 f2
  · have hn0 : (0 : ℤ) ≤ ⌊|dmsDegrees angle| * 360000 + 1 / 2⌋ :=
      Int.floor_nonneg.mpr (by positivity)
    have hn1 : ⌊|dmsDegrees angle| * 360000 + 1 / 2⌋ ≤ 64800000 := by
      have : ⌊|dmsDegrees angle| * 360000 + 1 / 2⌋ < 64800001 := by
        rw [Int.floor_lt]
        push_cast
        linarith
      omega
    have f1 := Int.floor_le (|dmsDegrees angle| * 360000 + 1 / 2)
    have f2 := Int.lt_floor_add_one (|dmsDegrees angle| * 360000 + 1 / 2)
    have hp := printAngleDMS_true_eq angle true _ hn0 (dmsTicks_true angle (by omega))
    generalize ⌊|dmsDegrees angle| * 360000 + 1 / 2⌋ = n at hn0 hn1 f1 f2 hp
    simp only [if_true] at hp
    have hparse := parse_swprintfDMSDec (if angle < 0 then '-' else '+') (n / 100 / 60 / 60)
      (n / 100 / 60 % 60) (n / 100 % 60) (n % 100) hsg (by omega) (by omega) (by omega)
      (by omega) (by omega) (by omega) (by omega) (by omega)
    have hsum : n / 100 / 60 / 60 * 360000 + n / 100 / 60 % 60 * 6000 + n / 100 % 60 * 100
        + n % 100 = n := by omega
    rw [hsum] at hparse
    rw [hp, hparse]
    refine ⟨_, by rw [hflag], ?_⟩
    exact signed_value_close angle (dmsDegrees angle) n 360000 (by norm_num)
      (dmsDegrees_neg_iff angle) f1 f2

/-- Minus one radian is within 180 degrees; its text without decimals reads back negative
and within one arcsecond. -/
theorem dms_round_trip_witness :
    ∃ pos : ℚ, get_dec_angle (printAngleDMS (-1) false true)
        = AngleResult.success (decide ((-1 : ℚ) < 0)) pos
      ∧ |(get_dec_angle (printAngleDMS (-1) false true)).value - dmsDegrees (-1)|
          ≤ 1 / 3600 :=
  (dms_round_trip (-1) (by decide!)).1

theorem rangeCheck_hours (negative : Bool) (pos : ℚ) (h : pos ≤ 24) :
    rangeCheck AngleType.HOURS negative pos = AngleResult.success negative pos := by
  unfold rangeCheck
  rw [if_neg (by simp [h]), if_neg (by simp), if_neg (by linarith)]

theorem angleType_hours (H rest : List Char) (c : Char) (hH : ∀ x ∈ H, isdigit x = true)
    (hlen : H.length = 2) (hc : charIn c "Hh".data = true) :
    angleType (H ++ c :: rest) = AngleType.HOURS := by
  have h1 := strpbrk_append_hit "Hh".data H rest c
    (fun x hx => contains_eq_false_of_all "Hh".data isdigit (by decide) x (hH x hx)) hc
  unfold angleType
  rw [h1, hlen]
  rfl

theorem parse_hms_body (H M S3 : List Char) (sec : ℚ) (nH : isNumeral H = true)
    (nM : isNumeral M = true) (lH : H.length = 2) (bH : natOfDigits H ≤ 23)
    (bM : natOfDigits M ≤ 59) (hS : S3 ≠ []) (hS2 : ∀ c ∈ S3, charIn c delim2 = false)
    (hS3 : ∀ c ∈ S3, isHMSChar c = true)
    (hsec : strtod (commaToPoint S3) = sec) (bsec : sec < 60)
    (hlen : (H ++ 'h' :: (M ++ 'm' :: (S3 ++ ['s']))).length < 32767) :
    get_dec_angle (String.mk (H ++ 'h' :: (M ++ 'm' :: (S3 ++ ['s']))))
      = AngleResult.success true
          ((((natOfDigits H * 3600 + natOfDigits M * 60 : ℕ) : ℚ) + sec) / 3600) := by
  have hHa := isNumeral_all nH
  have hMa := isNumeral_all nM
  obtain ⟨b, Hb, hHeq⟩ := List.exists_cons_of_ne_nil (isNumeral_ne_nil nH)
  have hb : isdigit b = true := hHa b (by rw [hHeq]; exact List.mem_cons_self _ _)
  have hbody : H ++ 'h' :: (M ++ 'm' :: (S3 ++ ['s']))
      = b :: (Hb ++ 'h' :: (M ++ 'm' :: (S3 ++ ['s']))) := by
    rw [hHeq]
    rfl
  have hq : ∀ x ∈ H ++ 'h' :: (M ++ 'm' :: (S3 ++ ['s'])), isHMSChar x = true := by
    intro x hx
    simp only [List.mem_append, List.mem_cons, List.mem_singleton] at hx
    rcases hx with h | h | h | h | h | h
    · exact isHMSChar_of_isdigit (hHa x h)
    · subst h; decide
    · exact isHMSChar_of_isdigit (hMa x h)
    · subst h; decide
    · exact hS3 x h
    · rcases h with h | h
      · subst h; decide
      · cases h
  have htrim : trim (H ++ 'h' :: (M ++ 'm' :: (S3 ++ ['s'])))
      = H ++ 'h' :: (M ++ 'm' :: (S3 ++ ['s'])) := by
    have e : H ++ 'h' :: (M ++ 'm' :: (S3 ++ ['s']))
        = (H ++ 'h' :: (M ++ 'm' :: S3)) ++ ['s'] := by simp
    rw [e]
    exact trim_append_of_forall _ ['s'] (by simp) (by decide)
  have hsw : (strpbrk (H ++ 'h' :: (M ++ 'm' :: (S3 ++ ['s']))) "SsWw".data).isSome
      = true := by
    rw [strpbrk_isSome, List.any_eq_true]
    exact ⟨'s', by simp, by decide⟩
  have hmain := get_dec_angle_unsigned b (Hb ++ 'h' :: (M ++ 'm' :: (S3 ++ ['s']))) hb
    (by rw [← hbody]; exact not_nul_of_class isHMSChar (by decide) _ hq)
    (by rw [← hbody]; exact htrim) (by rw [← hbody]; exact hlen)
  rw [← hbody] at hmain
  rw [hmain, hsw, angleType_hours H _ 'h' hHa lH (by decide)]
  rw [angleFields_numeric true AngleType.HOURS H M S3 ['s'] 'h' 'm' sec nH nM hS hS2
    (by decide) (by decide) (Or.inr ⟨'s', rfl, by decide⟩) (by omega) bM hsec bsec]
  apply rangeCheck_hours
  rw [div_le_iff₀ (by norm_num)]
  have : ((natOfDigits H * 3600 + natOfDigits M * 60 : ℕ) : ℚ) ≤ ((86340 : ℕ) : ℚ) := by
    exact_mod_cast (by omega : natOfDigits H * 3600 + natOfDigits M * 60 ≤ 86340)
  norm_num at this ⊢
  linarith

theorem parse_swprintfHMS (h m s : Int) (hh0 : 0 ≤ h) (hh1 : h ≤ 23) (hm0 : 0 ≤ m)
    (hm1 : m ≤ 59) (hs0 : 0 ≤ s) (hs1 : s ≤ 59) :
    get_dec_angle (String.mk (swprintfHMS h m s))
      = AngleResult.success true (((h * 3600 + m * 60 + s : ℤ) : ℚ) / 3600) := by
  obtain ⟨nH, vH⟩ := fmt_prec2_spec h hh0
  obtain ⟨nM, vM⟩ := fmt_prec2_spec m hm0
  obtain ⟨nS, vS⟩ := fmt_prec2_spec s hs0
  have lH := fmt_prec2_length h hh0 (by omega)
  have lM := fmt_prec2_length m hm0 (by omega)
  have lS := fmt_prec2_length s hs0 (by omega)
  unfold swprintfHMS
  generalize fmt_prec2 h = H at nH vH lH
  generalize fmt_prec2 m = M at nM vM lM
  generalize fmt_prec2 s = S at nS vS lS
  have hSa := isNumeral_all nS
  rw [parse_hms_body H M S (natOfDigits S : ℚ) nH nM lH (by omega) (by omega)
    (isNumeral_ne_nil nS) (fun c hc => charIn_delim2_of_isdigit (hSa c hc))
    (fun c hc => isHMSChar_of_isdigit (hSa c hc))
    (by rw [commaToPoint_eq_self S (fun c hc => comma_false_of_isdigit (hSa c hc)),
      strtod_numeral S nS])
    (by
      have : natOfDigits S < 60 := by omega
      exact_mod_cast this)
    (by
      simp only [List.length_cons, List.length_append, List.length_nil]
      omega)]
  have e : (((natOfDigits H * 3600 + natOfDigits M * 60 : ℕ) : ℚ) + (natOfDigits S : ℚ))
      = ((h * 3600 + m * 60 + s : ℤ) : ℚ) := by
    rw [← vH, ← vM, ← vS]
    push_cast
    ring
  rw [e]

theorem parse_swprintfHMSDec (h m s c : Int) (hh0 : 0 ≤ h) (hh1 : h ≤ 23) (hm0 : 0 ≤ m)
    (hm1 : m ≤ 59) (hs0 : 0 ≤ s) (hs1 : s ≤ 59) (hc0 : 0 ≤ c) (hc1 : c ≤ 99) :
    get_dec_angle (String.mk (swprintfHMSDec h m s c))
      = AngleResult.success true
          (((h * 360000 + m * 6000 + s * 100 + c : ℤ) : ℚ) / 360000) := by
  obtain ⟨nH, vH⟩ := fmt_prec2_spec h hh0
  obtain ⟨nM, vM⟩ := fmt_prec2_spec m hm0
  obtain ⟨nS, vS⟩ := fmt_prec2_spec s hs0
  obtain ⟨nC, vC⟩ := fmt_width2_spec c hc0
  have lH := fmt_prec2_length h hh0 (by omega)
  have lC := fmt_width2_length c hc0 (by omega)
  have lM := fmt_prec2_length m hm0 (by omega)
  have lS := fmt_prec2_length s hs0 (by omega)
  unfold swprintfHMSDec
  generalize fmt_prec2 h = H at nH vH lH
  generalize fmt_prec2 m = M at nM vM lM
  generalize fmt_prec2 s = S at nS vS lS
  generalize fmt_width2 c = C at nC vC lC
  have hSa := isNumeral_all nS
  have hCa := isNumeral_all nC
  obtain ⟨t1, t2, t3⟩ := seconds_token S C s c nS nC vS vC lC
  have hre : H ++ 'h' :: (M ++ 'm' :: (S ++ '.' :: (C ++ ['s'])))
      = H ++ 'h' :: (M ++ 'm' :: ((S ++ '.' :: C) ++ ['s'])) := by simp
  rw [hre]
  rw [parse_hms_body H M (S ++ '.' :: C) (((s * 100 + c : ℤ) : ℚ) / 100) nH nM lH (by omega)
    (by omega) t1 t2
    (by
      intro x hx
      rcases List.mem_append.mp hx with h1 | h1
      · exact isHMSChar_of_isdigit (hSa x h1)
      · rcases List.mem_cons.mp h1 with h2 | h2
        · subst h2; decide
        · exact isHMSChar_of_isdigit (hCa x h2))
    t3
    (by
      rw [div_lt_iff₀ (by norm_num)]
      have : ((s * 100 + c : ℤ) : ℚ) < ((6000 : ℤ) : ℚ) := by
        exact_mod_cast (by omega : s * 100 + c < 6000)
      norm_num at this ⊢
      linarith)
    (by
      simp only [List.length_cons, List.length_append, List.length_nil]
      omega)]
  have e : ((((natOfDigits H * 3600 + natOfDigits M * 60 : ℕ) : ℚ)
      + ((s * 100 + c : ℤ) : ℚ) / 100) / 3600)
      = ((h * 360000 + m * 6000 + s * 100 + c : ℤ) : ℚ) / 360000 := by
    rw [← vH, ← vM]
    push_cast
    ring
  rw [e]

/-! ## The HMS text read back -/

theorem hmsHours_of_range (angle : ℚ) (h0 : 0 ≤ angle) (h1 : angle < 2 * M_PI) :
    hmsHours angle = angle * (12 / M_PI) := by
  have hpi := M_PI_pos
  have hy : (0 : ℚ) < 2.0 * M_PI := by
    norm_num
    exact hpi
  have hq0 : 0 ≤ angle / (2.0 * M_PI) := div_nonneg h0 hy.le
  have hq1 : angle / (2.0 * M_PI) < 1 := by
    rw [div_lt_one hy]
    norm_num
    exact h1
  have ht : trunc (angle / (2.0 * M_PI)) = 0 := by
    rw [trunc_of_nonneg _ hq0, Int.floor_eq_zero_iff]
    exact ⟨hq0, hq1⟩
  unfold hmsHours fmod
  simp only [ht, Int.cast_zero, zero_mul, sub_zero]
  rw [if_neg (by norm_num; exact h0)]

theorem ticks_close (hrs : ℚ) (T : Int) (k : ℚ) (hk : 0 < k) (h24 : hrs < 24)
    (hT : T = if 24 * k ≤ hrs * k + 1 / 2 then 0 else ⌊hrs * k + 1 / 2⌋) :
    ∃ j : ℤ, |(T : ℚ) / k - hrs - 24 * (j : ℚ)| ≤ 1 / k := by
  have e : ∀ x : ℚ, (x - hrs * k) / k = x / k - hrs := by
    intro x
    rw [sub_div, mul_div_cancel_right₀ _ (ne_of_gt hk)]
  by_cases hw : 24 * k ≤ hrs * k + 1 / 2
  · rw [if_pos hw] at hT
    refine ⟨-1, ?_⟩
    rw [hT, abs_le]
    have e2 : ((0 : ℤ) : ℚ) / k - hrs - 24 * ((-1 : ℤ) : ℚ) = (24 * k - hrs * k) / k := by
      rw [sub_div, mul_div_cancel_right₀ _ (ne_of_gt hk), mul_div_cancel_right₀ _ (ne_of_gt hk)]
      push_cast
      ring
    rw [e2, show -(1 / k) = (-1) / k by ring]
    constructor
    · apply (div_le_div_iff_of_pos_right hk).mpr
      nlinarith
    · apply (div_le_div_iff_of_pos_right hk).mpr
      linarith
  · rw [if_neg hw] at hT
    refine ⟨0, ?_⟩
    have f1 := Int.floor_le (hrs * k + 1 / 2)
    have f2 := Int.lt_floor_add_one (hrs * k + 1 / 2)
    rw [← hT] at f1 f2
    rw [abs_le]
    have e2 : (T : ℚ) / k - hrs - 24 * ((0 : ℤ) : ℚ) = ((T : ℚ) - hrs * k) / k := by
      rw [e]
      push_cast
      ring
    rw [e2, show -(1 / k) = (-1) / k by ring]
    constructor
    · apply (div_le_div_iff_of_pos_right hk).mpr
      linarith
    · apply (div_le_div_iff_of_pos_right hk).mpr
      linarith

/-- C6, as the code behaves: for every angle in `[0, 24)` hours (`0 ≤ angle < 2*M_PI`
radians), `get_dec_angle` applied to the text of `printAngleHMS` succeeds with the negative
flag set, because the trailing `s` is taken as the hemisphere letter, and returns `-p`
where `p` in `[0, 24)` hours differs from the angle, modulo 24 hours, by at most 1 second
without decimals and 0.01 second with decimals. -/
theorem hms_round_trip_negated (angle : ℚ) (h0 : 0 ≤ angle) (h1 : angle < 2 * M_PI) :
    (∃ p : ℚ, get_dec_angle (printAngleHMS angle false) = AngleResult.success true p
        ∧ (get_dec_angle (printAngleHMS angle false)).value = -p
        ∧ 0 ≤ p ∧ p < 24
        ∧ ∃ j : ℤ, |p - angle * (12 / M_PI) - 24 * (j : ℚ)| ≤ 1 / 3600)
    ∧ (∃ p : ℚ, get_dec_angle (printAngleHMS angle true) = AngleResult.success true p
        ∧ (get_dec_angle (printAngleHMS angle true)).value = -p
        ∧ 0 ≤ p ∧ p < 24
        ∧ ∃ j : ℤ, |p - angle * (12 / M_PI) - 24 * (j : ℚ)| ≤ 1 / 360000) := by
  obtain ⟨r0, r24⟩ := hmsHours_range angle
  rw [← hmsHours_of_range angle h0 h1]
  constructor
  · obtain ⟨t0, t1⟩ := hmsTicks_false_range angle
    have hT := hmsTicks_false_eq angle
    have hp := printAngleHMS_false_eq angle _ t0 rfl
    generalize hmsTicks angle false = T at t0 t1 hT hp
    have hparse := parse_swprintfHMS (T / 60 / 60) (T / 60 % 60) (T % 60) (by omega)
      (by omega) (by omega) (by omega) (by omega) (by omega)
    have hsum : T / 60 / 60 * 3600 + T / 60 % 60 * 60 + T % 60 = T := by omega
    rw [hsum] at hparse
    rw [hp, hparse]
    refine ⟨_, rfl, by simp [AngleResult.value], by positivity, ?_, ?_⟩
    · rw [div_lt_iff₀ (by norm_num)]
      have : (T : ℚ) ≤ ((86399 : ℤ) : ℚ) := by exact_mod_cast t1
      norm_num at this ⊢
      linarith
    · exact ticks_close (hmsHours angle) T 3600 (by norm_num) r24 (by
        rw [hT]
        norm_num)
  · obtain ⟨t0, t1⟩ := hmsTicks_true_range angle
    have hT := hmsTicks_true_eq angle
    have hp := printAngleHMS_true_eq angle _ t0 rfl
    generalize hmsTicks angle true = T at t0 t1 hT hp
    have hparse := parse_swprintfHMSDec (T / 100 / 60 / 60) (T / 100 / 60 % 60)
      (T / 100 % 60) (T % 100) (by omega) (by omega) (by omega) (by omega) (by omega)
      (by omega) (by omega) (by omega)
    have hsum : T / 100 / 60 / 60 * 360000 + T / 100 / 60 % 60 * 6000 + T / 100 % 60 * 100
        + T % 100 = T := by omega
    rw [hsum] at hparse
    rw [hp, hparse]
    refine ⟨_, rfl, by simp [AngleResult.value], by positivity, ?_, ?_⟩
    · rw [div_lt_iff₀ (by norm_num)]
      have : (T : ℚ) ≤ ((8639999 : ℤ) : ℚ) := by exact_mod_cast t1
      norm_num at this ⊢
      linarith
    · exact ticks_close (hmsHours angle) T 360000 (by norm_num) r24 (by
        rw [hT]
        norm_num)

/-- A quarter turn, 6 hours, reads back as minus 6 hours. -/
theorem hms_round_trip_negated_witness :
    ∃ p : ℚ, get_dec_angle (printAngleHMS (M_PI / 2) false) = AngleResult.success true p
      ∧ (get_dec_angle (printAngleHMS (M_PI / 2) false)).value = -p
      ∧ 0 ≤ p ∧ p < 24
      ∧ ∃ j : ℤ, |p - M_PI / 2 * (12 / M_PI) - 24 * (j : ℚ)| ≤ 1 / 3600 :=
  (hms_round_trip_negated (M_PI / 2) (by decide!) (by decide!)).1

/-- C6 fails as stated: a quarter turn is 6 hours, printed as `06h00m00s`, and
`get_dec_angle` returns `-6` for that text, which is 12 hours away from 6 modulo 24
hours. -/
theorem hms_round_trip_counterexample :
    (0 : ℚ) ≤ M_PI / 2 ∧ M_PI / 2 < 2 * M_PI
    ∧ M_PI / 2 * (12 / M_PI) = 6
    ∧ printAngleHMS (M_PI / 2) false = "06h00m00s"
    ∧ get_dec_angle (printAngleHMS (M_PI / 2) false) = AngleResult.success true 6
    ∧ (get_dec_angle (printAngleHMS (M_PI / 2) false)).value = -6
    ∧ ¬ ∃ j : ℤ, |(get_dec_angle (printAngleHMS (M_PI / 2) false)).value
          - M_PI / 2 * (12 / M_PI) - 24 * (j : ℚ)| ≤ 1 / 3600 := by
  have hv : (get_dec_angle (printAngleHMS (M_PI / 2) false)).value = -6 := by decide!
  have hh : M_PI / 2 * (12 / M_PI) = 6 := by decide!
  refine ⟨by decide!, by decide!, hh, by decide!, by decide!, hv, ?_⟩
  rintro ⟨j, hj⟩
  rw [hv, hh, abs_le] at hj
  obtain ⟨hj1, hj2⟩ := hj
  have hcases : j ≤ -1 ∨ 0 ≤ j := by omega
  rcases hcases with hc | hc
  · have : (j : ℚ) ≤ -1 := by exact_mod_cast hc
    linarith
  · have : (0 : ℚ) ≤ (j : ℚ) := by exact_mod_cast hc
    linarith

/-! ## Delimiter conventions -/

theorem strpbrk_eq_none_of_forall (accept s : List Char)
    (h : ∀ c ∈ s, charIn c accept = false) : strpbrk s accept = none := by
  induction s with
  | nil => rfl
  | cons c cs ih =>
    have hc := h c (List.mem_cons_self _ _)
    have := ih (fun x hx => h x (List.mem_cons_of_mem _ hx))
    simp [strpbrk, hc, this]

theorem not_nul_of_isdigit {c : Char} (hc : isdigit c = true) : (c != '\x00') = true := by
  have h0 := contains_eq_false_of_all ['\x00'] isdigit (by decide) c hc
  simpa [charIn] using h0

theorem rangeCheck_lat (negative : Bool) (pos : ℚ) :
    rangeCheck AngleType.LAT negative pos
      = if pos > 90 then AngleResult.failure else AngleResult.success negative pos := by
  unfold rangeCheck
  by_cases h : pos > 90
  · rw [if_neg (by simp), if_pos ⟨rfl, h⟩, if_pos h]
  · rw [if_neg (by simp), if_neg (by simp [h]), if_neg (by linarith), if_neg h]

theorem rangeCheck_hours_iff (negative : Bool) (pos : ℚ) :
    rangeCheck AngleType.HOURS negative pos
      = if pos > 24 then AngleResult.failure else AngleResult.success negative pos := by
  unfold rangeCheck
  by_cases h : pos > 24
  · rw [if_pos ⟨rfl, h⟩, if_pos h]
  · rw [if_neg (by simp [h]), if_neg (by simp), if_neg (by linarith), if_neg h]

theorem get_dec_angle_long_text (l : List Char) (hnul : ∀ c ∈ l, (c != '\x00') = true)
    (hlong : 32767 ≤ l.length) : get_dec_angle (String.mk l) = AngleResult.failure := by
  apply get_dec_angle_too_long
  rw [c_str_mk _ hnul]
  exact hlong

theorem fields_not_nul (D M S tail : List Char) (c1 c2 : Char)
    (nD : isNumeral D = true) (nM : isNumeral M = true) (nS : isNumeral S = true)
    (hn1 : (c1 != '\x00') = true) (hn2 : (c2 != '\x00') = true)
    (htail : ∀ t ∈ tail, (t != '\x00') = true) :
    ∀ x ∈ D ++ c1 :: (M ++ c2 :: (S ++ tail)), (x != '\x00') = true := by
  intro x hx
  simp only [List.mem_append, List.mem_cons] at hx
  rcases hx with h | h | h | h | h | h
  · exact not_nul_of_isdigit (isNumeral_all nD x h)
  · rw [h]; exact hn1
  · exact not_nul_of_isdigit (isNumeral_all nM x h)
  · rw [h]; exact hn2
  · exact not_nul_of_isdigit (isNumeral_all nS x h)
  · exact htail x h

theorem zeros_length_mid (k n1 n2 : Nat) (p l r : List Char) (c : Char)
    (h1 : p.length = n1) (h2 : (l ++ r).length = n2) :
    (p ++ c :: ((List.replicate k '0' ++ l) ++ r)).length = n1 + (k + n2 + 1) := by
  rw [List.length_append, List.length_cons, zeros_length k n2 l r h2, h1]

theorem parse_three_fields (D M S tail : List Char) (c1 c2 : Char)
    (nD : isNumeral D = true) (nM : isNumeral M = true) (nS : isNumeral S = true)
    (hc1 : charIn c1 delim1 = true) (hc2 : charIn c2 delim1 = true)
    (hn1 : (c1 != '\x00') = true) (hn2 : (c2 != '\x00') = true)
    (htail : tail = [] ∨ ∃ t, tail = [t] ∧ charIn t delim2 = true ∧ iswhite t = false
      ∧ (t != '\x00') = true)
    (bD : natOfDigits D ≤ 500000) (bM : natOfDigits M ≤ 59) (bS : natOfDigits S < 60)
    (hlen : (D ++ c1 :: (M ++ c2 :: (S ++ tail))).length < 32767) :
    get_dec_angle (String.mk (D ++ c1 :: (M ++ c2 :: (S ++ tail))))
      = rangeCheck (angleType (D ++ c1 :: (M ++ c2 :: (S ++ tail))))
          (strpbrk (D ++ c1 :: (M ++ c2 :: (S ++ tail))) "SsWw".data).isSome
          (((natOfDigits D * 3600 + natOfDigits M * 60 + natOfDigits S : ℕ) : ℚ) / 3600) := by
  have hDa := isNumeral_all nD
  have hMa := isNumeral_all nM
  have hSa := isNumeral_all nS
  obtain ⟨b, Db, hDeq⟩ := List.exists_cons_of_ne_nil (isNumeral_ne_nil nD)
  have hb : isdigit b = true := hDa b (by rw [hDeq]; exact List.mem_cons_self _ _)
  have hbody : D ++ c1 :: (M ++ c2 :: (S ++ tail)) = b :: (Db ++ c1 :: (M ++ c2 :: (S ++ tail))) := by
    rw [hDeq]
    rfl
  have hnul : ∀ x ∈ D ++ c1 :: (M ++ c2 :: (S ++ tail)), (x != '\x00') = true := by
    intro x hx
    simp only [List.mem_append, List.mem_cons] at hx
    rcases hx with h | h | h | h | h | h
    · exact not_nul_of_isdigit (hDa x h)
    · rw [h]; exact hn1
    · exact not_nul_of_isdigit (hMa x h)
    · rw [h]; exact hn2
    · exact not_nul_of_isdigit (hSa x h)
    · rcases htail with ht | ⟨t, ht, _, _, ht3⟩
      · rw [ht] at h; cases h
      · rw [ht] at h
        simp only [List.mem_singleton] at h
        rw [h]; exact ht3
  have htrim : trim (D ++ c1 :: (M ++ c2 :: (S ++ tail)))
      = D ++ c1 :: (M ++ c2 :: (S ++ tail)) := by
    have e : D ++ c1 :: (M ++ c2 :: (S ++ tail)) = (D ++ c1 :: (M ++ [c2])) ++ (S ++ tail) := by
      simp
    rw [e]
    rcases htail with ht | ⟨t, ht, _, ht2, _⟩
    · rw [ht, List.append_nil]
      exact trim_append_of_forall _ S (isNumeral_ne_nil nS)
        (fun c hc => iswhite_of_isdigit (hSa c hc))
    · rw [ht, ← List.append_assoc]
      exact trim_append_of_forall _ [t] (by simp) (by
        intro c hc
        simp only [List.mem_singleton] at hc
        rw [hc]; exact ht2)
  have hmain := get_dec_angle_unsigned b (Db ++ c1 :: (M ++ c2 :: (S ++ tail))) hb
    (by rw [← hbody]; exact hnul) (by rw [← hbody]; exact htrim)
    (by rw [← hbody]; exact hlen)
  rw [← hbody] at hmain
  rw [hmain]
  rw [angleFields_numeric _ _ D M S tail c1 c2 (natOfDigits S : ℚ) nD nM
    (isNumeral_ne_nil nS) (fun c hc => charIn_delim2_of_isdigit (hSa c hc)) hc1 hc2
    (by
      rcases htail with ht | ⟨t, ht, ht1, _, _⟩
      · exact Or.inl ht
      · exact Or.inr ⟨t, ht, ht1⟩)
    bD bM
    (by rw [commaToPoint_eq_self S (fun c hc => comma_false_of_isdigit (hSa c hc)),
      strtod_numeral S nS])
    (by exact_mod_cast bS)]
  have e : (((natOfDigits D * 3600 + natOfDigits M * 60 : ℕ) : ℚ) + (natOfDigits S : ℚ))
      = ((natOfDigits D * 3600 + natOfDigits M * 60 + natOfDigits S : ℕ) : ℚ) := by
    push_cast
    ring
  rw [e]

theorem parse_sep_fields (D M S : List Char) (c : Char) (hc : c = ':' ∨ c = ' ')
    (nD : isNumeral D = true) (nM : isNumeral M = true) (nS : isNumeral S = true)
    (bM : natOfDigits M ≤ 59) (bS : natOfDigits S < 60)
    (hr : ((natOfDigits D * 3600 + natOfDigits M * 60 + natOfDigits S : ℕ) : ℚ) / 3600
      ≤ 180)
    (hlen : (D ++ c :: (M ++ c :: S)).length < 32767) :
    get_dec_angle (String.mk (D ++ c :: (M ++ c :: S)))
      = AngleResult.success false
          (((natOfDigits D * 3600 + natOfDigits M * 60 + natOfDigits S : ℕ) : ℚ) / 3600) := by
  have hDa := isNumeral_all nD
  have hMa := isNumeral_all nM
  have hSa := isNumeral_all nS
  have hsum : natOfDigits D * 3600 + natOfDigits M * 60 + natOfDigits S ≤ 648000 := by
    have h1 : ((natOfDigits D * 3600 + natOfDigits M * 60 + natOfDigits S : ℕ) : ℚ)
        ≤ 648000 := by
      have := (div_le_iff₀ (by norm_num : (0 : ℚ) < 3600)).mp hr
      linarith
    exact_mod_cast h1
  have hq : ∀ x ∈ D ++ c :: (M ++ c :: (S ++ [])),
      (isdigit x || x == ':' || x == ' ') = true := by
    intro x hx
    simp only [List.mem_append, List.mem_cons, List.append_nil] at hx
    rcases hx with h | h | h | h | h
    · simp [hDa x h]
    · rcases hc with h1 | h1 <;> simp [h, h1]
    · simp [hMa x h]
    · rcases hc with h1 | h1 <;> simp [h, h1]
    · simp [hSa x h]
  have hsw := strpbrk_eq_none_of_all "SsWw".data (fun x => isdigit x || x == ':' || x == ' ')
    (by decide) _ hq
  have hHh := strpbrk_eq_none_of_all "Hh".data (fun x => isdigit x || x == ':' || x == ' ')
    (by decide) _ hq
  have hsn := strpbrk_eq_none_of_all "SsNn".data (fun x => isdigit x || x == ':' || x == ' ')
    (by decide) _ hq
  have h3 := parse_three_fields D M S [] c c nD nM nS
    (by rcases hc with h1 | h1 <;> subst h1 <;> decide)
    (by rcases hc with h1 | h1 <;> subst h1 <;> decide)
    (by rcases hc with h1 | h1 <;> subst h1 <;> decide)
    (by rcases hc with h1 | h1 <;> subst h1 <;> decide)
    (Or.inl rfl) (by omega) bM bS (by rw [List.append_nil]; exact hlen)
  rw [hsw, angleType_degrees _ hHh hsn] at h3
  rw [List.append_nil] at h3
  rw [h3]
  exact rangeCheck_degrees _ _ hr

theorem parse_dms_letters (D M S : List Char)
    (nD : isNumeral D = true) (nM : isNumeral M = true) (nS : isNumeral S = true)
    (bD : natOfDigits D ≤ 500000) (bM : natOfDigits M ≤ 59) (bS : natOfDigits S < 60)
    (hlen : (D ++ 'd' :: (M ++ 'm' :: (S ++ ['s']))).length < 32767) :
    get_dec_angle (String.mk (D ++ 'd' :: (M ++ 'm' :: (S ++ ['s']))))
      = if ((natOfDigits D * 3600 + natOfDigits M * 60 + natOfDigits S : ℕ) : ℚ) / 3600 > 90
        then AngleResult.failure
        else AngleResult.success true
          (((natOfDigits D * 3600 + natOfDigits M * 60 + natOfDigits S : ℕ) : ℚ) / 3600) := by
  have hDa := isNumeral_all nD
  have hMa := isNumeral_all nM
  have hSa := isNumeral_all nS
  have hq : ∀ x ∈ D ++ 'd' :: (M ++ 'm' :: (S ++ ['s'])),
      (isdigit x || x == 'd' || x == 'm' || x == 's') = true := by
    intro x hx
    simp only [List.mem_append, List.mem_cons, List.mem_singleton] at hx
    rcases hx with h | h | h | h | h | h
    · simp [hDa x h]
    · simp [h]
    · simp [hMa x h]
    · simp [h]
    · simp [hSa x h]
    · rcases h with h | h
      · simp [h]
      · cases h
  have hsw : (strpbrk (D ++ 'd' :: (M ++ 'm' :: (S ++ ['s']))) "SsWw".data).isSome
      = true := by
    rw [strpbrk_isSome, List.any_eq_true]
    exact ⟨'s', by simp, by decide⟩
  have hsn : (strpbrk (D ++ 'd' :: (M ++ 'm' :: (S ++ ['s']))) "SsNn".data).isSome
      = true := by
    rw [strpbrk_isSome, List.any_eq_true]
    exact ⟨'s', by simp, by decide⟩
  have hHh := strpbrk_eq_none_of_all "Hh".data
    (fun x => isdigit x || x == 'd' || x == 'm' || x == 's') (by decide) _ hq
  have hty : angleType (D ++ 'd' :: (M ++ 'm' :: (S ++ ['s']))) = AngleType.LAT := by
    unfold angleType
    rw [hHh]
    simp only [hsn, if_true]
  have h3 := parse_three_fields D M S ['s'] 'd' 'm' nD nM nS (by decide) (by decide)
    (by decide) (by decide) (Or.inr ⟨'s', rfl, by decide, by decide, by decide⟩) bD bM bS
    hlen
  rw [hsw, hty, rangeCheck_lat] at h3
  exact h3

/-- C11, as the code behaves: for the same unsigned fields `D`, `M`, `S` with `M ≤ 59`,
`S < 60` and value `v = (D*3600 + M*60 + S)/3600 ≤ 180`, written in at most 32766 bytes,
the texts `D:M:S` and `D M S` both succeed with the value `v`, while `DdMmSs`, whose
trailing `s` is taken as the hemisphere letter South and makes the unit kind a latitude,
succeeds with the negated value `-v` when `v ≤ 90` and fails when `v > 90`; so
`12 34 56` gives the value of `12:34:56` and `12d34m56s` gives its negation. -/
theorem delimiter_conventions (D M S : List Char)
    (nD : isNumeral D = true) (nM : isNumeral M = true) (nS : isNumeral S = true)
    (bM : natOfDigits M ≤ 59) (bS : natOfDigits S < 60)
    (hr : ((natOfDigits D * 3600 + natOfDigits M * 60 + natOfDigits S : ℕ) : ℚ) / 3600
      ≤ 180)
    (hlen : (D ++ 'd' :: (M ++ 'm' :: (S ++ ['s']))).length < 32767) :
    get_dec_angle (String.mk (D ++ ':' :: (M ++ ':' :: S)))
        = AngleResult.success false
            (((natOfDigits D * 3600 + natOfDigits M * 60 + natOfDigits S : ℕ) : ℚ) / 3600)
    ∧ get_dec_angle (String.mk (D ++ ' ' :: (M ++ ' ' :: S)))
        = AngleResult.success false
            (((natOfDigits D * 3600 + natOfDigits M * 60 + natOfDigits S : ℕ) : ℚ) / 3600)
    ∧ get_dec_angle (String.mk (D ++ 'd' :: (M ++ 'm' :: (S ++ ['s']))))
        = (if ((natOfDigits D * 3600 + natOfDigits M * 60 + natOfDigits S : ℕ) : ℚ) / 3600
              > 90
            then AngleResult.failure
            else AngleResult.success true
              (((natOfDigits D * 3600 + natOfDigits M * 60 + natOfDigits S : ℕ) : ℚ)
                / 3600))
    ∧ (get_dec_angle "12 34 56").value = (get_dec_angle "12:34:56").value
    ∧ (get_dec_angle "12d34m56s").value = -(get_dec_angle "12:34:56").value := by
  have hsum : natOfDigits D * 3600 + natOfDigits M * 60 + natOfDigits S ≤ 648000 := by
    have h1 : ((natOfDigits D * 3600 + natOfDigits M * 60 + natOfDigits S : ℕ) : ℚ)
        ≤ 648000 := by
      have := (div_le_iff₀ (by norm_num : (0 : ℚ) < 3600)).mp hr
      linarith
    exact_mod_cast h1
  have hl2 : ∀ c : Char, (D ++ c :: (M ++ c :: S)).length < 32767 := by
    intro c
    simp only [List.length_append, List.length_cons, List.length_nil] at hlen ⊢
    omega
  exact ⟨parse_sep_fields D M S ':' (Or.inl rfl) nD nM nS bM bS hr (hl2 ':'),
    parse_sep_fields D M S ' ' (Or.inr rfl) nD nM nS bM bS hr (hl2 ' '),
    parse_dms_letters D M S nD nM nS (by omega) bM bS hlen, by decide!, by decide!⟩

/-- The fields `12`, `34`, `56` are in range; with the letters the text is negated. -/
theorem delimiter_conventions_witness :
    get_dec_angle (String.mk ("12".data ++ 'd' :: ("34".data ++ 'm' :: ("56".data ++ ['s']))))
      = (if ((natOfDigits "12".data * 3600 + natOfDigits "34".data * 60
              + natOfDigits "56".data : ℕ) : ℚ) / 3600 > 90
          then AngleResult.failure
          else AngleResult.success true
            (((natOfDigits "12".data * 3600 + natOfDigits "34".data * 60
              + natOfDigits "56".data : ℕ) : ℚ) / 3600)) :=
  (delimiter_conventions "12".data "34".data "56".data (by decide) (by decide) (by decide)
    (by decide) (by decide) (by decide!) (by decide)).2.2.1

/-- C11 fails as stated: the fields `12`, `34`, `56` are in range, `12:34:56` gives
`12 + 34/60 + 56/3600` and `12d34m56s` gives the negative of it. -/
theorem delimiter_conventions_counterexample :
    get_dec_angle "12:34:56" = AngleResult.success false (45296 / 3600)
    ∧ get_dec_angle "12 34 56" = AngleResult.success false (45296 / 3600)
    ∧ get_dec_angle "12d34m56s" = AngleResult.success true (45296 / 3600)
    ∧ (get_dec_angle "12d34m56s").value = -(45296 / 3600)
    ∧ (get_dec_angle "12d34m56s").value ≠ (get_dec_angle "12:34:56").value := by
  refine ⟨by decide!, by decide!, by decide!, by decide!, by decide!⟩

/-! ## Hour-angle inference -/

theorem rangeCheck_success_bounds {type : AngleType} {n neg : Bool} {p pos : ℚ}
    (h : rangeCheck type n p = AngleResult.success neg pos) :
    pos ≤ 180 ∧ (type = AngleType.HOURS → pos ≤ 24) ∧ (type = AngleType.LAT → pos ≤ 90) := by
  obtain ⟨_, hp⟩ := rangeCheck_success h
  subst hp
  unfold rangeCheck at h
  split at h
  · cases h
  · rename_i h1
    split at h
    · cases h
    · rename_i h2
      split at h
      · cases h
      · rename_i h3
        refine ⟨not_lt.mp h3, ?_, ?_⟩
        · intro ht
          by_contra hc
          exact h1 ⟨ht, not_le.mp hc⟩
        · intro ht
          by_contra hc
          exact h2 ⟨ht, not_le.mp hc⟩

theorem angleFields_success_bounds {n neg : Bool} {type : AngleType} {ptr : List Char}
    {pos : ℚ} (h : angleFields n type ptr = AngleResult.success neg pos) :
    pos ≤ 180 ∧ (type = AngleType.HOURS → pos ≤ 24) ∧ (type = AngleType.LAT → pos ≤ 90) := by
  unfold angleFields at h
  obtain ⟨o1, r1, h1⟩ : ∃ o r, strtok ptr delim1 = (o, r) := ⟨_, _, rfl⟩
  rw [h1] at h
  cases o1 with
  | none => cases h
  | some t1 =>
    dsimp only at h
    obtain ⟨o2, r2, h2⟩ : ∃ o r, strtok r1 delim1 = (o, r) := ⟨_, _, rfl⟩
    rw [h2] at h
    cases o2 with
    | none => cases h
    | some t2 =>
      dsimp only at h
      split at h
      · cases h
      · obtain ⟨o3, r3, h3⟩ : ∃ o r, strtok r2 delim2 = (o, r) := ⟨_, _, rfl⟩
        rw [h3] at h
        cases o3 with
        | none =>
          dsimp only at h
          unfold angleTail at h
          exact rangeCheck_success_bounds h
        | some t3 =>
          dsimp only at h
          split at h
          · cases h
          · unfold angleTail at h
            exact rangeCheck_success_bounds h

theorem parse_hour_letters (D M S : List Char)
    (nD : isNumeral D = true) (nM : isNumeral M = true) (nS : isNumeral S = true)
    (lD : D.length < 3) (bM : natOfDigits M ≤ 59) (bS : natOfDigits S < 60)
    (bD : natOfDigits D ≤ 500000)
    (hlen : (D ++ 'h' :: (M ++ 'm' :: (S ++ ['s']))).length < 32767) :
    get_dec_angle (String.mk (D ++ 'h' :: (M ++ 'm' :: (S ++ ['s']))))
      = if ((natOfDigits D * 3600 + natOfDigits M * 60 + natOfDigits S : ℕ) : ℚ) / 3600 > 24
        then AngleResult.failure
        else AngleResult.success true
          (((natOfDigits D * 3600 + natOfDigits M * 60 + natOfDigits S : ℕ) : ℚ) / 3600) := by
  have hDa := isNumeral_all nD
  have hsw : (strpbrk (D ++ 'h' :: (M ++ 'm' :: (S ++ ['s']))) "SsWw".data).isSome
      = true := by
    rw [strpbrk_isSome, List.any_eq_true]
    exact ⟨'s', by simp, by decide⟩
  have hHh := strpbrk_append_hit "Hh".data D (M ++ 'm' :: (S ++ ['s'])) 'h'
    (fun x hx => contains_eq_false_of_all "Hh".data isdigit (by decide) x (hDa x hx))
    (by decide)
  have hty : angleType (D ++ 'h' :: (M ++ 'm' :: (S ++ ['s']))) = AngleType.HOURS := by
    unfold angleType
    rw [hHh]
    simp only [lD, if_true]
  have h3 := parse_three_fields D M S ['s'] 'h' 'm' nD nM nS (by decide) (by decide)
    (by decide) (by decide) (Or.inr ⟨'s', rfl, by decide, by decide, by decide⟩) bD bM bS
    hlen
  rw [hsw, hty, rangeCheck_hours_iff] at h3
  exact h3

theorem natOfDigits_lt_pow (ds : List Char) (h : ∀ c ∈ ds, isdigit c = true) :
    natOfDigits ds < 10 ^ ds.length := by
  induction ds using List.reverseRecOn with
  | nil => simp [natOfDigits]
  | append_singleton xs c ih =>
    have hc : isdigit c = true := h c (by simp)
    have hv : digitVal c < 10 := by
      have h1 : decide ('0' ≤ c) = true ∧ decide (c ≤ '9') = true := by
        simpa [isdigit] using hc
      have h2 : c ≤ '9' := by simpa using h1.2
      have h3 : c.toNat ≤ 57 := h2
      unfold digitVal
      omega
    have ih' := ih (fun x hx => h x (by simp [hx]))
    rw [natOfDigits_append]
    simp only [List.length_singleton, pow_one, List.length_append, pow_succ]
    have : natOfDigits [c] = digitVal c := by simp [natOfDigits]
    rw [this]
    omega

/-- C12: when `H` or `h` occurs within the first three characters after the sign and the
leading blanks, the unit kind is hours and every success has a magnitude of at most 24.
A text `DhMmSs` whose `h` is there (a whole-number field of one or two digits), with
minutes at most 59 and seconds below 60, written in at most 32766 bytes, fails exactly
when its magnitude exceeds 24 and otherwise succeeds with that magnitude; written in
32767 to 65534 bytes (minutes or seconds with leading zeros) it fails whatever its
magnitude, the `short count` of line 186 being negative. `25h00m00s` fails although
`25:00:00` succeeds, and `12h34m56s` has the magnitude `12 + 34/60 + 56/3600` of
`12:34:56`. -/
theorem hour_angle_inference (str : String) :
    (∀ i : Nat, strpbrk (angleText str) "Hh".data = some i → i < 3 →
        angleType (angleText str) = AngleType.HOURS
        ∧ ∀ (neg : Bool) (pos : ℚ), get_dec_angle str = AngleResult.success neg pos →
            pos ≤ 24)
    ∧ (∀ D M S : List Char, isNumeral D = true → isNumeral M = true → isNumeral S = true →
        D.length < 3 → natOfDigits M ≤ 59 → natOfDigits S < 60 →
        ((D ++ 'h' :: (M ++ 'm' :: (S ++ ['s']))).length < 32767 →
          get_dec_angle (String.mk (D ++ 'h' :: (M ++ 'm' :: (S ++ ['s']))))
            = (if ((natOfDigits D * 3600 + natOfDigits M * 60 + natOfDigits S : ℕ) : ℚ)
                  / 3600 > 24
                then AngleResult.failure
                else AngleResult.success true
                  (((natOfDigits D * 3600 + natOfDigits M * 60 + natOfDigits S : ℕ) : ℚ)
                    / 3600)))
        ∧ (32767 ≤ (D ++ 'h' :: (M ++ 'm' :: (S ++ ['s']))).length →
          (D ++ 'h' :: (M ++ 'm' :: (S ++ ['s']))).length ≤ 65534 →
          get_dec_angle (String.mk (D ++ 'h' :: (M ++ 'm' :: (S ++ ['s']))))
            = AngleResult.failure))
    ∧ get_dec_angle "25h00m00s" = AngleResult.failure
    ∧ get_dec_angle "25:00:00" = AngleResult.success false 25
    ∧ get_dec_angle "12h34m56s" = AngleResult.success true (12 + 34 / 60 + 56 / 3600)
    ∧ get_dec_angle "12:34:56" = AngleResult.success false (12 + 34 / 60 + 56 / 3600) := by
  refine ⟨?_, ?_, by decide!, by decide!, by decide!, by decide!⟩
  · intro i hi hi3
    have hty : angleType (angleText str) = AngleType.HOURS := by
      unfold angleType
      rw [hi]
      simp only [hi3, if_true]
    refine ⟨hty, ?_⟩
    intro neg pos hs
    rcases get_dec_angle_cases str with hf | ⟨h0, hlen, he⟩
    · rw [hf] at hs
      cases hs
    rw [he] at hs
    exact (angleFields_success_bounds hs).2.1 hty
  · intro D M S nD nM nS lD bM bS
    have hlt := natOfDigits_lt_pow D (isNumeral_all nD)
    have hpow : 10 ^ D.length ≤ 10 ^ 2 := Nat.pow_le_pow_right (by norm_num) (by omega)
    refine ⟨fun hlen => parse_hour_letters D M S nD nM nS lD bM bS (by omega) hlen, ?_⟩
    intro hlong _
    exact get_dec_angle_long_text _
      (fields_not_nul D M S ['s'] 'h' 'm' nD nM nS (by decide) (by decide)
        (by decide)) hlong

/-- The text `25h00m00s` has its `h` at offset 2 and a magnitude above 24, and fails. The
text `12h0...034m56s` with 32758 zeros has 32767 bytes and the magnitude of `12h34m56s`,
below 24, and fails. -/
theorem hour_angle_inference_witness :
    get_dec_angle (String.mk ("25".data ++ 'h' :: ("00".data ++ 'm' :: ("00".data ++ ['s']))))
      = (if ((natOfDigits "25".data * 3600 + natOfDigits "00".data * 60
              + natOfDigits "00".data : ℕ) : ℚ) / 3600 > 24
          then AngleResult.failure
          else AngleResult.success true
            (((natOfDigits "25".data * 3600 + natOfDigits "00".data * 60
              + natOfDigits "00".data : ℕ) : ℚ) / 3600))
    ∧ natOfDigits (List.replicate 32758 '0' ++ "34".data) = 34
    ∧ get_dec_angle (String.mk ("12".data
          ++ 'h' :: ((List.replicate 32758 '0' ++ "34".data) ++ 'm' :: ("56".data ++ ['s']))))
        = AngleResult.failure := by
  obtain ⟨n0, v0⟩ := zeros_numeral 32758 "34".data (by decide)
  have v34 : natOfDigits (List.replicate 32758 '0' ++ "34".data) = 34 := by
    rw [v0]
    decide
  have hl := zeros_length_mid 32758 2 6 "12".data "34".data ('m' :: ("56".data ++ ['s'])) 'h'
    (by decide) (by decide)
  refine ⟨((hour_angle_inference "").2.1 "25".data "00".data "00".data (by decide)
    (by decide) (by decide) (by decide) (by decide) (by decide)).1 (by decide), v34, ?_⟩
  exact ((hour_angle_inference "").2.1 "12".data (List.replicate 32758 '0' ++ "34".data)
    "56".data (by decide) n0 (by decide) (by decide) (by omega) (by decide)).2
    (by omega) (by omega)

/-! ## Optional seconds -/

theorem angleFields_two (negative : Bool) (type : AngleType) (D M : List Char) (c1 : Char)
    (hD : isNumeral D = true) (hM : isNumeral M = true)
    (hc1 : charIn c1 delim1 = true)
    (bD : natOfDigits D ≤ 500000) (bM : natOfDigits M ≤ 59) :
    angleFields negative type (D ++ c1 :: M)
      = rangeCheck type negative
          ((((natOfDigits D * 3600 + natOfDigits M * 60 : ℕ) : ℚ) + 0) / 3600) := by
  have h1 := strtok_token delim1 D M c1 (isNumeral_ne_nil hD)
    (fun c hc => charIn_delim1_of_isdigit (isNumeral_all hD c hc)) hc1
  have h2 := strtok_last delim1 M (isNumeral_ne_nil hM)
    (fun c hc => charIn_delim1_of_isdigit (isNumeral_all hM c hc))
  unfold angleFields
  simp only [h1, h2, strtok_nil, angleTail_nil]
  rw [atoi_numeral M hM (by omega), atoi_numeral D hD (by omega), if_neg (by omega),
    composePos_small _ _ _ bD bM]

/-- C20: for a text `D:M` of two unsigned numerals with `M ≤ 59` and `D + M/60 ≤ 180`,
the seconds field is absent; `get_dec_angle` succeeds with the seconds taken as 0 and
returns `D + M/60` when the text has at most 32766 bytes, and returns the failure `-0.0`
when it has from 32767 to 65534 bytes (numerals with leading zeros), the `short count` of
line 186 being negative. `12:34` returns `12 + 34/60`. -/
theorem get_dec_angle_two_fields (D M : List Char)
    (hD : isNumeral D = true) (hM : isNumeral M = true) (hm : natOfDigits M ≤ 59)
    (hr : (natOfDigits D : ℚ) + (natOfDigits M : ℚ) / 60 ≤ 180) :
    ((D ++ ':' :: M).length < 32767 →
      get_dec_angle (String.mk (D ++ ':' :: M))
          = AngleResult.success false ((natOfDigits D : ℚ) + (natOfDigits M : ℚ) / 60)
      ∧ (get_dec_angle (String.mk (D ++ ':' :: M))).value
          = (natOfDigits D : ℚ) + (natOfDigits M : ℚ) / 60)
    ∧ (32767 ≤ (D ++ ':' :: M).length → (D ++ ':' :: M).length ≤ 65534 →
      get_dec_angle (String.mk (D ++ ':' :: M)) = AngleResult.failure)
    ∧ secondsField (String.mk (D ++ ':' :: M)) = none
    ∧ (get_dec_angle "12:34").value = 12 + 34 / 60 := by
  have hDa := isNumeral_all hD
  have hMa := isNumeral_all hM
  have hDb : natOfDigits D ≤ 180 := by
    have h0 : (0 : ℚ) ≤ (natOfDigits M : ℚ) / 60 := by positivity
    have h1 : (natOfDigits D : ℚ) ≤ 180 := by linarith
    exact_mod_cast h1
  obtain ⟨b, Db, hDeq⟩ := List.exists_cons_of_ne_nil (isNumeral_ne_nil hD)
  have hb : isdigit b = true := hDa b (by rw [hDeq]; exact List.mem_cons_self _ _)
  have hbody : D ++ ':' :: M = b :: (Db ++ ':' :: M) := by
    rw [hDeq]
    rfl
  have hq : ∀ x ∈ D ++ ':' :: M, (isdigit x || x == ':') = true := by
    intro x hx
    simp only [List.mem_append, List.mem_cons] at hx
    rcases hx with h | h | h
    · simp [hDa x h]
    · simp [h]
    · simp [hMa x h]
  have hnul : ∀ x ∈ D ++ ':' :: M, (x != '\x00') = true :=
    not_nul_of_class (fun x => isdigit x || x == ':') (by decide) _ hq
  have htrim : trim (D ++ ':' :: M) = D ++ ':' :: M := by
    have e : D ++ ':' :: M = (D ++ [':']) ++ M := by simp
    rw [e]
    exact trim_append_of_forall _ M (isNumeral_ne_nil hM)
      (fun c hc => iswhite_of_isdigit (hMa c hc))
  have hsw := strpbrk_eq_none_of_all "SsWw".data (fun x => isdigit x || x == ':')
    (by decide) _ hq
  have hHh := strpbrk_eq_none_of_all "Hh".data (fun x => isdigit x || x == ':')
    (by decide) _ hq
  have hsn := strpbrk_eq_none_of_all "SsNn".data (fun x => isdigit x || x == ':')
    (by decide) _ hq
  have hmain : (D ++ ':' :: M).length < 32767 → _ := fun hlen =>
    get_dec_angle_unsigned b (Db ++ ':' :: M) hb
      (by rw [← hbody]; exact hnul) (by rw [← hbody]; exact htrim)
      (by rw [← hbody]; exact hlen)
  rw [← hbody] at hmain
  have hval : ((((natOfDigits D * 3600 + natOfDigits M * 60 : ℕ) : ℚ) + 0) / 3600)
      = (natOfDigits D : ℚ) + (natOfDigits M : ℚ) / 60 := by
    push_cast
    ring
  have key : (D ++ ':' :: M).length < 32767 → get_dec_angle (String.mk (D ++ ':' :: M))
      = AngleResult.success false ((natOfDigits D : ℚ) + (natOfDigits M : ℚ) / 60) := by
    intro hlen
    rw [hmain hlen, hsw, angleType_degrees _ hHh hsn]
    rw [angleFields_two _ _ D M ':' hD hM (by decide) (by omega) hm, hval]
    exact rangeCheck_degrees _ _ hr
  refine ⟨fun hlen => ⟨key hlen, by rw [key hlen]; rfl⟩,
    fun hlong _ => get_dec_angle_long_text _ hnul hlong, ?_, by decide!⟩
  have htext : angleText (String.mk (D ++ ':' :: M)) = D ++ ':' :: M := by
    unfold angleText
    rw [c_str_mk _ hnul, htrim, hbody, skipwhite_cons_of_not_white b _ (iswhite_of_isdigit hb)]
    have hs := hsw
    rw [hbody] at hs
    rw [angleSign_of_digit_head b _ hb hs]
    exact skipwhite_cons_of_not_white b _ (iswhite_of_isdigit hb)
  unfold secondsField
  rw [htext]
  have h1 := strtok_token delim1 D M ':' (isNumeral_ne_nil hD)
    (fun c hc => charIn_delim1_of_isdigit (hDa c hc)) (by decide)
  have h2 := strtok_last delim1 M (isNumeral_ne_nil hM)
    (fun c hc => charIn_delim1_of_isdigit (hMa c hc))
  simp only [h1, h2, strtok_nil]

/-- The text `12:34` has two unsigned fields in range and succeeds; with 32762 zeros in
front it still denotes the fields 12 and 34, has 32767 bytes and fails. -/
theorem get_dec_angle_two_fields_witness :
    get_dec_angle (String.mk ("12".data ++ ':' :: "34".data))
        = AngleResult.success false ((natOfDigits "12".data : ℚ)
            + (natOfDigits "34".data : ℚ) / 60)
    ∧ natOfDigits (List.replicate 32762 '0' ++ "12".data) = 12
    ∧ get_dec_angle (String.mk ((List.replicate 32762 '0' ++ "12".data) ++ ':' :: "34".data))
        = AngleResult.failure := by
  obtain ⟨n0, v0⟩ := zeros_numeral 32762 "12".data (by decide)
  have v12 : natOfDigits (List.replicate 32762 '0' ++ "12".data) = 12 := by
    rw [v0]
    decide
  have hl := zeros_length 32762 5 "12".data (':' :: "34".data) (by decide)
  refine ⟨((get_dec_angle_two_fields "12".data "34".data (by decide) (by decide)
    (by decide) (by decide!)).1 (by decide)).1, v12, ?_⟩
  exact (get_dec_angle_two_fields (List.replicate 32762 '0' ++ "12".data) "34".data n0
    (by decide) (by decide) (by rw [v12]; decide!)).2.1 (by omega) (by omega)

/-! ## Missing fields -/

theorem get_dec_angle_of_no_minutes (str : String) (h : minutesField str = none) :
    get_dec_angle str = AngleResult.failure := by
  rcases get_dec_angle_cases str with hf | ⟨h0, hlen, he⟩
  · exact hf
  · rw [he]
    unfold minutesField at h
    unfold angleFields
    obtain ⟨o1, r1, h1⟩ : ∃ o r, strtok (angleText str) delim1 = (o, r) := ⟨_, _, rfl⟩
    rw [h1] at h ⊢
    cases o1 with
    | none => rfl
    | some t1 =>
      dsimp only at h ⊢
      obtain ⟨o2, r2, h2⟩ : ∃ o r, strtok r1 delim1 = (o, r) := ⟨_, _, rfl⟩
      rw [h2] at h ⊢
      cases o2 with
      | none => rfl
      | some t2 => simp at h

theorem minutesField_of_no_whole (str : String) (h : wholeField str = none) :
    minutesField str = none := by
  unfold wholeField at h
  unfold minutesField
  obtain ⟨o1, r1, h1⟩ : ∃ o r, strtok (angleText str) delim1 = (o, r) := ⟨_, _, rfl⟩
  rw [h1] at h ⊢
  cases o1 with
  | none => rfl
  | some t1 => simp at h

theorem strtok_all_delims (delim s : List Char) (h : ∀ c ∈ s, charIn c delim = true) :
    strtok s delim = (none, []) := by
  unfold strtok
  rw [List.dropWhile_eq_nil_iff.mpr h]

theorem strtok_skip (delim A s : List Char) (h : ∀ c ∈ A, charIn c delim = true) :
    strtok (A ++ s) delim = strtok s delim := by
  unfold strtok
  rw [List.dropWhile_append_of_pos h]

theorem trim_append_right (X B : List Char) (hX : trim X = X) :
    trim (X ++ B) = X ++ trim B := by
  unfold trim at hX ⊢
  rw [List.reverse_append, List.dropWhile_append]
  by_cases h : (List.dropWhile iswhite B.reverse).isEmpty = true
  · rw [if_pos h, hX]
    have h0 : List.dropWhile iswhite B.reverse = [] := by simpa using h
    rw [h0]
    simp
  · rw [if_neg h]
    simp

theorem skipwhite_idem (s : List Char) : skipwhite (skipwhite s) = skipwhite s := by
  unfold skipwhite
  cases h : List.dropWhile iswhite s with
  | nil => rfl
  | cons c r =>
    have hc := head_dropWhile_false iswhite s c r h
    exact List.dropWhile_cons_of_neg (by simp [hc])

theorem angleSign_snd_of_head (ptr : List Char)
    (h : ∀ c r, ptr = c :: r → c ≠ '+' ∧ c ≠ '-') : (angleSign ptr).2 = ptr := by
  unfold angleSign
  split
  · rename_i r
    exact absurd rfl (h '+' r rfl).1
  · rename_i r
    exact absurd rfl (h '-' r rfl).2
  · rfl

theorem angleText_subset (str : String) : ∀ c ∈ angleText str, c ∈ c_str str := by
  intro c hc
  unfold angleText at hc
  have h1 := List.dropWhile_subset _ hc
  have h2 := angleSign_snd_subset _ c h1
  have h3 := List.dropWhile_subset _ h2
  exact trim_subset _ c h3

theorem not_nul_of_delim1 {c : Char} (h : charIn c delim1 = true) : (c != '\x00') = true := by
  have hmem : c ∈ delim1 := by simpa [charIn] using h
  have : (delim1.all fun a => a != '\x00') = true := by decide
  exact (List.all_eq_true.mp this) c hmem

theorem not_sign_of_delim1 {c : Char} (h : charIn c delim1 = true) : c ≠ '+' ∧ c ≠ '-' := by
  have hmem : c ∈ delim1 := by simpa [charIn] using h
  have : (delim1.all fun a => a != '+' && a != '-') = true := by decide
  have h2 := (List.all_eq_true.mp this) c hmem
  simpa using h2

theorem get_dec_angle_only_delims (l : List Char) (h : ∀ c ∈ l, charIn c delim1 = true) :
    get_dec_angle (String.mk l) = AngleResult.failure := by
  apply get_dec_angle_of_no_minutes
  apply minutesField_of_no_whole
  unfold wholeField
  have hc : c_str (String.mk l) = l := c_str_mk l (fun c hc => not_nul_of_delim1 (h c hc))
  have hall : ∀ c ∈ angleText (String.mk l), charIn c delim1 = true := by
    intro c hcm
    have := angleText_subset _ c hcm
    rw [hc] at this
    exact h c this
  rw [strtok_all_delims delim1 _ hall]

theorem dropWhile_append_stop (p : Char → Bool) (A Y : List Char) (d : Char)
    (hd : p d = false) :
    (A ++ d :: Y).dropWhile p = A.dropWhile p ++ d :: Y := by
  rw [List.dropWhile_append]
  by_cases h : (List.dropWhile p A).isEmpty = true
  · rw [if_pos h]
    have h0 : List.dropWhile p A = [] := by simpa using h
    rw [h0, List.dropWhile_cons_of_neg (by simp [hd])]
    rfl
  · rw [if_neg h]

theorem angleText_single_field (A D B : List Char)
    (hA : ∀ c ∈ A, charIn c delim1 = true) (nD : isNumeral D = true)
    (hB : ∀ c ∈ B, charIn c delim1 = true) :
    angleText (String.mk (A ++ (D ++ B))) = skipwhite A ++ (D ++ trim B) := by
  have hDa := isNumeral_all nD
  obtain ⟨b, Db, hDeq⟩ := List.exists_cons_of_ne_nil (isNumeral_ne_nil nD)
  have hb : isdigit b = true := hDa b (by rw [hDeq]; exact List.mem_cons_self _ _)
  have hnul : ∀ c ∈ A ++ (D ++ B), (c != '\x00') = true := by
    intro c hc
    simp only [List.mem_append] at hc
    rcases hc with h | h | h
    · exact not_nul_of_delim1 (hA c h)
    · exact not_nul_of_isdigit (hDa c h)
    · exact not_nul_of_delim1 (hB c h)
  have htrim : trim (A ++ (D ++ B)) = A ++ (D ++ trim B) := by
    rw [← List.append_assoc, trim_append_right (A ++ D) B
      (trim_append_of_forall A D (isNumeral_ne_nil nD)
        (fun c hc => iswhite_of_isdigit (hDa c hc))), List.append_assoc]
  have hskip : skipwhite (A ++ (D ++ trim B)) = skipwhite A ++ (D ++ trim B) := by
    unfold skipwhite
    rw [hDeq, List.cons_append]
    exact dropWhile_append_stop iswhite A _ b (iswhite_of_isdigit hb)
  have hhead : ∀ c r, skipwhite A ++ (D ++ trim B) = c :: r → c ≠ '+' ∧ c ≠ '-' := by
    intro c r heq
    cases hA' : skipwhite A with
    | nil =>
      rw [hA', List.nil_append, hDeq, List.cons_append] at heq
      injection heq with h1 _
      rw [← h1]
      exact ⟨ne_of_isdigit hb (by decide), ne_of_isdigit hb (by decide)⟩
    | cons a as =>
      rw [hA', List.cons_append] at heq
      injection heq with h1 _
      rw [← h1]
      have hmem : a ∈ A := by
        have : a ∈ skipwhite A := by
          rw [hA']
          exact List.mem_cons_self _ _
        exact List.dropWhile_subset _ this
      exact not_sign_of_delim1 (hA a hmem)
  unfold angleText
  rw [c_str_mk _ hnul, htrim, hskip, angleSign_snd_of_head _ hhead, ← hskip, skipwhite_idem]

theorem get_dec_angle_single_field (A D B : List Char)
    (hA : ∀ c ∈ A, charIn c delim1 = true) (nD : isNumeral D = true)
    (hB : ∀ c ∈ B, charIn c delim1 = true) :
    get_dec_angle (String.mk (A ++ (D ++ B))) = AngleResult.failure := by
  have hDa := isNumeral_all nD
  have hA' : ∀ c ∈ skipwhite A, charIn c delim1 = true :=
    fun c hc => hA c (List.dropWhile_subset _ hc)
  have hB' : ∀ c ∈ trim B, charIn c delim1 = true := fun c hc => hB c (trim_subset B c hc)
  apply get_dec_angle_of_no_minutes
  unfold minutesField
  rw [angleText_single_field A D B hA nD hB, strtok_skip delim1 _ _ hA']
  cases hB2 : trim B with
  | nil =>
    rw [List.append_nil, strtok_last delim1 D (isNumeral_ne_nil nD)
      (fun c hc => charIn_delim1_of_isdigit (hDa c hc))]
    rfl
  | cons d r =>
    have hd : charIn d delim1 = true := hB' d (by rw [hB2]; exact List.mem_cons_self _ _)
    have hr : ∀ c ∈ r, charIn c delim1 = true :=
      fun c hc => hB' c (by rw [hB2]; exact List.mem_cons_of_mem _ hc)
    rw [strtok_token delim1 D r d (isNumeral_ne_nil nD)
      (fun c hc => charIn_delim1_of_isdigit (hDa c hc)) hd]
    simp only [strtok_all_delims delim1 r hr]

/-- C15: `get_dec_angle` reports failure whenever the whole-number field or the minutes
field is missing; the empty text, every text made only of blanks and field delimiters, and
every text with a single numeral among blanks and field delimiters (such as `12`) fail. -/
theorem get_dec_angle_missing_field (str : String) :
    (wholeField str = none → get_dec_angle str = AngleResult.failure)
    ∧ (minutesField str = none → get_dec_angle str = AngleResult.failure)
    ∧ get_dec_angle "" = AngleResult.failure
    ∧ (∀ l : List Char, (∀ c ∈ l, iswhite c = true ∨ charIn c delim1 = true) →
        get_dec_angle (String.mk l) = AngleResult.failure)
    ∧ (∀ A D B : List Char, (∀ c ∈ A, iswhite c = true ∨ charIn c delim1 = true) →
        isNumeral D = true → (∀ c ∈ B, iswhite c = true ∨ charIn c delim1 = true) →
        get_dec_angle (String.mk (A ++ (D ++ B))) = AngleResult.failure)
    ∧ get_dec_angle "12" = AngleResult.failure
    ∧ get_dec_angle " : " = AngleResult.failure := by
  have hw : ∀ c : Char, iswhite c = true ∨ charIn c delim1 = true → charIn c delim1 = true := by
    intro c hc
    rcases hc with h | h
    · have h1 : c = ' ' ∨ c = '\t' := by simpa [iswhite] using h
      rcases h1 with h1 | h1 <;> subst h1 <;> decide
    · exact h
  refine ⟨fun h => get_dec_angle_of_no_minutes str (minutesField_of_no_whole str h),
    get_dec_angle_of_no_minutes str, by decide, ?_, ?_, by decide, by decide⟩
  · intro l hl
    exact get_dec_angle_only_delims l (fun c hc => hw c (hl c hc))
  · intro A D B hA nD hB
    exact get_dec_angle_single_field A D B (fun c hc => hw c (hA c hc)) nD
      (fun c hc => hw c (hB c hc))

/-- The text `12` has a whole-number field and no minutes field. -/
theorem get_dec_angle_missing_field_witness :
    get_dec_angle "12" = AngleResult.failure :=
  (get_dec_angle_missing_field "12").2.1 (by decide)

/-! ## The failure value -/

/-- C16, as the code behaves: a failed parse returns the zero `-0.0`; it differs from the
value of every successful parse that is not zero, and it equals the value of every
successful parse of a zero. -/
theorem failure_value_is_zero (s t : String) (neg : Bool) (pos : ℚ)
    (hs : get_dec_angle s = AngleResult.failure)
    (ht : get_dec_angle t = AngleResult.success neg pos) :
    (get_dec_angle s).value = 0
    ∧ (get_dec_angle s).signBit = true
    ∧ (pos ≠ 0 → (get_dec_angle s).value ≠ (get_dec_angle t).value)
    ∧ (pos = 0 → (get_dec_angle s).value = (get_dec_angle t).value) := by
  rw [hs, ht]
  refine ⟨rfl, rfl, ?_, ?_⟩
  · intro hp
    cases neg with
    | true =>
      simp only [AngleResult.value, if_true]
      intro h
      apply hp
      linarith
    | false =>
      simp only [AngleResult.value, Bool.false_eq_true, if_false]
      intro h
      exact hp h.symm
  · intro hp
    subst hp
    cases neg <;> simp [AngleResult.value]

/-- The empty text fails and `1:0:0` succeeds with a value that is not zero. -/
theorem failure_value_is_zero_witness :
    (get_dec_angle "").value ≠ (get_dec_angle "1:0:0").value :=
  (failure_value_is_zero "" "1:0:0" false 1 (by decide) (by decide!)).2.2.1 (by norm_num)

/-- C16 fails as stated: the empty text fails, the texts `0:0:0` and `-0:0:0` succeed, and
all three return a zero; the one of `-0:0:0` has the sign bit of the failure value. -/
theorem failure_value_counterexample :
    get_dec_angle "" = AngleResult.failure
    ∧ get_dec_angle "0:0:0" = AngleResult.success false 0
    ∧ get_dec_angle "-0:0:0" = AngleResult.success true 0
    ∧ (get_dec_angle "").value = (get_dec_angle "0:0:0").value
    ∧ (get_dec_angle "").value = (get_dec_angle "-0:0:0").value
    ∧ (get_dec_angle "").signBit = (get_dec_angle "-0:0:0").signBit := by
  refine ⟨by decide, by decide!, by decide!, by decide!, by decide!, by decide!⟩

/-! ## Separators of the date text -/

theorem readDate_dateTextSep (neg : Bool) (Y M D h mi s : List Char) (c1 c2 c3 c4 c5 : Char)
    (hY : isNumeral Y = true) (hM : isNumeral M = true) (hD : isNumeral D = true)
    (hh : isNumeral h = true) (hmi : isNumeral mi = true) (hs : isNumeral s = true)
    (bY : natOfDigits Y ≤ 2147483647) (bM : natOfDigits M ≤ 2147483647)
    (bD : natOfDigits D ≤ 2147483647) (bh : natOfDigits h ≤ 2147483647)
    (bmi : natOfDigits mi ≤ 2147483647) (bs : natOfDigits s ≤ 2147483647)
    (d1 : isdigit c1 = false) (d2 : isdigit c2 = false) (d3 : isdigit c3 = false)
    (d4 : isdigit c4 = false) (d5 : isdigit c5 = false)
    (w1 : isspace c1 = false) (w2 : isspace c2 = false) (w3 : isspace c3 = false)
    (w4 : isspace c4 = false) (w5 : isspace c5 = false) :
    readDate (String.mk (dateTextSep neg Y c1 M c2 D c3 h c4 mi c5 s))
      = DateFields.mk (if neg then -(natOfDigits Y : Int) else (natOfDigits Y : Int))
          (natOfDigits M) (natOfDigits D) (natOfDigits h) (natOfDigits mi)
          (natOfDigits s) := by
  have sep : ∀ (x : Char) (t : List Char), isdigit x = false →
      ∀ c r, x :: t = c :: r → isdigit c = false := by
    intro x t hx c r heq
    injection heq with h1 _
    rw [← h1]
    exact hx
  have e1 : extractInt (IStream.mk (dateTextSep neg Y c1 M c2 D c3 h c4 mi c5 s) false) 0
      = (IStream.mk (c1 :: (M ++ c2 :: (D ++ c3 :: (h ++ c4 :: (mi ++ c5 :: s))))) false,
          if neg then -(natOfDigits Y : Int) else (natOfDigits Y : Int)) := by
    unfold dateTextSep
    cases neg with
    | true =>
      simp only [if_true, List.singleton_append]
      exact extractInt_minus Y _ 0 hY (sep c1 _ d1) bY
    | false =>
      simp only [Bool.false_eq_true, if_false, List.nil_append]
      exact extractInt_numeral Y _ 0 hY (sep c1 _ d1) bY
  have k1 := extractChar_cons c1 (M ++ c2 :: (D ++ c3 :: (h ++ c4 :: (mi ++ c5 :: s)))) w1
  have e2 := extractInt_numeral M (c2 :: (D ++ c3 :: (h ++ c4 :: (mi ++ c5 :: s)))) 0 hM
    (sep c2 _ d2) bM
  have k2 := extractChar_cons c2 (D ++ c3 :: (h ++ c4 :: (mi ++ c5 :: s))) w2
  have e3 := extractInt_numeral D (c3 :: (h ++ c4 :: (mi ++ c5 :: s))) 0 hD (sep c3 _ d3) bD
  have k3 := extractChar_cons c3 (h ++ c4 :: (mi ++ c5 :: s)) w3
  have e4 := extractInt_numeral h (c4 :: (mi ++ c5 :: s)) 0 hh (sep c4 _ d4) bh
  have k4 := extractChar_cons c4 (mi ++ c5 :: s) w4
  have e5 := extractInt_numeral mi (c5 :: s) 0 hmi (sep c5 _ d5) bmi
  have k5 := extractChar_cons c5 s w5
  have e6 := extractInt_numeral s [] 0 hs (by intro c r hcr; cases hcr) bs
  rw [List.append_nil] at e6
  unfold readDate
  simp only [String.data, e1, k1, e2, k2, e3, k3, e4, k4, e5, k5, e6]

theorem string_to_jday_congr (a b : String) (jd : ℚ) (h : readDate a = readDate b) :
    string_to_jday a jd = string_to_jday b jd := by
  unfold string_to_jday
  rw [h]

/-- C13, as the code behaves: for every six valid field values, any separators that are
neither digits nor white space give the same result as the form `Y-M-DTh:m:s`. A blank is
skipped by the extraction of the separator character, which then takes the first digit of
the next field: `2000-01-01 12:00:00` is read with hour 2 and gives
`2451544.58333...`, not `2451545.0`. -/
theorem string_to_jday_separators (neg : Bool) (Y M D h mi s : List Char)
    (c1 c2 c3 c4 c5 : Char) (jd0 : ℚ)
    (hY : isNumeral Y = true) (hM : isNumeral M = true) (hD : isNumeral D = true)
    (hh : isNumeral h = true) (hmi : isNumeral mi = true) (hs : isNumeral s = true)
    (bY : natOfDigits Y ≤ 100000) (bM1 : 1 ≤ natOfDigits M) (bM2 : natOfDigits M ≤ 12)
    (bD1 : 1 ≤ natOfDigits D) (bD2 : natOfDigits D ≤ 31) (bh : natOfDigits h ≤ 23)
    (bmi : natOfDigits mi ≤ 59) (bs : natOfDigits s ≤ 59)
    (d1 : isdigit c1 = false) (d2 : isdigit c2 = false) (d3 : isdigit c3 = false)
    (d4 : isdigit c4 = false) (d5 : isdigit c5 = false)
    (w1 : isspace c1 = false) (w2 : isspace c2 = false) (w3 : isspace c3 = false)
    (w4 : isspace c4 = false) (w5 : isspace c5 = false) :
    string_to_jday (String.mk (dateTextSep neg Y c1 M c2 D c3 h c4 mi c5 s)) jd0
        = string_to_jday (String.mk (dateText neg Y M D h mi s)) jd0
    ∧ (string_to_jday (String.mk (dateTextSep neg Y c1 M c2 D c3 h c4 mi c5 s)) jd0).1 = 1
    ∧ readDate "2000-01-01 12:00:00" = DateFields.mk 2000 1 1 2 0 0
    ∧ string_to_jday "2000-01-01 12:00:00" jd0 = (1, 29418535 / 12) := by
  have f1 := readDate_dateTextSep neg Y M D h mi s c1 c2 c3 c4 c5 hY hM hD hh hmi hs
    (by omega) (by omega) (by omega) (by omega) (by omega) (by omega) d1 d2 d3 d4 d5
    w1 w2 w3 w4 w5
  have f2 := readDate_dateText neg Y M D h mi s hY hM hD hh hmi hs
    (by omega) (by omega) (by omega) (by omega) (by omega) (by omega)
  have hb : outOfBounds (DateFields.mk
      (if neg then -(natOfDigits Y : Int) else (natOfDigits Y : Int))
      (natOfDigits M) (natOfDigits D) (natOfDigits h) (natOfDigits mi) (natOfDigits s))
      = false := by
    rw [Bool.eq_false_iff]
    intro hcon
    rw [outOfBounds_iff] at hcon
    simp only at hcon
    cases neg <;> simp at hcon <;> omega
  refine ⟨string_to_jday_congr _ _ jd0 (by rw [f1, f2]), ?_, by decide, ?_⟩
  · rw [string_to_jday_of_fields _ jd0 _ f1 hb]
  · have hf : readDate "2000-01-01 12:00:00" = DateFields.mk 2000 1 1 2 0 0 := by decide
    rw [string_to_jday_of_fields _ jd0 _ hf (by decide)]
    have : julianDay (shiftYear 2000 1) (shiftMonth 1) 1 2 0 0 = 29418535 / 12 := by decide!
    simp only [this]

/-- The separators `/`, `/`, `_`, `.`, `.` are neither digits nor white space. -/
theorem string_to_jday_separators_witness :
    string_to_jday (String.mk (dateTextSep false "2000".data '/' "01".data '/' "01".data '_'
        "12".data '.' "00".data '.' "00".data)) 0
      = string_to_jday (String.mk (dateText false "2000".data "01".data "01".data
          "12".data "00".data "00".data)) 0 :=
  (string_to_jday_separators false "2000".data "01".data "01".data "12".data "00".data
    "00".data '/' '/' '_' '.' '.' 0 (by decide) (by decide) (by decide) (by decide)
    (by decide) (by decide) (by decide) (by decide) (by decide) (by decide) (by decide)
    (by decide) (by decide) (by decide) (by decide) (by decide) (by decide) (by decide)
    (by decide) (by decide) (by decide) (by decide) (by decide) (by decide)).1

/-- C13 fails as stated: with a blank between date and time the hour is read as 2, and the
Julian Day is `2451544.58333...` where the form with `T` gives `2451545.0`. -/
theorem string_to_jday_separators_counterexample :
    string_to_jday "2000-01-01T12:00:00" 0 = (1, 2451545.0)
    ∧ string_to_jday "2000-01-01 12:00:00" 0 = (1, 29418535 / 12)
    ∧ (readDate "2000-01-01 12:00:00").hour = 2
    ∧ string_to_jday "2000-01-01 12:00:00" 0 ≠ string_to_jday "2000-01-01T12:00:00" 0 := by
  refine ⟨by decide!, by decide!, by decide, by decide!⟩

/-! ## The Gregorian cutover -/

theorem gregorianB_eq (y m d : Int) (hy0 : -100001 ≤ y) (hy1 : y ≤ 100000) :
    gregorianB y m d
      = if y > 1582 ∨ (y = 1582 ∧ (m > 10 ∨ (m = 10 ∧ d ≥ 15))) then y / 400 - y / 100
        else -2 := by
  unfold gregorianB
  by_cases hc : y > 1582 ∨ (y = 1582 ∧ (m > 10 ∨ (m = 10 ∧ d ≥ 15)))
  · have hy : 0 ≤ y := by omega
    rw [if_pos hc, if_pos hc, Int.tdiv_eq_ediv hy (by norm_num),
      Int.tdiv_eq_ediv hy (by norm_num)]
    exact wrap32_small _ (by omega) (by omega)
  · rw [if_neg hc, if_neg hc]

theorem shift_eq (Y M : Int) (hY0 : -100000 ≤ Y) (hY1 : Y ≤ 100000) (hM0 : 1 ≤ M)
    (hM1 : M ≤ 12) :
    shiftYear Y M = (if M ≤ 2 then Y - 1 else Y)
    ∧ shiftMonth M = (if M ≤ 2 then M + 12 else M) := by
  unfold shiftYear shiftMonth
  by_cases h : M ≤ 2
  · rw [if_pos h, if_pos h, if_pos h, if_pos h]
    exact ⟨wrap32_small _ (by omega) (by omega), wrap32_small _ (by omega) (by omega)⟩
  · rw [if_neg h, if_neg h, if_neg h, if_neg h]
    exact ⟨rfl, rfl⟩

theorem floor_div_lit (y : Int) (n : Nat) : ⌊(y : ℚ) / (n : ℚ)⌋ = y / (n : Int) :=
  Rat.floor_intCast_div_natCast y n

/-- C18: for a date `Y-M-D` that passes the validation, the correction term used by
`string_to_jday` is `-2` when the date is before 1582-10-15; from that date on it is
`trunc(y'/400) - trunc(y'/100)` for the shifted year `y' ≥ 1582`, which equals
`floor(y'/400) - floor(y'/100)` and is never `-2`. The Julian Day of
`1582-10-15T00:00:00` is `2299160.5`, one day after the `2299159.5` of
`1582-10-04T00:00:00`. -/
theorem gregorian_cutover (Y M D : Int) (jd0 : ℚ) (hY0 : -100000 ≤ Y) (hY1 : Y ≤ 100000)
    (hM0 : 1 ≤ M) (hM1 : M ≤ 12) (hD0 : 1 ≤ D) (hD1 : D ≤ 31) :
    ((Y < 1582 ∨ (Y = 1582 ∧ (M < 10 ∨ (M = 10 ∧ D < 15)))) →
        gregorianB (shiftYear Y M) (shiftMonth M) D = -2)
    ∧ (¬ (Y < 1582 ∨ (Y = 1582 ∧ (M < 10 ∨ (M = 10 ∧ D < 15)))) →
        1582 ≤ shiftYear Y M
        ∧ gregorianB (shiftYear Y M) (shiftMonth M) D
            = Int.tdiv (shiftYear Y M) 400 - Int.tdiv (shiftYear Y M) 100
        ∧ gregorianB (shiftYear Y M) (shiftMonth M) D
            = ⌊((shiftYear Y M : ℤ) : ℚ) / 400⌋ - ⌊((shiftYear Y M : ℤ) : ℚ) / 100⌋
        ∧ gregorianB (shiftYear Y M) (shiftMonth M) D ≠ -2)
    ∧ string_to_jday "1582-10-15T00:00:00" jd0 = (1, 2299160.5)
    ∧ string_to_jday "1582-10-04T00:00:00" jd0 = (1, 2299159.5)
    ∧ (2299160.5 : ℚ) = 2299159.5 + 1 := by
  obtain ⟨sy, sm⟩ := shift_eq Y M hY0 hY1 hM0 hM1
  have hB := gregorianB_eq (shiftYear Y M) (shiftMonth M) D (by rw [sy]; split <;> omega)
    (by rw [sy]; split <;> omega)
  have f400 : ⌊((shiftYear Y M : ℤ) : ℚ) / 400⌋ = shiftYear Y M / 400 := by
    have := floor_div_lit (shiftYear Y M) 400
    simpa using this
  have f100 : ⌊((shiftYear Y M : ℤ) : ℚ) / 100⌋ = shiftYear Y M / 100 := by
    have := floor_div_lit (shiftYear Y M) 100
    simpa using this
  refine ⟨?_, ?_, ?_, ?_, by norm_num⟩
  · intro hbefore
    rw [hB, sy, sm]
    by_cases h2 : M ≤ 2
    · simp only [h2, if_true]
      rw [if_neg (by omega)]
    · simp only [h2, if_false]
      rw [if_neg (by omega)]
  · intro hafter
    have hy : 1582 ≤ shiftYear Y M := by
      rw [sy]
      split <;> omega
    have hcond : shiftYear Y M > 1582
        ∨ (shiftYear Y M = 1582 ∧ (shiftMonth M > 10 ∨ (shiftMonth M = 10 ∧ D ≥ 15))) := by
      rw [sy, sm]
      by_cases h2 : M ≤ 2
      · simp only [h2, if_true]
        omega
      · simp only [h2, if_false]
        omega
    have hB2 : gregorianB (shiftYear Y M) (shiftMonth M) D
        = shiftYear Y M / 400 - shiftYear Y M / 100 := by
      rw [hB, if_pos hcond]
    have hy2 : shiftYear Y M ≤ 100000 := by
      rw [sy]
      split <;> omega
    refine ⟨hy, ?_, ?_, ?_⟩
    · rw [hB2, Int.tdiv_eq_ediv (by omega) (by norm_num),
        Int.tdiv_eq_ediv (by omega) (by norm_num)]
    · rw [hB2, f400, f100]
    · rw [hB2]
      omega
  · have hf : readDate "1582-10-15T00:00:00" = DateFields.mk 1582 10 15 0 0 0 := by decide
    rw [string_to_jday_of_fields _ jd0 _ hf (by decide)]
    have : julianDay (shiftYear 1582 10) (shiftMonth 10) 15 0 0 0 = 2299160.5 := by decide!
    simp only [this]
  · have hf : readDate "1582-10-04T00:00:00" = DateFields.mk 1582 10 4 0 0 0 := by decide
    rw [string_to_jday_of_fields _ jd0 _ hf (by decide)]
    have : julianDay (shiftYear 1582 10) (shiftMonth 10) 4 0 0 0 = 2299159.5 := by decide!
    simp only [this]

/-- The date 1582-10-04 passes the validation and is before the cutover. -/
theorem gregorian_cutover_witness :
    gregorianB (shiftYear 1582 10) (shiftMonth 10) 4 = -2 :=
  (gregorian_cutover 1582 10 4 0 (by decide) (by decide) (by decide) (by decide) (by decide)
    (by decide)).1 (by decide)

/-! ## The offset text of the calendar service -/

theorem atoi_minus_numeral (ds : List Char) (h : isNumeral ds = true)
    (hb : natOfDigits ds ≤ 2147483648) : atoi ('-' :: ds) = -(natOfDigits ds : Int) := by
  have hall := isNumeral_all h
  unfold atoi
  rw [List.dropWhile_cons_of_neg (by decide)]
  simp only [List.takeWhile_eq_self_iff.mpr hall]
  unfold wrap32 clampLong
  have h0 : (0 : Int) ≤ (natOfDigits ds : Int) := Int.natCast_nonneg _
  have h1 : (natOfDigits ds : Int) ≤ 2147483648 := by exact_mod_cast hb
  rw [if_neg (by omega), if_neg (by omega)]
  omega

theorem atoi_plus_numeral (ds : List Char) (h : isNumeral ds = true)
    (hb : natOfDigits ds < 2147483648) : atoi ('+' :: ds) = (natOfDigits ds : Int) := by
  have hall := isNumeral_all h
  unfold atoi
  rw [List.dropWhile_cons_of_neg (by decide)]
  simp only [List.takeWhile_eq_self_iff.mpr hall]
  unfold wrap32 clampLong
  have h0 : (0 : Int) ≤ (natOfDigits ds : Int) := Int.natCast_nonneg _
  have h1 : (natOfDigits ds : Int) < 2147483648 := by exact_mod_cast hb
  rw [if_neg (by omega), if_neg (by omega)]
  omega

theorem decodeOffset_signed (sg a b c d : Char) (hc : isdigit c = true)
    (hd : isdigit d = true) :
    decodeOffset [sg, a, b, c, d]
      = 1 / 60 * (natOfDigits [c, d] : ℚ) + (atoi [sg, a, b] : ℚ) := by
  have nCD : isNumeral [c, d] = true := by simp [isNumeral, hc, hd]
  have hlt := natOfDigits_lt_pow [c, d] (isNumeral_all nCD)
  simp only [List.length_cons, List.length_nil] at hlt
  unfold decodeOffset
  simp only [List.take, List.drop]
  rw [atoi_numeral [c, d] nCD (by omega)]
  push_cast
  rfl

/-- C14: for the offset text `-0330` the code adds the minutes, taken without the sign, to
the signed hours and returns `-3 + 30/60 = -2.5`, where the offset is `-(3 + 30/60) = -3.5`;
for every text `-HHMM` it returns `-HH + MM/60`. The text `+0530` gives `5.5`, and every
text `+HHMM` gives `HH + MM/60`. -/
theorem gmt_shift_drops_sign_of_minutes (JD : ℚ) (loc : Bool) :
    get_GMT_shift_from_system (constService "-0330".data) JD loc = -5 / 2
    ∧ (-5 / 2 : ℚ) ≠ -(3 + 30 / 60)
    ∧ get_GMT_shift_from_system (constService "+0530".data) JD loc = 11 / 2
    ∧ (∀ a b c d : Char, isdigit a = true → isdigit b = true → isdigit c = true →
        isdigit d = true →
        get_GMT_shift_from_system (constService ['-', a, b, c, d]) JD loc
            = -(natOfDigits [a, b] : ℚ) + (natOfDigits [c, d] : ℚ) / 60
        ∧ get_GMT_shift_from_system (constService ['+', a, b, c, d]) JD loc
            = (natOfDigits [a, b] : ℚ) + (natOfDigits [c, d] : ℚ) / 60) := by
  have hconst : ∀ z : List Char,
      get_GMT_shift_from_system (constService z) JD loc = decodeOffset z := by
    intro z
    unfold get_GMT_shift_from_system constService
    cases loc <;> rfl
  refine ⟨?_, by norm_num, ?_, ?_⟩
  · rw [hconst]
    decide!
  · rw [hconst]
    decide!
  · intro a b c d ha hb hc hd
    have nAB : isNumeral [a, b] = true := by simp [isNumeral, ha, hb]
    have hlt := natOfDigits_lt_pow [a, b] (isNumeral_all nAB)
    simp only [List.length_cons, List.length_nil] at hlt
    constructor
    · rw [hconst, decodeOffset_signed '-' a b c d hc hd,
        atoi_minus_numeral [a, b] nAB (by omega)]
      push_cast
      ring
    · rw [hconst, decodeOffset_signed '+' a b c d hc hd,
        atoi_plus_numeral [a, b] nAB (by omega)]
      push_cast
      ring

/-- The text `-0330`: hours 03 and minutes 30, both numerals. -/
theorem gmt_shift_drops_sign_of_minutes_witness :
    get_GMT_shift_from_system (constService ['-', '0', '3', '3', '0']) 0 false
      = -(natOfDigits ['0', '3'] : ℚ) + (natOfDigits ['3', '0'] : ℚ) / 60 :=
  ((gmt_shift_drops_sign_of_minutes 0 false).2.2.2 '0' '3' '3' '0' (by decide) (by decide)
    (by decide) (by decide)).1

/-! ## The 1970 floor -/

/-- C17: `get_GMT_shift_from_system` hands the Julian Day to the calendar service as it is.
With a service whose offset is `-0400` before Julian Day 2440588 and `-0500` from there
on, the Julian Day 2440400 gives `-4` and the epoch value gives `-5`. The sibling
`get_time_zone_name_from_system` does floor its input: below 2440588 it returns what it
returns for 2440588, for every service. -/
theorem gmt_shift_has_no_epoch_floor :
    (2440400 : ℚ) < 2440588
    ∧ get_GMT_shift_from_system (epochService "-0400".data "-0500".data) 2440400 false = -4
    ∧ get_GMT_shift_from_system (epochService "-0400".data "-0500".data) 2440588 false = -5
    ∧ get_GMT_shift_from_system (epochService "-0400".data "-0500".data) 2440400 false
        ≠ get_GMT_shift_from_system (epochService "-0400".data "-0500".data) 2440588 false
    ∧ get_GMT_shift_from_system (epochService "-0400".data "-0500".data) 2440400 true
        ≠ get_GMT_shift_from_system (epochService "-0400".data "-0500".data) 2440588 true
    ∧ (∀ (svc : CalendarService) (JD : ℚ), JD < 2440588 →
        get_time_zone_name_from_system svc JD
          = get_time_zone_name_from_system svc 2440588) := by
  refine ⟨by norm_num, by decide!, by decide!, by decide!, by decide!, ?_⟩
  intro svc JD h
  unfold get_time_zone_name_from_system
  rw [if_pos h, if_neg (by norm_num)]

/-- The Julian Day 2440400 is below the epoch value; the time zone name is that of the
epoch. -/
theorem gmt_shift_has_no_epoch_floor_witness :
    get_time_zone_name_from_system (epochService "EDT".data "EST".data) 2440400
      = get_time_zone_name_from_system (epochService "EDT".data "EST".data) 2440588 :=
  gmt_shift_has_no_epoch_floor.2.2.2.2.2 (epochService "EDT".data "EST".data) 2440400
    (by norm_num)

/-! ## Days across month and year boundaries -/

theorem readDate_isoText (Y M D h mi s : Int) (hY0 : -100000 ≤ Y) (hY1 : Y ≤ 100000)
    (hM0 : 0 ≤ M) (hM1 : M ≤ 99) (hD0 : 0 ≤ D) (hD1 : D ≤ 99) (hh0 : 0 ≤ h) (hh1 : h ≤ 99)
    (hmi0 : 0 ≤ mi) (hmi1 : mi ≤ 99) (hs0 : 0 ≤ s) (hs1 : s ≤ 99) :
    readDate (isoText Y M D h mi s) = DateFields.mk Y M D h mi s := by
  obtain ⟨nY, vY⟩ := fmtNat_spec Y.natAbs
  obtain ⟨nM, vM⟩ := fmt_prec2_spec M hM0
  obtain ⟨nD, vD⟩ := fmt_prec2_spec D hD0
  obtain ⟨nh, vh⟩ := fmt_prec2_spec h hh0
  obtain ⟨nmi, vmi⟩ := fmt_prec2_spec mi hmi0
  obtain ⟨ns, vs⟩ := fmt_prec2_spec s hs0
  unfold isoText
  rw [readDate_dateText _ _ _ _ _ _ _ nY nM nD nh nmi ns (by omega) (by omega) (by omega)
    (by omega) (by omega) (by omega), vM, vD, vh, vmi, vs, vY]
  have hy : (if decide (Y < 0) = true then -((Y.natAbs : ℕ) : ℤ) else ((Y.natAbs : ℕ) : ℤ))
      = Y := by
    by_cases h0 : Y < 0
    · simp only [h0, decide_True, if_true]
      omega
    · simp only [h0, decide_False, Bool.false_eq_true, if_false]
      omega
  rw [hy]

theorem julianDay_int (y m d h mi s : Int) (hm0 : -2147483648 ≤ m + 1)
    (hm1 : m + 1 ≤ 2147483647) :
    julianDay y m d h mi s
      = (((1461 * y) / 4 + (306001 * (m + 1)) / 10000 + gregorianB y m d + d : ℤ) : ℚ)
        + 1720996.5 + (h : ℚ) / 24 + (mi : ℚ) / 1440 + (s : ℚ) / 86400 := by
  have e1 : ⌊(365.25 : ℚ) * (y : ℚ)⌋ = (1461 * y) / 4 := by
    have h1 := floor_div_lit (1461 * y) 4
    have h2 : (365.25 : ℚ) * (y : ℚ) = ((1461 * y : ℤ) : ℚ) / ((4 : ℕ) : ℚ) := by
      push_cast
      norm_num
      ring
    rw [h2, h1]
    rfl
  have e2 : ⌊(30.6001 : ℚ) * ((m + 1 : ℤ) : ℚ)⌋ = (306001 * (m + 1)) / 10000 := by
    have h1 := floor_div_lit (306001 * (m + 1)) 10000
    have h2 : (30.6001 : ℚ) * ((m + 1 : ℤ) : ℚ)
        = ((306001 * (m + 1) : ℤ) : ℚ) / ((10000 : ℕ) : ℚ) := by
      push_cast
      norm_num
      ring
    rw [h2, h1]
    rfl
  unfold julianDay
  rw [wrap32_small (m + 1) hm0 hm1, e1, e2]
  push_cast
  norm_num
  ring

theorem leap_steps (Y : Int) :
    (Y % 4 = 0 → 1461 * Y / 4 = 1461 * (Y - 1) / 4 + 366)
    ∧ (Y % 4 ≠ 0 → 1461 * Y / 4 = 1461 * (Y - 1) / 4 + 365)
    ∧ (Y % 100 = 0 → Y / 100 = (Y - 1) / 100 + 1)
    ∧ (Y % 100 ≠ 0 → Y / 100 = (Y - 1) / 100)
    ∧ (Y % 400 = 0 → Y / 400 = (Y - 1) / 400 + 1)
    ∧ (Y % 400 ≠ 0 → Y / 400 = (Y - 1) / 400)
    ∧ (Y % 100 = 0 → Y % 4 = 0)
    ∧ (Y % 400 = 0 → Y % 100 = 0) := by
  refine ⟨?_, ?_, ?_, ?_, ?_, ?_, ?_, ?_⟩
  · intro h; omega
  · intro h
    have h3 : Y % 4 = 1 ∨ Y % 4 = 2 ∨ Y % 4 = 3 := by omega
    rcases h3 with h3 | h3 | h3 <;> omega
  · intro h; omega
  · intro h; omega
  · intro h; omega
  · intro h; omega
  · intro h; omega
  · intro h; omega

theorem step_same_year (y m L : Int) (hy0 : -100001 ≤ y) (hy1 : y ≤ 100000)
    (hF : 306001 * (m + 1 + 1) / 10000 = 306001 * (m + 1) / 10000 + L) :
    1461 * y / 4 + 306001 * (m + 1 + 1) / 10000 + gregorianB y (m + 1) 1 + 1
      = 1461 * y / 4 + 306001 * (m + 1) / 10000 + gregorianB y m L + L + 1 := by
  have hB : gregorianB y (m + 1) 1 = gregorianB y m L := by
    rw [gregorianB_eq y (m + 1) 1 hy0 hy1, gregorianB_eq y m L hy0 hy1]
    by_cases hc : y > 1582 ∨ (y = 1582 ∧ (m > 10 ∨ (m = 10 ∧ L ≥ 15)))
    · rw [if_pos hc, if_pos (by omega)]
    · rw [if_neg hc, if_neg (by omega)]
  rw [hB]
  omega

theorem step_february (Y : Int) (hY0 : -100000 ≤ Y) (hY1 : Y ≤ 100000) :
    1461 * Y / 4 + 306001 * (3 + 1) / 10000 + gregorianB Y 3 1 + 1
      = 1461 * (Y - 1) / 4 + 306001 * (14 + 1) / 10000
        + gregorianB (Y - 1) 14 (monthLength Y 2) + monthLength Y 2 + 1 := by
  obtain ⟨l1, l2, l3, l4, l5, l6, l7, l8⟩ := leap_steps Y
  have hB1 : gregorianB Y 3 1 = if 1583 ≤ Y then Y / 400 - Y / 100 else -2 := by
    rw [gregorianB_eq Y 3 1 (by omega) hY1]
    by_cases h : 1583 ≤ Y
    · rw [if_pos h, if_pos (by omega)]
    · rw [if_neg h, if_neg (by omega)]
  have hB2 : gregorianB (Y - 1) 14 (monthLength Y 2)
      = if 1583 ≤ Y then (Y - 1) / 400 - (Y - 1) / 100 else -2 := by
    rw [gregorianB_eq (Y - 1) 14 (monthLength Y 2) (by omega) (by omega)]
    by_cases h : 1583 ≤ Y
    · rw [if_pos h, if_pos (by omega)]
    · rw [if_neg h, if_neg (by omega)]
  have hF3 : (306001 * (3 + 1) / 10000 : Int) = 122 := by norm_num
  have hF14 : (306001 * (14 + 1) / 10000 : Int) = 459 := by norm_num
  have hL : monthLength Y 2
      = if Y ≤ 1582 then (if Y % 4 = 0 then 29 else 28)
        else (if Y % 4 = 0 ∧ (Y % 100 ≠ 0 ∨ Y % 400 = 0) then 29 else 28) := by
    unfold monthLength
    rw [if_pos rfl]
  rw [hB1, hB2, hF3, hF14, hL]
  by_cases hj : Y ≤ 1582
  · have hg : ¬ (1583 ≤ Y) := by omega
    rw [if_pos hj, if_neg hg, if_neg hg]
    by_cases h4 : Y % 4 = 0
    · rw [if_pos h4, l1 h4]
      ring
    · rw [if_neg h4, l2 h4]
      ring
  · have hg : 1583 ≤ Y := by omega
    rw [if_neg hj, if_pos hg, if_pos hg]
    by_cases h4 : Y % 4 = 0
    · by_cases h100 : Y % 100 = 0
      · by_cases h400 : Y % 400 = 0
        · have hc : Y % 4 = 0 ∧ (Y % 100 ≠ 0 ∨ Y % 400 = 0) := ⟨h4, Or.inr h400⟩
          rw [if_pos hc, l1 h4, l3 h100, l5 h400]
          ring
        · have hc : ¬ (Y % 4 = 0 ∧ (Y % 100 ≠ 0 ∨ Y % 400 = 0)) := by
            rintro ⟨_, h | h⟩
            · exact h h100
            · exact h400 h
          rw [if_neg hc, l1 h4, l3 h100, l6 h400]
          ring
      · have h400 : Y % 400 ≠ 0 := fun h => h100 (l8 h)
        have hc : Y % 4 = 0 ∧ (Y % 100 ≠ 0 ∨ Y % 400 = 0) := ⟨h4, Or.inl h100⟩
        rw [if_pos hc, l1 h4, l4 h100, l6 h400]
        ring
    · have h100 : Y % 100 ≠ 0 := fun h => h4 (l7 h)
      have h400 : Y % 400 ≠ 0 := fun h => h100 (l8 h)
      have hc : ¬ (Y % 4 = 0 ∧ (Y % 100 ≠ 0 ∨ Y % 400 = 0)) := fun h => h4 h.1
      rw [if_neg hc, l2 h4, l4 h100, l6 h400]
      ring

theorem monthLength_bounds (Y M : Int) : 28 ≤ monthLength Y M ∧ monthLength Y M ≤ 31 := by
  unfold monthLength
  split_ifs <;> omega

theorem jday_step_within (Y M : Int) (hY0 : -100000 ≤ Y) (hY1 : Y ≤ 100000) (hM0 : 1 ≤ M)
    (hM1 : M ≤ 11) :
    1461 * shiftYear Y (M + 1) / 4 + 306001 * (shiftMonth (M + 1) + 1) / 10000
        + gregorianB (shiftYear Y (M + 1)) (shiftMonth (M + 1)) 1 + 1
      = 1461 * shiftYear Y M / 4 + 306001 * (shiftMonth M + 1) / 10000
        + gregorianB (shiftYear Y M) (shiftMonth M) (monthLength Y M) + monthLength Y M + 1 := by
  obtain ⟨y1, m1⟩ := shift_eq Y M hY0 hY1 hM0 (by omega)
  obtain ⟨y2, m2⟩ := shift_eq Y (M + 1) hY0 hY1 (by omega) (by omega)
  rw [y1, m1, y2, m2]
  by_cases h1 : M = 1
  · subst h1
    have hL : monthLength Y 1 = 31 := by
      unfold monthLength
      norm_num
    have h := step_same_year (Y - 1) 13 31 (by omega) (by omega) (by norm_num)
    rw [hL]
    norm_num at h ⊢
    linarith
  · by_cases h2 : M = 2
    · subst h2
      have h := step_february Y hY0 hY1
      norm_num at h ⊢
      linarith
    · have hF : 306001 * (M + 1 + 1) / 10000 = 306001 * (M + 1) / 10000 + monthLength Y M := by
        have hc : M = 3 ∨ M = 4 ∨ M = 5 ∨ M = 6 ∨ M = 7 ∨ M = 8 ∨ M = 9 ∨ M = 10 ∨ M = 11 := by
          omega
        unfold monthLength
        rcases hc with h | h | h | h | h | h | h | h | h <;> subst h <;> norm_num
      have h := step_same_year Y M (monthLength Y M) (by omega) hY1 hF
      rw [if_neg (by omega), if_neg (by omega), if_neg (by omega), if_neg (by omega)]
      exact h

theorem jday_step_december (Y : Int) (hY0 : -100000 ≤ Y) (hY1 : Y ≤ 99999) :
    1461 * shiftYear (Y + 1) 1 / 4 + 306001 * (shiftMonth 1 + 1) / 10000
        + gregorianB (shiftYear (Y + 1) 1) (shiftMonth 1) 1 + 1
      = 1461 * shiftYear Y 12 / 4 + 306001 * (shiftMonth 12 + 1) / 10000
        + gregorianB (shiftYear Y 12) (shiftMonth 12) (monthLength Y 12) + monthLength Y 12
        + 1 := by
  obtain ⟨y1, m1⟩ := shift_eq Y 12 hY0 (by omega) (by norm_num) (by norm_num)
  obtain ⟨y2, m2⟩ := shift_eq (Y + 1) 1 (by omega) (by omega) (by norm_num) (by norm_num)
  have hL : monthLength Y 12 = 31 := by
    unfold monthLength
    norm_num
  have h := step_same_year Y 12 31 (by omega) (by omega) (by norm_num)
  rw [y1, m1, y2, m2, hL]
  norm_num at h ⊢
  linarith

theorem string_to_jday_isoText (Y M D h mi s : Int) (jd0 : ℚ) (hY0 : -100000 ≤ Y)
    (hY1 : Y ≤ 100000) (hM0 : 1 ≤ M) (hM1 : M ≤ 12) (hD0 : 1 ≤ D) (hD1 : D ≤ 31)
    (hh0 : 0 ≤ h) (hh1 : h ≤ 23) (hmi0 : 0 ≤ mi) (hmi1 : mi ≤ 59) (hs0 : 0 ≤ s)
    (hs1 : s ≤ 59) :
    string_to_jday (isoText Y M D h mi s) jd0
      = (1, (((1461 * shiftYear Y M / 4 + 306001 * (shiftMonth M + 1) / 10000
            + gregorianB (shiftYear Y M) (shiftMonth M) D + D : ℤ) : ℚ))
          + 1720996.5 + (h : ℚ) / 24 + (mi : ℚ) / 1440 + (s : ℚ) / 86400) := by
  have hf := readDate_isoText Y M D h mi s hY0 hY1 (by omega) (by omega) (by omega)
    (by omega) hh0 (by omega) hmi0 (by omega) hs0 (by omega)
  have hb : outOfBounds (DateFields.mk Y M D h mi s) = false := by
    rw [Bool.eq_false_iff]
    intro hc
    rw [outOfBounds_iff] at hc
    simp only at hc
    omega
  obtain ⟨_, sm⟩ := shift_eq Y M hY0 hY1 hM0 hM1
  rw [string_to_jday_of_fields _ jd0 _ hf hb]
  simp only
  rw [julianDay_int _ _ _ _ _ _ (by rw [sm]; split <;> omega) (by rw [sm]; split <;> omega)]

theorem jday_exact_step (Y M h mi s : Int) (jd0 : ℚ) (hY0 : -100000 ≤ Y)
    (hY1 : Y ≤ 99999) (hM0 : 1 ≤ M) (hM1 : M ≤ 12) (hh0 : 0 ≤ h) (hh1 : h ≤ 23)
    (hmi0 : 0 ≤ mi) (hmi1 : mi ≤ 59) (hs0 : 0 ≤ s) (hs1 : s ≤ 59) :
    ∃ jd : ℚ,
      string_to_jday (isoText Y M (monthLength Y M) h mi s) jd0 = (1, jd)
      ∧ string_to_jday
          (isoText (if M = 12 then Y + 1 else Y) (if M = 12 then 1 else M + 1) 1 h mi s) jd0
        = (1, jd + 1) := by
  obtain ⟨hL0, hL1⟩ := monthLength_bounds Y M
  refine ⟨_, string_to_jday_isoText Y M (monthLength Y M) h mi s jd0 hY0 (by omega) hM0 hM1
    (by omega) hL1 hh0 hh1 hmi0 hmi1 hs0 hs1, ?_⟩
  by_cases h12 : M = 12
  · subst h12
    rw [if_pos rfl, if_pos rfl, string_to_jday_isoText (Y + 1) 1 1 h mi s jd0 (by omega)
      (by omega) (by norm_num) (by norm_num) (by norm_num) (by norm_num) hh0 hh1 hmi0 hmi1
      hs0 hs1]
    have e := jday_step_december Y hY0 hY1
    have e2 := congrArg (fun z : Int => (z : ℚ)) e
    simp only at e2
    rw [e2]
    push_cast
    ring_nf
  · rw [if_neg h12, if_neg h12, string_to_jday_isoText Y (M + 1) 1 h mi s jd0 hY0 (by omega)
      (by omega) (by omega) (by norm_num) (by norm_num) hh0 hh1 hmi0 hmi1 hs0 hs1]
    have e := jday_step_within Y M hY0 (by omega) hM0 (by omega)
    have e2 := congrArg (fun z : Int => (z : ℚ)) e
    simp only at e2
    rw [e2]
    push_cast
    ring_nf

/-! ## Binary64 rounding -/

theorem log2Aux_spec (fuel : Nat) : ∀ n : Nat, 0 < n → n < 2 ^ fuel →
    2 ^ log2Aux fuel n ≤ n ∧ n < 2 ^ (log2Aux fuel n + 1) := by
  induction fuel with
  | zero =>
    intro n h0 h1
    simp at h1
    omega
  | succ k ih =>
    intro n h0 h1
    unfold log2Aux
    by_cases h2 : n < 2
    · rw [if_pos h2]
      simp
      omega
    · rw [if_neg h2]
      have hk : n / 2 < 2 ^ k := by
        rw [pow_succ] at h1
        omega
      obtain ⟨a, b⟩ := ih (n / 2) (by omega) hk
      rw [pow_succ, pow_succ]
      rw [pow_succ] at b
      constructor <;> omega

theorem natLog2_spec (n : Nat) (h : 0 < n) :
    2 ^ natLog2 n ≤ n ∧ n < 2 ^ (natLog2 n + 1) :=
  log2Aux_spec n n h (Nat.lt_two_pow n)

theorem binExp_spec (q : ℚ) (hq : q ≠ 0) :
    (2 : ℚ) ^ binExp q ≤ |q| ∧ |q| < 2 ^ (binExp q + 1) := by
  have hn : 0 < q.num.natAbs := Int.natAbs_pos.mpr (Rat.num_ne_zero.mpr hq)
  have hd : 0 < q.den := q.den_pos
  obtain ⟨n0, n1⟩ := natLog2_spec _ hn
  obtain ⟨d0, d1⟩ := natLog2_spec _ hd
  have habs : |q| = (q.num.natAbs : ℚ) / (q.den : ℚ) := by
    conv_lhs => rw [← Rat.num_div_den q]
    rw [abs_div, Nat.cast_natAbs, Int.cast_abs, abs_of_pos (by exact_mod_cast hd : (0 : ℚ) < q.den)]
  have hdq : (0 : ℚ) < (q.den : ℚ) := by exact_mod_cast hd
  have N0 : (2 : ℚ) ^ (natLog2 q.num.natAbs : Int) ≤ (q.num.natAbs : ℚ) := by
    rw [zpow_natCast]
    exact_mod_cast n0
  have N1 : (q.num.natAbs : ℚ) < (2 : ℚ) ^ ((natLog2 q.num.natAbs : Int) + 1) := by
    have : (q.num.natAbs : ℚ) < (2 : ℚ) ^ (natLog2 q.num.natAbs + 1) := by exact_mod_cast n1
    rw [← zpow_natCast] at this
    exact_mod_cast this
  have D0 : (2 : ℚ) ^ (natLog2 q.den : Int) ≤ (q.den : ℚ) := by
    rw [zpow_natCast]
    exact_mod_cast d0
  have D1 : (q.den : ℚ) < (2 : ℚ) ^ ((natLog2 q.den : Int) + 1) := by
    have : (q.den : ℚ) < (2 : ℚ) ^ (natLog2 q.den + 1) := by exact_mod_cast d1
    rw [← zpow_natCast] at this
    exact_mod_cast this
  have hp : ∀ k : Int, (0 : ℚ) < 2 ^ k := fun k => zpow_pos (by norm_num) k
  unfold binExp
  split_ifs with h
  · refine ⟨h, ?_⟩
    rw [habs, div_lt_iff₀ hdq]
    have e : (2 : ℚ) ^ ((natLog2 q.num.natAbs : Int) - (natLog2 q.den : Int) + 1)
        * 2 ^ (natLog2 q.den : Int) = 2 ^ ((natLog2 q.num.natAbs : Int) + 1) := by
      rw [← zpow_add₀ (by norm_num)]
      congr 1
      ring
    have : (2 : ℚ) ^ ((natLog2 q.num.natAbs : Int) - (natLog2 q.den : Int) + 1)
        * 2 ^ (natLog2 q.den : Int)
        ≤ 2 ^ ((natLog2 q.num.natAbs : Int) - (natLog2 q.den : Int) + 1) * (q.den : ℚ) :=
      mul_le_mul_of_nonneg_left D0 (hp _).le
    linarith
  · constructor
    · rw [habs, le_div_iff₀ hdq]
      have e : (2 : ℚ) ^ ((natLog2 q.num.natAbs : Int) - (natLog2 q.den : Int) - 1)
          * 2 ^ ((natLog2 q.den : Int) + 1) = 2 ^ (natLog2 q.num.natAbs : Int) := by
        rw [← zpow_add₀ (by norm_num)]
        congr 1
        ring
      have : (2 : ℚ) ^ ((natLog2 q.num.natAbs : Int) - (natLog2 q.den : Int) - 1) * (q.den : ℚ)
          ≤ 2 ^ ((natLog2 q.num.natAbs : Int) - (natLog2 q.den : Int) - 1)
            * 2 ^ ((natLog2 q.den : Int) + 1) :=
        mul_le_mul_of_nonneg_left D1.le (hp _).le
      linarith
    · rw [sub_add_cancel]
      exact not_le.mp h

theorem roundHalfEven_int (m : Int) : roundHalfEven (m : ℚ) = m := by
  unfold roundHalfEven
  rw [Int.floor_intCast, sub_self, if_pos (by norm_num)]

theorem roundHalfEven_err (q : ℚ) : |(roundHalfEven q : ℚ) - q| ≤ 1 / 2 := by
  have h0 := Int.floor_le q
  have h1 := Int.lt_floor_add_one q
  unfold roundHalfEven
  split_ifs with a b c
  · rw [abs_le]
    constructor <;> linarith
  · rw [abs_le]
    push_cast
    constructor <;> linarith
  · rw [abs_le]
    constructor <;> linarith
  · rw [abs_le]
    push_cast
    constructor <;> linarith

theorem roundDouble_err (z : ℚ) : |roundDouble z - z| ≤ |z| / 2 ^ 53 := by
  unfold roundDouble
  by_cases hz : z = 0
  · rw [if_pos hz, hz]
    simp
  · rw [if_neg hz]
    have hu : (0 : ℚ) < 2 ^ (binExp z - 52) := zpow_pos (by norm_num) _
    have hlog : (2 : ℚ) ^ binExp z ≤ |z| := (binExp_spec z hz).1
    have hsplit : (2 : ℚ) ^ (binExp z - 52) = 2 ^ binExp z / 2 ^ 52 := by
      rw [zpow_sub₀ (by norm_num)]
      norm_cast
    set u : ℚ := 2 ^ (binExp z - 52) with hudef
    have herr := roundHalfEven_err (z / u)
    have e : (roundHalfEven (z / u) : ℚ) * u - z = ((roundHalfEven (z / u) : ℚ) - z / u) * u := by
      field_simp
    rw [e, abs_mul, abs_of_pos hu]
    have h1 : |(roundHalfEven (z / u) : ℚ) - z / u| * u ≤ 1 / 2 * u :=
      mul_le_mul_of_nonneg_right herr hu.le
    have h2 : u ≤ |z| / 2 ^ 52 := by
      rw [hsplit]
      exact div_le_div_of_nonneg_right hlog (by positivity)
    have h3 : (1 : ℚ) / 2 * (|z| / 2 ^ 52) = |z| / 2 ^ 53 := by ring
    linarith

theorem roundDouble_exact (k : Int) (j : Nat) (hk : |k| < 2 ^ 53) :
    roundDouble ((k : ℚ) / 2 ^ j) = (k : ℚ) / 2 ^ j := by
  unfold roundDouble
  by_cases hz : (k : ℚ) / 2 ^ j = 0
  · rw [if_pos hz, hz]
  · rw [if_neg hz]
    set e : Int := binExp ((k : ℚ) / 2 ^ j) with hedef
    have hlog : (2 : ℚ) ^ e ≤ |(k : ℚ) / 2 ^ j| := (binExp_spec _ hz).1
    have habs : |(k : ℚ) / 2 ^ j| < 2 ^ ((53 : Int) - j) := by
      rw [abs_div, abs_of_pos (by positivity : (0 : ℚ) < 2 ^ j), zpow_sub₀ (by norm_num)]
      have : |(k : ℚ)| < 2 ^ (53 : Int) := by
        have h1 : ((|k| : Int) : ℚ) < ((2 ^ 53 : Int) : ℚ) := by exact_mod_cast hk
        rw [Int.cast_abs] at h1
        exact_mod_cast h1
      have h2 : (2 : ℚ) ^ (j : Int) = 2 ^ j := zpow_natCast 2 j
      rw [h2]
      exact div_lt_div_of_pos_right this (by positivity)
    have hlt : (2 : ℚ) ^ e < 2 ^ ((53 : Int) - j) := lt_of_le_of_lt hlog habs
    have he : e < 53 - j := (zpow_lt_zpow_iff_right₀ (by norm_num : (1 : ℚ) < 2)).mp hlt
    obtain ⟨n, hn⟩ : ∃ n : Nat, (n : Int) = 52 - j - e := ⟨(52 - j - e).toNat, by omega⟩
    have hq : (k : ℚ) / 2 ^ j / 2 ^ (e - 52) = ((k * 2 ^ n : Int) : ℚ) := by
      have h1 : (2 : ℚ) ^ (e - 52) = 2 ^ (-(n : Int) - j) := by
        congr 1
        omega
      rw [h1, zpow_sub₀ (by norm_num), zpow_neg, zpow_natCast, zpow_natCast]
      push_cast
      field_simp
      ring
    rw [hq, roundHalfEven_int, ← hq]
    field_simp
    ring

theorem roundDouble_int (n : Int) (h0 : -9007199254740992 < n) (h1 : n < 9007199254740992) :
    roundDouble (n : ℚ) = (n : ℚ) := by
  have h := roundDouble_exact n 0 (by rw [abs_lt]; constructor <;> norm_num <;> omega)
  simpa using h

theorem roundDouble_halves (k : Int) (h0 : -9007199254740992 < k)
    (h1 : k < 9007199254740992) : roundDouble ((k : ℚ) / 2) = (k : ℚ) / 2 := by
  have h := roundDouble_exact k 1 (by rw [abs_lt]; constructor <;> norm_num <;> omega)
  simpa using h

theorem roundDouble_quarters (k : Int) (h0 : -9007199254740992 < k)
    (h1 : k < 9007199254740992) : roundDouble ((k : ℚ) / 4) = (k : ℚ) / 4 := by
  have h := roundDouble_exact k 2 (by rw [abs_lt]; constructor <;> norm_num <;> omega)
  norm_num at h
  exact h

theorem roundDouble_unit (q : ℚ) (h0 : 0 ≤ q) (h1 : q ≤ 99 / 100) :
    0 ≤ roundDouble q ∧ roundDouble q ≤ 1 := by
  have e := roundDouble_err q
  rw [abs_of_nonneg h0, abs_le] at e
  have hq : q / 2 ^ 53 ≤ q := div_le_self h0 (by norm_num)
  have hq2 : q / 2 ^ 53 ≤ 1 / 100 := by
    have : q / 2 ^ 53 ≤ (99 / 100) / 2 ^ 53 := div_le_div_of_nonneg_right h1 (by positivity)
    have h2 : ((99 : ℚ) / 100) / 2 ^ 53 ≤ 1 / 100 := by norm_num
    linarith
  constructor <;> linarith [e.1, e.2]

theorem roundDouble_near (z : ℚ) (h : |z| ≤ 67108864) : |roundDouble z - z| ≤ 1 / 2 ^ 27 := by
  have e := roundDouble_err z
  have h1 : |z| / 2 ^ 53 ≤ 67108864 / 2 ^ 53 := div_le_div_of_nonneg_right h (by positivity)
  have h2 : (67108864 : ℚ) / 2 ^ 53 = 1 / 2 ^ 27 := by norm_num
  linarith

theorem timeOfDay_err (a x1 x2 x3 : ℚ) (ha : |a| ≤ 67108860) (h10 : 0 ≤ x1) (h11 : x1 ≤ 1)
    (h20 : 0 ≤ x2) (h21 : x2 ≤ 1) (h30 : 0 ≤ x3) (h31 : x3 ≤ 1) :
    |roundDouble (roundDouble (roundDouble (a + x1) + x2) + x3) - (a + x1 + x2 + x3)|
      ≤ 3 / 2 ^ 27 := by
  rw [abs_le] at ha
  have hs : (1 : ℚ) / 2 ^ 27 ≤ 1 / 2 := by norm_num
  have e1 := roundDouble_near (a + x1) (by rw [abs_le]; constructor <;> linarith)
  rw [abs_le] at e1
  have e2 := roundDouble_near (roundDouble (a + x1) + x2)
    (by rw [abs_le]; constructor <;> linarith)
  rw [abs_le] at e2
  have e3 := roundDouble_near (roundDouble (roundDouble (a + x1) + x2) + x3)
    (by rw [abs_le]; constructor <;> linarith)
  rw [abs_le] at e3
  rw [abs_le]
  constructor <;> linarith

theorem gregorianB_bounds (y m d : Int) (hy0 : -100001 ≤ y) (hy1 : y ≤ 100000) :
    -1251 ≤ gregorianB y m d ∧ gregorianB y m d ≤ 1251 := by
  rw [gregorianB_eq y m d hy0 hy1]
  split <;> omega

theorem monthTerm_double (m : Int) (hm0 : 3 ≤ m) (hm1 : m ≤ 14) :
    ⌊roundDouble (roundDouble 30.6001 * (wrap32 (m + 1) : ℚ))⌋ = 306001 * (m + 1) / 10000 := by
  interval_cases m <;> decide!

theorem julianDayDouble_eq (y m d h mi s : Int) (hy0 : -100001 ≤ y) (hy1 : y ≤ 100000)
    (hm0 : 3 ≤ m) (hm1 : m ≤ 14) (hd0 : 1 ≤ d) (hd1 : d ≤ 31) :
    julianDayDouble y m d h mi s
      = roundDouble (roundDouble (roundDouble
          ((((1461 * y / 4 + 306001 * (m + 1) / 10000 + gregorianB y m d + d : ℤ) : ℚ)
              + 1720996.5)
            + roundDouble ((h : ℚ) / 24))
          + roundDouble ((mi : ℚ) / 1440))
          + roundDouble ((s : ℚ) / 86400)) := by
  obtain ⟨hB0, hB1⟩ := gregorianB_bounds y m d hy0 hy1
  have c1 : roundDouble 365.25 = 1461 / 4 := by decide!
  have c2 : roundDouble 1720996.5 = 3441993 / 2 := by decide!
  have c3 : roundDouble 24.0 = 24 := by decide!
  have c4 : roundDouble 1440.0 = 1440 := by decide!
  have c5 : roundDouble 86400.0 = 86400 := by decide!
  have e1 : ⌊roundDouble (roundDouble 365.25 * (y : ℚ))⌋ = 1461 * y / 4 := by
    have h2 : (1461 / 4 : ℚ) * (y : ℚ) = ((1461 * y : ℤ) : ℚ) / 4 := by
      push_cast
      ring
    rw [c1, h2, roundDouble_quarters _ (by omega) (by omega)]
    have h1 := floor_div_lit (1461 * y) 4
    exact_mod_cast h1
  have e2 := monthTerm_double m hm0 hm1
  have hF0 : 0 ≤ 306001 * (m + 1) / 10000 := by omega
  have hF1 : 306001 * (m + 1) / 10000 ≤ 459 := by omega
  have hA0 : -36525366 ≤ 1461 * y / 4 := by omega
  have hA1 : 1461 * y / 4 ≤ 36525000 := by omega
  unfold julianDayDouble
  rw [e1, e2, c2, c3, c4, c5]
  have s1 : roundDouble (((1461 * y / 4 : ℤ) : ℚ) + ((306001 * (m + 1) / 10000 : ℤ) : ℚ))
      = ((1461 * y / 4 + 306001 * (m + 1) / 10000 : ℤ) : ℚ) := by
    rw [← Int.cast_add]
    exact roundDouble_int _ (by omega) (by omega)
  have s2 : roundDouble (((1461 * y / 4 + 306001 * (m + 1) / 10000 : ℤ) : ℚ)
        + (gregorianB y m d : ℚ))
      = ((1461 * y / 4 + 306001 * (m + 1) / 10000 + gregorianB y m d : ℤ) : ℚ) := by
    rw [← Int.cast_add]
    exact roundDouble_int _ (by omega) (by omega)
  have s3 : roundDouble (((1461 * y / 4 + 306001 * (m + 1) / 10000 + gregorianB y m d : ℤ) : ℚ)
        + 3441993 / 2)
      = ((2 * (1461 * y / 4 + 306001 * (m + 1) / 10000 + gregorianB y m d) + 3441993 : ℤ)
          : ℚ) / 2 := by
    have h2 : ((1461 * y / 4 + 306001 * (m + 1) / 10000 + gregorianB y m d : ℤ) : ℚ)
        + 3441993 / 2
        = ((2 * (1461 * y / 4 + 306001 * (m + 1) / 10000 + gregorianB y m d) + 3441993 : ℤ)
          : ℚ) / 2 := by
      push_cast
      ring
    rw [h2]
    exact roundDouble_halves _ (by omega) (by omega)
  have s4 : roundDouble (((2 * (1461 * y / 4 + 306001 * (m + 1) / 10000 + gregorianB y m d)
        + 3441993 : ℤ) : ℚ) / 2 + (d : ℚ))
      = ((1461 * y / 4 + 306001 * (m + 1) / 10000 + gregorianB y m d + d : ℤ) : ℚ)
          + 1720996.5 := by
    have h2 : ((2 * (1461 * y / 4 + 306001 * (m + 1) / 10000 + gregorianB y m d)
        + 3441993 : ℤ) : ℚ) / 2 + (d : ℚ)
        = ((2 * (1461 * y / 4 + 306001 * (m + 1) / 10000 + gregorianB y m d + d)
            + 3441993 : ℤ) : ℚ) / 2 := by
      push_cast
      ring
    rw [h2, roundDouble_halves _ (by omega) (by omega)]
    push_cast
    norm_num
    ring
  rw [s1, s2, s3, s4]

theorem roundDouble_zero : roundDouble 0 = 0 := by
  unfold roundDouble
  rw [if_pos rfl]

theorem roundDouble_jd (N : Int) (h0 : -100000000 ≤ N) (h1 : N ≤ 100000000) :
    roundDouble ((N : ℚ) + 1720996.5) = (N : ℚ) + 1720996.5 := by
  have h2 : (N : ℚ) + 1720996.5 = ((2 * N + 3441993 : ℤ) : ℚ) / 2 := by
    push_cast
    norm_num
    ring
  rw [h2]
  exact roundDouble_halves _ (by omega) (by omega)

theorem julianDayDouble_step (y1 m1 d1 y2 m2 d2 h mi s : Int)
    (hy10 : -100001 ≤ y1) (hy11 : y1 ≤ 100000) (hm10 : 3 ≤ m1) (hm11 : m1 ≤ 14)
    (hd10 : 1 ≤ d1) (hd11 : d1 ≤ 31)
    (hy20 : -100001 ≤ y2) (hy21 : y2 ≤ 100000) (hm20 : 3 ≤ m2) (hm21 : m2 ≤ 14)
    (hd20 : 1 ≤ d2) (hd21 : d2 ≤ 31)
    (hh0 : 0 ≤ h) (hh1 : h ≤ 23) (hmi0 : 0 ≤ mi) (hmi1 : mi ≤ 59) (hs0 : 0 ≤ s)
    (hs1 : s ≤ 59)
    (hN : 1461 * y2 / 4 + 306001 * (m2 + 1) / 10000 + gregorianB y2 m2 d2 + d2
      = 1461 * y1 / 4 + 306001 * (m1 + 1) / 10000 + gregorianB y1 m1 d1 + d1 + 1) :
    |julianDayDouble y2 m2 d2 h mi s - (julianDayDouble y1 m1 d1 h mi s + 1)| ≤ 1 / 2 ^ 24
    ∧ (h = 0 → mi = 0 → s = 0 →
        julianDayDouble y2 m2 d2 h mi s = julianDayDouble y1 m1 d1 h mi s + 1) := by
  obtain ⟨hB0, hB1⟩ := gregorianB_bounds y1 m1 d1 hy10 hy11
  rw [julianDayDouble_eq y1 m1 d1 h mi s hy10 hy11 hm10 hm11 hd10 hd11,
    julianDayDouble_eq y2 m2 d2 h mi s hy20 hy21 hm20 hm21 hd20 hd21, hN]
  generalize hNdef : 1461 * y1 / 4 + 306001 * (m1 + 1) / 10000 + gregorianB y1 m1 d1 + d1
    = N
  have hN0 : -40000000 ≤ N := by omega
  have hN1 : N ≤ 40000000 := by omega
  have hcast : ((N + 1 : ℤ) : ℚ) + 1720996.5 = ((N : ℚ) + 1720996.5) + 1 := by
    push_cast
    ring
  constructor
  · have hx1 := roundDouble_unit ((h : ℚ) / 24)
      (div_nonneg (by exact_mod_cast hh0) (by norm_num))
      (by
        rw [div_le_iff₀ (by norm_num)]
        have : (h : ℚ) ≤ 23 := by exact_mod_cast hh1
        linarith)
    have hx2 := roundDouble_unit ((mi : ℚ) / 1440)
      (div_nonneg (by exact_mod_cast hmi0) (by norm_num))
      (by
        rw [div_le_iff₀ (by norm_num)]
        have : (mi : ℚ) ≤ 59 := by exact_mod_cast hmi1
        linarith)
    have hx3 := roundDouble_unit ((s : ℚ) / 86400)
      (div_nonneg (by exact_mod_cast hs0) (by norm_num))
      (by
        rw [div_le_iff₀ (by norm_num)]
        have : (s : ℚ) ≤ 59 := by exact_mod_cast hs1
        linarith)
    have hq0 : (-40000000 : ℚ) ≤ (N : ℚ) := by exact_mod_cast hN0
    have hq1 : (N : ℚ) ≤ 40000000 := by exact_mod_cast hN1
    have ha1 : |(N : ℚ) + 1720996.5| ≤ 67108860 := by
      rw [abs_le]
      constructor <;> norm_num <;> linarith
    have ha2 : |((N + 1 : ℤ) : ℚ) + 1720996.5| ≤ 67108860 := by
      rw [hcast, abs_le]
      constructor <;> norm_num <;> linarith
    have e1 := timeOfDay_err _ _ _ _ ha1 hx1.1 hx1.2 hx2.1 hx2.2 hx3.1 hx3.2
    have e2 := timeOfDay_err _ _ _ _ ha2 hx1.1 hx1.2 hx2.1 hx2.2 hx3.1 hx3.2
    rw [hcast] at e2
    rw [hcast]
    rw [abs_le] at e1 e2 ⊢
    have hc : (3 : ℚ) / 2 ^ 27 + 3 / 2 ^ 27 ≤ 1 / 2 ^ 24 := by norm_num
    constructor <;> linarith [e1.1, e1.2, e2.1, e2.2]
  · intro h0 m0 s0
    subst h0 m0 s0
    simp only [Int.cast_zero, zero_div, roundDouble_zero, add_zero]
    rw [roundDouble_jd N (by omega) (by omega), roundDouble_jd N (by omega) (by omega),
      roundDouble_jd N (by omega) (by omega), hcast, ← hcast,
      roundDouble_jd (N + 1) (by omega) (by omega),
      roundDouble_jd (N + 1) (by omega) (by omega),
      roundDouble_jd (N + 1) (by omega) (by omega), hcast]

theorem string_to_jday_double_isoText (Y M D h mi s : Int) (jd0 : ℚ) (hY0 : -100000 ≤ Y)
    (hY1 : Y ≤ 100000) (hM0 : 1 ≤ M) (hM1 : M ≤ 12) (hD0 : 1 ≤ D) (hD1 : D ≤ 31)
    (hh0 : 0 ≤ h) (hh1 : h ≤ 23) (hmi0 : 0 ≤ mi) (hmi1 : mi ≤ 59) (hs0 : 0 ≤ s)
    (hs1 : s ≤ 59) :
    string_to_jday_double (isoText Y M D h mi s) jd0
      = (1, julianDayDouble (shiftYear Y M) (shiftMonth M) D h mi s) := by
  have hf := readDate_isoText Y M D h mi s hY0 hY1 (by omega) (by omega) (by omega)
    (by omega) hh0 (by omega) hmi0 (by omega) hs0 (by omega)
  have hb : outOfBounds (DateFields.mk Y M D h mi s) = false := by
    rw [Bool.eq_false_iff]
    intro hc
    rw [outOfBounds_iff] at hc
    simp only at hc
    omega
  unfold string_to_jday_double
  simp only [hf, hb, Bool.false_eq_true, if_false]

theorem shift_range (Y M : Int) (hY0 : -100000 ≤ Y) (hY1 : Y ≤ 100000) (hM0 : 1 ≤ M)
    (hM1 : M ≤ 12) :
    -100001 ≤ shiftYear Y M ∧ shiftYear Y M ≤ 100000 ∧ 3 ≤ shiftMonth M
    ∧ shiftMonth M ≤ 14 := by
  obtain ⟨sy, sm⟩ := shift_eq Y M hY0 hY1 hM0 hM1
  rw [sy, sm]
  split <;> omega

/-- C19, as the code behaves: for every year `Y` in `[-100000, 99999]`, every month `M`
and every time of day, with `L = monthLength Y M` (February has 29 days when `Y` is
divisible by 4 up to 1582, and when `Y` is divisible by 4 but not by 100 unless by 400
after it), `string_to_jday` succeeds on day `L` of month `M` and on the first day of the
following month (January of `Y + 1` after December). In exact arithmetic the second
Julian Day is the first plus exactly 1. In binary64 arithmetic the two computed values
are 1 apart up to `2^-24` of a day; they are exactly 1 apart at `00:00:00`. Negative
years are included. -/
theorem julian_day_counts_days (Y M h mi s : Int) (jd0 : ℚ) (hY0 : -100000 ≤ Y)
    (hY1 : Y ≤ 99999) (hM0 : 1 ≤ M) (hM1 : M ≤ 12) (hh0 : 0 ≤ h) (hh1 : h ≤ 23)
    (hmi0 : 0 ≤ mi) (hmi1 : mi ≤ 59) (hs0 : 0 ≤ s) (hs1 : s ≤ 59) :
    (∃ jd : ℚ,
      string_to_jday (isoText Y M (monthLength Y M) h mi s) jd0 = (1, jd)
      ∧ string_to_jday
          (isoText (if M = 12 then Y + 1 else Y) (if M = 12 then 1 else M + 1) 1 h mi s) jd0
        = (1, jd + 1))
    ∧ (∃ jd1 jd2 : ℚ,
      string_to_jday_double (isoText Y M (monthLength Y M) h mi s) jd0 = (1, jd1)
      ∧ string_to_jday_double
          (isoText (if M = 12 then Y + 1 else Y) (if M = 12 then 1 else M + 1) 1 h mi s) jd0
        = (1, jd2)
      ∧ |jd2 - (jd1 + 1)| ≤ 1 / 2 ^ 24
      ∧ (h = 0 → mi = 0 → s = 0 → jd2 = jd1 + 1)) := by
  refine ⟨jday_exact_step Y M h mi s jd0 hY0 hY1 hM0 hM1 hh0 hh1 hmi0 hmi1 hs0 hs1, ?_⟩
  obtain ⟨hL0, hL1⟩ := monthLength_bounds Y M
  obtain ⟨r1, r2, r3, r4⟩ := shift_range Y M hY0 (by omega) hM0 hM1
  have hfirst := string_to_jday_double_isoText Y M (monthLength Y M) h mi s jd0 hY0
    (by omega) hM0 hM1 (by omega) hL1 hh0 hh1 hmi0 hmi1 hs0 hs1
  by_cases h12 : M = 12
  · subst h12
    obtain ⟨q1, q2, q3, q4⟩ := shift_range (Y + 1) 1 (by omega) (by omega) (by norm_num)
      (by norm_num)
    rw [if_pos rfl, if_pos rfl]
    have hstep := julianDayDouble_step _ _ _ _ _ _ h mi s r1 r2 r3 r4 (by omega) hL1 q1 q2
      q3 q4 (by norm_num) (by norm_num) hh0 hh1 hmi0 hmi1 hs0 hs1
      (jday_step_december Y hY0 hY1)
    exact ⟨_, _, hfirst, string_to_jday_double_isoText (Y + 1) 1 1 h mi s jd0 (by omega)
      (by omega) (by norm_num) (by norm_num) (by norm_num) (by norm_num) hh0 hh1 hmi0 hmi1
      hs0 hs1, hstep.1, hstep.2⟩
  · obtain ⟨q1, q2, q3, q4⟩ := shift_range Y (M + 1) hY0 (by omega) (by omega) (by omega)
    rw [if_neg h12, if_neg h12]
    have hstep := julianDayDouble_step _ _ _ _ _ _ h mi s r1 r2 r3 r4 (by omega) hL1 q1 q2
      q3 q4 (by norm_num) (by norm_num) hh0 hh1 hmi0 hmi1 hs0 hs1
      (jday_step_within Y M hY0 (by omega) hM0 (by omega))
    exact ⟨_, _, hfirst, string_to_jday_double_isoText Y (M + 1) 1 h mi s jd0 hY0 (by omega)
      (by omega) (by omega) (by norm_num) (by norm_num) hh0 hh1 hmi0 hmi1 hs0 hs1,
      hstep.1, hstep.2⟩

/-- February 2000 has 29 days: `2000-03-01` follows `2000-02-29`. -/
theorem julian_day_counts_days_witness :
    ∃ jd1 jd2 : ℚ,
      string_to_jday_double (isoText 2000 2 (monthLength 2000 2) 12 30 15) 0 = (1, jd1)
      ∧ string_to_jday_double
          (isoText (if (2 : Int) = 12 then 2000 + 1 else 2000)
            (if (2 : Int) = 12 then 1 else 2 + 1) 1 12 30 15) 0
        = (1, jd2)
      ∧ |jd2 - (jd1 + 1)| ≤ 1 / 2 ^ 24
      ∧ ((12 : Int) = 0 → (30 : Int) = 0 → (15 : Int) = 0 → jd2 = jd1 + 1) :=
  (julian_day_counts_days 2000 2 12 30 15 0 (by decide) (by decide) (by decide) (by decide)
    (by decide) (by decide) (by decide) (by decide) (by decide) (by decide)).2

/-- C19 fails as stated: December of the year -4713 has 31 days; in binary64 arithmetic
the Julian Day of `-4713-12-31T12:30:15` is `-4408992760198303 / 2^52` and that of
`-4712-01-01T12:30:15` is `6054839499020333 / 2^58`; their difference is `1 - 19/2^58`,
which a binary64 subtraction gives as `1 - 2^-53`, not 1. -/
theorem julian_day_counts_days_counterexample :
    monthLength (-4713) 12 = 31
    ∧ isoText (-4713) 12 31 12 30 15 = "-4713-12-31T12:30:15"
    ∧ isoText (-4712) 1 1 12 30 15 = "-4712-01-01T12:30:15"
    ∧ string_to_jday_double "-4713-12-31T12:30:15" 0
        = (1, -4408992760198303 / 4503599627370496)
    ∧ string_to_jday_double "-4712-01-01T12:30:15" 0
        = (1, 6054839499020333 / 288230376151711744)
    ∧ (6054839499020333 / 288230376151711744 : ℚ)
        - (-4408992760198303 / 4503599627370496) = 1 - 19 / 2 ^ 58
    ∧ roundDouble ((6054839499020333 / 288230376151711744 : ℚ)
        - (-4408992760198303 / 4503599627370496)) = 1 - 1 / 2 ^ 53 := by
  refine ⟨by decide, by decide, by decide, by decide!, by decide!, by norm_num, by decide!⟩

end StelUtility
